import Mathlib

/-!
# EigenPartitioner: the timespan-adaptive range partitioner

A shallow embedding of
`parlaylib/include/parlay/internal/scheduler_plugins/eigen/timespan_partitioner.h`.

* `size_t` values are natural numbers below `W = 2^64`; every addition,
  subtraction and multiplication of the source is taken modulo `W` (`add64`,
  `sub64`, `mul64`).  Where the source divides by zero the result is `none`.
* Loops are recursions on a bound of their number of rounds; that the bound
  is never the reason a loop stops is proved (`splitLoop_64`,
  `warmupLoop_fuel`, `drainLoop_done`).
* A range task (`Task`) carries its template arguments (`balance`,
  `grainSizeMode`, `initial`) as fields.  The scheduler reference, the body
  `Func_` and the node pointer are not fields: what the task does with them is
  recorded as a list of `Event`s.
* `is_stack_half_full()` and `Now()` live in headers that are not part of the
  sources; their answers are supplied by an `Oracle`.
-/

namespace EigenPartitioner

/-! ## Machine arithmetic -/

/-- Modulus of `size_t` arithmetic, `2^64`. -/
abbrev W : Nat := 18446744073709551616

/-- Addition of two `size_t` values. -/
@[irreducible]
def add64 (a b : Nat) : Nat := (a + b) % W

/-- Subtraction of two `size_t` values: the difference if it is not negative,
else the difference plus `W`. -/
@[irreducible]
def sub64 (a b : Nat) : Nat :=
  if b % W ≤ a % W then a % W - b % W else W - (b % W - a % W)

/-! ## Data model -/

/-- `struct Range`. -/
structure Range where
  From : Nat
  To : Nat
deriving DecidableEq, Repr

/-- `Range::Size()`: `To - From`. -/
def Range.Size (r : Range) : Nat := sub64 r.To r.From

/-- `SplitData::K_SPLIT`. -/
def K_SPLIT : Nat := 2

/-- `struct SplitData`; the defaults are the member initialisers of the source,
and an omitted `Threads` is value-initialised to `{0, 0}`. -/
structure SplitData where
  Threads : Range := ⟨0, 0⟩
  GrainSize : Nat := 1
  Depth : Nat := 0
deriving DecidableEq, Repr

/-- `enum class Balance`. -/
inductive Balance where
  | OFF
  | SIMPLE
  | DELAYED
deriving DecidableEq, Repr

/-- `enum class Initial`. -/
inductive Initial where
  | TRUE
  | FALSE
deriving DecidableEq, Repr

/-- `enum class GrainSize`. -/
inductive GrainSize where
  | DEFAULT
  | AUTO
deriving DecidableEq, Repr

/-- `struct Task<Func, balance, grainSizeMode, initial>`: the template
arguments and the data members `Current_`, `End_`, `Split_`. -/
structure Task where
  balance : Balance
  grainSizeMode : GrainSize
  initial : Initial := Initial.FALSE
  Current_ : Nat
  End_ : Nat
  Split_ : SplitData
deriving DecidableEq, Repr

/-- What a running task does to the outside world, in program order. -/
inductive Event where
  /-- `stack.Add(ts)` -/
  | Add
  /-- `stack.Pop()` -/
  | Pop
  /-- `Func_(i)` -/
  | Func (i : Nat)
  /-- `Sched_.run(Task{Sched_, new TaskNode(CurrentNode_), ...})` -/
  | run (child : Task)
  /-- `Sched_.run_on_thread(Task{Sched_, new TaskNode(CurrentNode_), ...}, hint)` -/
  | run_on_thread (child : Task) (hint : Nat)
  /-- `CurrentNode_.Reset()` -/
  | Reset
deriving DecidableEq, Repr

/-- Answers of the functions the task calls but whose code is elsewhere:
the `k`-th reading of `Now()`, the `k`-th answer of `is_stack_half_full()`,
and the constant `INIT_TIME`. -/
structure Oracle where
  INIT_TIME : Nat
  Now : Nat → Nat
  is_stack_half_full : Nat → Bool

/-- A task in the middle of `operator()`: its (mutable) members, the events
so far, and how many oracle answers it has consumed. -/
structure Exec where
  t : Task
  trace : List Event := []
  clockReads : Nat := 0
  stackChecks : Nat := 0

/-! ## `Task` member functions -/

/-- `Task::IsDivisible()`: `(Current_ + Split_.GrainSize < End_) &&
!is_stack_half_full()`; the second operand is evaluated only when the first
holds. -/
def IsDivisible (o : Oracle) (e : Exec) : Bool × Exec :=
  if add64 e.t.Current_ e.t.Split_.GrainSize < e.t.End_ then
    (!o.is_stack_half_full e.stackChecks, { e with stackChecks := e.stackChecks + 1 })
  else
    (false, e)

/-- `Task::Execute()`: `Func_(Current_); ++Current_;`. -/
def Execute (e : Exec) : Exec :=
  { e with
    trace := e.trace ++ [Event.Func e.t.Current_]
    t := { e.t with Current_ := add64 e.t.Current_ 1 } }

/-- State of the `for` loop of `DistributeWork`: the events so far and the
moving `otherThreads.From`, `otherData.From`. -/
structure DistState where
  trace : List Event
  threadsFrom : Nat
  dataFrom : Nat

/-- One iteration `i` of the `for` loop of `DistributeWork`. -/
def distributeStep (t : Task) (otherThreadsTo otherDataTo parts threadStep threadsMod
    dataStep dataMod : Nat) (s : DistState) (i : Nat) : DistState :=
  let threadSplit := min otherThreadsTo
    (add64 (add64 s.threadsFrom threadStep) (if sub64 (sub64 parts 1) i < threadsMod then 1 else 0))
  let dataSplit := min otherDataTo
    (add64 (add64 s.dataFrom dataStep)
      (if (if threadsMod = 0 then i else sub64 (sub64 parts 1) i) < dataMod then 1 else 0))
  let child : Task :=
    { balance := t.balance
      grainSizeMode := t.grainSizeMode
      initial := Initial.TRUE
      Current_ := s.dataFrom
      End_ := dataSplit
      Split_ := { Threads := ⟨s.threadsFrom, threadSplit⟩, GrainSize := t.Split_.GrainSize } }
  { trace := s.trace ++ [Event.run_on_thread child s.threadsFrom]
    threadsFrom := threadSplit
    dataFrom := dataSplit }

/-- The `for (size_t i = 0; i != parts; ++i)` loop of `DistributeWork`,
with the four quotients and remainders computed before it. -/
def distributeLoop (t : Task) (trace : List Event) (otherThreads otherData : Range)
    (parts : Nat) : DistState :=
  let threadStep := otherThreads.Size / parts
  let threadsMod := otherThreads.Size % parts
  let dataStep := otherData.Size / parts
  let dataMod := otherData.Size % parts
  (List.range parts).foldl
    (distributeStep t otherThreads.To otherData.To parts threadStep threadsMod dataStep dataMod)
    ⟨trace, otherThreads.From, otherData.From⟩

/-- The local `otherData` of `DistributeWork` when it is initialised: the data
left after the first `1 / Split_.Threads.Size()` of the iterations (rounded up)
is kept for the current thread.  Only used where `Split_.Threads.Size() != 0`. -/
def Task.otherData (t : Task) : Range :=
  ⟨add64 t.Current_
      (sub64 (add64 (sub64 t.End_ t.Current_) t.Split_.Threads.Size) 1 / t.Split_.Threads.Size),
    t.End_⟩

/-- The local `otherThreads` of `DistributeWork` when it is initialised. -/
def Task.otherThreads (t : Task) : Range :=
  ⟨add64 t.Split_.Threads.From 1, t.Split_.Threads.To⟩

/-- The local `parts` of `DistributeWork`. -/
def Task.parts (t : Task) : Nat :=
  min (min K_SPLIT t.otherThreads.Size) t.otherData.Size

/-- The body of the outer `if` of `DistributeWork`.  The result is `none`
where the source divides by zero (`Split_.Threads.Size() == 0`, or
`parts == 0`). -/
def distribute (e : Exec) : Option Exec :=
  if e.t.Split_.Threads.Size = 0 then none
  else if add64 e.t.otherData.From e.t.Split_.GrainSize < e.t.otherData.To then
    if e.t.parts = 0 then none
    else
      some { e with
        t := { e.t with End_ := e.t.otherData.From }
        trace := (distributeLoop e.t e.trace e.t.otherThreads e.t.otherData e.t.parts).trace }
  else some e

/-- `Task::DistributeWork()`: `if (Split_.Threads.Size() != 1 && IsDivisible())`
guards the distribution. -/
def DistributeWork (o : Oracle) (e : Exec) : Option Exec :=
  if e.t.Split_.Threads.Size ≠ 1 then
    let d := IsDivisible o e
    if d.1 then distribute d.2 else some d.2
  else some e

/-- The `while (Current_ < End_)` loop of the `DELAYED` branch of
`operator()`, after `start = Now()` has been read.  The loop runs at most
`End_ - Current_` times, which is what `fuel` is set to by the caller. -/
def warmupLoop (o : Oracle) (start : Nat) : Nat → Exec → Exec
  | 0, e => e
  | fuel + 1, e =>
    if e.t.Current_ < e.t.End_ then
      let e := Execute e
      let now := o.Now e.clockReads
      let e := { e with clockReads := e.clockReads + 1 }
      if sub64 now start > o.INIT_TIME then e
      else
        warmupLoop o start fuel
          (if e.t.grainSizeMode = GrainSize.AUTO then
            { e with t := { e.t with Split_ := { e.t.Split_ with
                GrainSize := add64 e.t.Split_.GrainSize 1 } } }
          else e)
    else e

/-- The `while (Current_ != End_ && IsDivisible())` loop of `operator()`.
The remaining size is halved on every round, so 64 rounds of `fuel`
always suffice. -/
def splitLoop (o : Oracle) : Nat → Exec → Exec
  | 0, e => e
  | fuel + 1, e =>
    if e.t.Current_ ≠ e.t.End_ then
      let (d, e) := IsDivisible o e
      if d then
        let mid := add64 e.t.Current_ (sub64 e.t.End_ e.t.Current_ / 2)
        let child : Task :=
          { balance := Balance.SIMPLE
            grainSizeMode := GrainSize.DEFAULT
            Current_ := mid
            End_ := e.t.End_
            Split_ := { GrainSize := e.t.Split_.GrainSize, Depth := add64 e.t.Split_.Depth 1 } }
        splitLoop o fuel
          { e with
            trace := e.trace ++ [Event.run child]
            t := { e.t with End_ := mid } }
      else e
    else e

/-- The final `while (Current_ != End_) Execute();` loop; it runs
`End_ - Current_` (modulo `W`) times, which is what `fuel` is set to. -/
def drainLoop : Nat → Exec → Exec
  | 0, e => e
  | fuel + 1, e => if e.t.Current_ ≠ e.t.End_ then drainLoop fuel (Execute e) else e

/-- The `if constexpr (balance == Balance::DELAYED)` block of `operator()`. -/
def delayedPhase (o : Oracle) (e : Exec) : Exec :=
  if e.t.balance = Balance.DELAYED then
    let start := o.Now e.clockReads
    let e := { e with clockReads := e.clockReads + 1 }
    warmupLoop o start (e.t.End_ - e.t.Current_) e
  else e

/-- The `if constexpr (balance != Balance::OFF)` block of `operator()`. -/
def balancePhase (o : Oracle) (e : Exec) : Exec :=
  if e.t.balance ≠ Balance.OFF then splitLoop o 64 e else e

/-- The final `while (Current_ != End_) Execute();` of `operator()`. -/
def drainPhase (e : Exec) : Exec :=
  drainLoop (sub64 e.t.End_ e.t.Current_) e

/-- `Task::operator()()` after `stack.Add(ts)` and the call of
`DistributeWork()`. -/
def afterDistribute (o : Oracle) (e : Exec) : Exec :=
  let e := delayedPhase o e
  let e := balancePhase o e
  let e := drainPhase e
  { e with trace := e.trace ++ [Event.Reset, Event.Pop] }

/-- `Task::operator()()`; `none` where `DistributeWork()` divides by zero. -/
def Task.call (o : Oracle) (t : Task) : Option Exec :=
  let e : Exec := { t := t, trace := [Event.Add] }
  (if t.initial = Initial.TRUE then DistributeWork o e else some e).map (afterDistribute o)

/-! ## Rapid start -/

/-- Multiplication of two `size_t` values. -/
@[irreducible]
def mul64 (a b : Nat) : Nat := (a * b) % W

/-- `class RapidStartTask<Balance, GrainSizeMode, Func>`: the template
arguments and the data members `From_`, `To_`. -/
structure RapidStartTask where
  balance : Balance
  grainSizeMode : GrainSize
  From_ : Nat
  To_ : Nat
deriving DecidableEq, Repr

/-- The locals `from` and `to` of `RapidStartTask::operator()(part,
totalParts)`; `part` and `totalParts` are the non-negative `int`s the pool
passes, converted to `size_t` where the source mixes them with `size_t`. -/
def RapidStartTask.bounds (r : RapidStartTask) (part totalParts : Nat) : Nat × Nat :=
  let range := sub64 r.To_ r.From_
  let step := range / totalParts
  let remainder := range % totalParts
  let from_ := add64 (add64 r.From_ (mul64 part step)) (min remainder part)
  let part := part + 1
  let to_ := add64 (add64 r.From_ (mul64 part step)) (min remainder part)
  (from_, to_)

/-- `RapidStartTask::operator()(part, totalParts)`: the events of one part.
The result is `none` for `totalParts == 0`, where the source divides by
zero. -/
def RapidStartTask.call (r : RapidStartTask) (part totalParts : Nat) : Option (List Event) :=
  if totalParts = 0 then none
  else
    let b := r.bounds part totalParts
    if b.1 = b.2 then some []
    else some ((List.range' b.1 (b.2 - b.1)).map Event.Func)

/-- `RapidStartTask::IntoTask<Initial>(from, to)`. -/
def RapidStartTask.IntoTask (r : RapidStartTask) (initial : Initial) (from_ to_ : Nat) : Task :=
  { balance := r.balance
    grainSizeMode := r.grainSizeMode
    initial := initial
    Current_ := from_
    End_ := to_
    Split_ := { Threads := ⟨0, 1⟩ } }

/-! ## The thread-local task stack -/

/-- `class detail::TaskStack`, seen from the thread-local object: the chain of
frames reached by following `prev`, innermost frame first.  A frame is named
by its address. -/
structure TaskStack where
  prev : List Nat
deriving DecidableEq, Repr

/-- `TaskStack::Add(ts)`: `ts.prev = prev; prev = &ts;`. -/
def TaskStack.Add (s : TaskStack) (ts : Nat) : TaskStack := ⟨ts :: s.prev⟩

/-- `TaskStack::Pop()`: `prev = prev->prev;`. -/
def TaskStack.Pop (s : TaskStack) : TaskStack := ⟨s.prev.tail⟩

/-- `TaskStack::IsEmpty()`: `prev == nullptr`. -/
def TaskStack.IsEmpty (s : TaskStack) : Bool := s.prev.isEmpty

/-! ## `ParallelFor` -/

/-- What `ParallelFor` has done when it reaches its waiting loop. -/
structure ParallelForStart where
  /-- whether `sched.try_run_rapid` was called -/
  try_run_rapid : Bool
  /-- the range task the caller constructed and ran itself, if any -/
  task : Option Task
  /-- the rapid task the pool accepted, if any -/
  rapid : Option RapidStartTask
deriving DecidableEq, Repr

/-- `ParallelFor<balance, grainSizeMode>(from, to, func, grainSize)` up to the
waiting loop.  `stack` is the caller's thread-local task stack, `rejected`
the answer of `try_run_rapid`, `GetNumThreads` the value of
`Eigen::internal::GetNumThreads()`. -/
def ParallelFor (balance : Balance) (grainSizeMode : GrainSize) (stack : TaskStack)
    (rejected : Bool) (GetNumThreads : Nat) (from_ to_ : Nat) (grainSize : Int) :
    ParallelForStart :=
  let grainSize := max grainSize 1
  if stack.IsEmpty then
    let rapid_task : RapidStartTask := ⟨balance, grainSizeMode, from_, to_⟩
    if rejected then
      { try_run_rapid := true
        task := some (rapid_task.IntoTask Initial.TRUE from_ to_)
        rapid := none }
    else
      { try_run_rapid := true, task := none, rapid := some rapid_task }
  else
    { try_run_rapid := false
      task := some
        { balance := balance
          grainSizeMode := grainSizeMode
          initial := Initial.FALSE
          Current_ := from_
          End_ := to_
          Split_ := { Threads := ⟨0, GetNumThreads⟩, GrainSize := grainSize.toNat % W } }
      rapid := none }

/-! ## `ParallelDo` -/

/-- A user function run on a thread: the thread's task stack when the
function is entered, and when the enclosing callable has returned. -/
structure Ran where
  seen : TaskStack
  after : TaskStack
deriving DecidableEq, Repr

/-- The closure returned by `detail::WrapAsTask(func, node)`, run on a thread
whose task stack is `s`; `ts` is the address of its local frame and `func`
the effect of the user function on the stack. -/
def WrapAsTask (func : TaskStack → TaskStack) (ts : Nat) (s : TaskStack) : Ran :=
  let s := s.Add ts
  let seen := s
  let s := func s
  { seen := seen, after := s.Pop }

/-- The two sides of `ParallelDo(fst, sec)`. -/
structure ParallelDoRun where
  /-- `fst`, inside the closure handed to `sched.run` -/
  left : Ran
  /-- `sec`, called by the caller -/
  right : Ran
deriving DecidableEq, Repr

/-- `ParallelDo(fst, sec)` up to the waiting loop: `caller` is the task stack
of the calling thread, `worker` the task stack of the thread that executes
the submitted closure. -/
def ParallelDo (fst sec : TaskStack → TaskStack) (ts : Nat) (worker caller : TaskStack) :
    ParallelDoRun :=
  { left := WrapAsTask fst ts worker
    right := { seen := caller, after := sec caller } }

/-! ## Running the submitted tasks -/

/-- The index of a body call, if the event is one. -/
def Event.func? : Event → Option Nat
  | Event.Func i => some i
  | _ => none

/-- The task an event submits to the pool, if any. -/
def Event.child? : Event → Option Task
  | Event.run c => some c
  | Event.run_on_thread c _ => some c
  | _ => none

/-- The indices the body was called on, in order. -/
def funcs (tr : List Event) : List Nat := tr.filterMap Event.func?

/-- The tasks submitted (by `run` or `run_on_thread`), in order. -/
def submitted (tr : List Event) : List Task := tr.filterMap Event.child?

/-- The pool while a `ParallelFor` is in progress: the tasks submitted and not
yet run, and the indices the body has been called on so far. -/
structure Pool where
  pending : List Task
  log : List Nat

/-- One scheduling decision: which pending task runs next, and the oracle
answers it gets. -/
structure Choice where
  idx : Nat
  o : Oracle

/-- Run one pending task to completion; `none` if the task divides by zero. -/
def Pool.step (c : Choice) (p : Pool) : Option Pool :=
  match p.pending with
  | [] => some p
  | t :: ts =>
    let i := c.idx % (t :: ts).length
    match (t :: ts).get? i with
    | none => some p
    | some u =>
      (Task.call c.o u).map fun e =>
        { pending := (t :: ts).eraseIdx i ++ submitted e.trace
          log := p.log ++ funcs e.trace }

/-- Run the pool along a schedule. -/
def Pool.run : List Choice → Pool → Option Pool
  | [], p => some p
  | c :: cs, p => (Pool.step c p).bind (Pool.run cs)

/-! ## Invariants used in the proofs -/

/-- The `n` consecutive `size_t` values starting at `cur`, wrapping around at `W`. -/
def indices (cur n : Nat) : List Nat := (List.range n).map (fun k => add64 cur k)

/-- The indices a task owns: from `Current_` up to `End_` (wrapping around if
`End_ < Current_`, as `while (Current_ != End_)` does). -/
def Task.indices (t : Task) : List Nat :=
  EigenPartitioner.indices t.Current_ (sub64 t.End_ t.Current_)

/-- Coverage invariant of a running task that started on the `n0` indices from
`c0`: the indices already passed to the body, then those still owned, then those
handed to the submitted tasks (latest first) are the original indices. -/
def Cover (c0 n0 : Nat) (e : Exec) : Prop :=
  e.t.Current_ < W ∧ e.t.End_ < W ∧
  funcs e.trace ++ indices e.t.Current_ (sub64 e.t.End_ e.t.Current_) ++
    (submitted e.trace).reverse.flatMap Task.indices = indices c0 n0 ∧
  ∀ c ∈ submitted e.trace, c.initial = Initial.FALSE ∧ c.Current_ < W ∧ c.End_ < W

/-- The task never enters the distributing branch of `DistributeWork`. -/
def NoDistribute (t : Task) : Prop :=
  t.initial = Initial.FALSE ∨ t.Split_.Threads.Size = 1

/-- The regime in which no `size_t` computation of the task wraps around. -/
def NoWrap (t : Task) : Prop :=
  t.Current_ ≤ t.End_ ∧ 1 ≤ t.Split_.GrainSize ∧
    t.End_ + t.Split_.GrainSize + (t.End_ - t.Current_) < W

/-- Progress invariant of a running task in the no-wraparound regime. -/
def Prog (n0 : Nat) (e : Exec) : Prop :=
  NoWrap e.t ∧ (∀ c ∈ submitted e.trace, NoWrap c ∧ c.Current_ < c.End_) ∧
    (0 < n0 → funcs e.trace ≠ [] ∨ e.t.Current_ < e.t.End_)

/-- Number of task runs still needed, in the no-wraparound regime. -/
def weight (l : List Task) : Nat :=
  (l.map fun t => max 1 (sub64 t.End_ t.Current_)).sum

/-- Safety invariant of the pool: the indices logged and those owned by the
pending tasks are, together, the list `L`. -/
def Pool.Safe (L : List Nat) (p : Pool) : Prop :=
  (∀ t ∈ p.pending, t.Current_ < W ∧ t.End_ < W ∧ NoDistribute t) ∧
    (p.log ++ p.pending.flatMap Task.indices).Perm L

/-- Every pending task is in the no-wraparound regime. -/
def Pool.Live (p : Pool) : Prop :=
  ∀ t ∈ p.pending, NoWrap t ∧ NoDistribute t

/-- The indices the body is called on when every part `0, …, totalParts - 1`
of the rapid task is invoked once, listed part by part. -/
def RapidStartTask.allParts (r : RapidStartTask) (totalParts : Nat) : List Nat :=
  (List.range totalParts).flatMap fun part => funcs ((r.call part totalParts).getD [])

/-- An event of the working part of `operator()`: a body call or a
submission. -/
def Event.inner : Event → Bool
  | Event.Func _ => true
  | Event.run _ => true
  | Event.run_on_thread _ _ => true
  | _ => false

/-- Shape of the trace of a task inside `operator()`, before the final
`CurrentNode_.Reset(); stack.Pop();`. -/
def Shape (e : Exec) : Prop :=
  ∃ mid, e.trace = Event.Add :: mid ∧ ∀ ev ∈ mid, ev.inner = true

/-! ## Replaying a trace on the thread-local task stack -/

/-- What runs nested inside a running task, as effects on the executing
thread's task stack: `body i` is everything `Func_(i)` runs on this thread
before it returns, `sched c` everything the pool runs on this thread inside the
call that submits `c`. -/
structure Nested where
  body : Nat → TaskStack → TaskStack
  sched : Task → TaskStack → TaskStack

/-- What is observed when a trace is replayed on a task stack: the stack on
entry to each `Func_(i)`, the frame unlinked by each `Pop()` (`none` if the
stack was empty), and the stack at the end. -/
structure Observed where
  atFunc : List TaskStack
  popped : List (Option Nat)
  final : TaskStack

/-- Replay the events of a task (or of a part of a rapid task) on the task
stack `s` of the executing thread; `ts` is the address of the local frame
`detail::TaskStack ts` of `operator()`. -/
def replay (ts : Nat) (n : Nested) : List Event → TaskStack → Observed
  | [], s => ⟨[], [], s⟩
  | Event.Add :: evs, s => replay ts n evs (s.Add ts)
  | Event.Pop :: evs, s =>
    let r := replay ts n evs s.Pop
    { r with popped := s.prev.head? :: r.popped }
  | Event.Func i :: evs, s =>
    let r := replay ts n evs (n.body i s)
    { r with atFunc := s :: r.atFunc }
  | Event.run c :: evs, s => replay ts n evs (n.sched c s)
  | Event.run_on_thread c _ :: evs, s => replay ts n evs (n.sched c s)
  | Event.Reset :: evs, s => replay ts n evs s

/-- The effects on a thread's task stack of what the partitioner runs on it,
nested to any depth: nothing, one thing after another, a range task (with
whatever runs nested inside its body calls and submissions), a part of a rapid
task, a closure made by `WrapAsTask`. -/
inductive TaskEffect : (TaskStack → TaskStack) → Prop
  | nothing : TaskEffect (fun s => s)
  | seq (f g : TaskStack → TaskStack) :
      TaskEffect f → TaskEffect g → TaskEffect (fun s => g (f s))
  | task (t : Task) (o : Oracle) (ts : Nat) (n : Nested) (e : Exec) :
      (∀ i, TaskEffect (n.body i)) → (∀ c, TaskEffect (n.sched c)) →
      Task.call o t = some e → TaskEffect (fun s => (replay ts n e.trace s).final)
  | rapidPart (r : RapidStartTask) (part totalParts : Nat) (n : Nested) (tr : List Event) :
      (∀ i, TaskEffect (n.body i)) → r.call part totalParts = some tr →
      TaskEffect (fun s => (replay 0 n tr s).final)
  | wrapped (func : TaskStack → TaskStack) (ts : Nat) :
      TaskEffect func → TaskEffect (fun s => (WrapAsTask func ts s).after)

/-- The effect of a whole `ParallelFor` call on the calling thread's task
stack `s`: the range task it runs itself, if any (oracle `o`, frame `ts`,
nested work `n`), then whatever `execute_something_else` runs in the waiting
loop (`spin`).  `none` if the task divides by zero. -/
def ParallelFor.onStack (st : ParallelForStart) (o : Oracle) (ts : Nat) (n : Nested)
    (spin : TaskStack → TaskStack) (s : TaskStack) : Option TaskStack :=
  match st.task with
  | some t => (Task.call o t).map fun e => spin (replay ts n e.trace s).final
  | none => some (spin s)

/-- Whether, reading the trace from its start, a submission through
`Sched_.run` comes before the first body call. -/
def runBeforeFunc : List Event → Bool
  | [] => false
  | Event.Func _ :: _ => false
  | Event.run _ :: _ => true
  | _ :: evs => runBeforeFunc evs

/-- Whether, reading the trace from its start, a submission (through
`Sched_.run` or `Sched_.run_on_thread`) comes before the first body call. -/
def submitBeforeFunc : List Event → Bool
  | [] => false
  | Event.Func _ :: _ => false
  | Event.run _ :: _ => true
  | Event.run_on_thread _ _ :: _ => true
  | _ :: evs => submitBeforeFunc evs

/-! ## Task nodes and their reference counts -/

/-- `struct TaskNode`: the member `Parent` (an address, `none` for `nullptr`),
the count of the base class `intrusive_ref_counter`, and whether the node still
exists.  `ChildWaitingSteal_` is never read and is left out. -/
structure TaskNode where
  Parent : Option Nat
  refs : Nat
  live : Bool
deriving DecidableEq, Repr

/-- Modelled from the spec: `intrusive_ptr.h` is not among the sources.
`IntrusivePtrAddRef(n)`, also performed by every new `IntrusivePtr` to `n`:
the count goes up by one. -/
def AddRef (node : Nat → TaskNode) (n : Nat) : Nat → TaskNode :=
  fun m => if m = n then { node n with refs := (node n).refs + 1 } else node m

/-- Node `n` is destroyed (its count has reached zero). -/
def destroyNode (node : Nat → TaskNode) (n : Nat) : Nat → TaskNode :=
  fun m => if m = n then { node n with refs := 0, live := false } else node m

/-- The count of node `n` goes down by one. -/
def dropRef (node : Nat → TaskNode) (n : Nat) : Nat → TaskNode :=
  fun m => if m = n then { node n with refs := (node n).refs - 1 } else node m

/-- Modelled from the spec: `intrusive_ptr.h` is not among the sources.
Release of one reference to `n` (`Reset()` or the destructor of an
`IntrusivePtr`): the count goes down by one; if it reaches zero the node is
destroyed, which in turn releases its `Parent`.  A chain of destructions is no
longer than the number of nodes, which is what `fuel` is set to. -/
def Release : Nat → (Nat → TaskNode) → Nat → (Nat → TaskNode)
  | 0, node, _ => node
  | fuel + 1, node, n =>
    if (node n).refs ≤ 1 then
      match (node n).Parent with
      | none => destroyNode node n
      | some p => Release fuel (destroyNode node n) p
    else dropRef node n

/-- A task inside `operator()`: the node `CurrentNode_` points to and the
events it has still to perform. -/
structure Running where
  node : Nat
  rest : List Event

/-- The state of one `ParallelFor` call, as far as reference counts go: the
nodes by address (address 0 is `rootNode`, `size` addresses are in use), the
tasks submitted and not yet started (each with the address in its
`CurrentNode_`), the tasks inside `operator()`, whether the `RapidStartTask`
object (which holds a pointer to `rootNode`) still exists, and whether
`ParallelFor` has left its waiting loop. -/
structure Sys where
  node : Nat → TaskNode
  size : Nat
  queue : List (Nat × Task)
  running : List Running
  rapid : Bool
  returned : Bool

/-- `new TaskNode(CurrentNode_)` handed to a new task that is submitted: the
new node holds a reference to its parent `n`, the new task one to the new
node. -/
def Sys.submit (s : Sys) (n : Nat) (c : Task) : Sys :=
  { s with
    node := fun m => if m = s.size then ⟨some n, 1, true⟩ else AddRef s.node n m
    size := s.size + 1
    queue := s.queue ++ [(s.size, c)] }

/-- The effect of one event of a task whose `CurrentNode_` is `n`. -/
def Sys.perform (s : Sys) (n : Nat) : Event → Sys
  | Event.run c => s.submit n c
  | Event.run_on_thread c _ => s.submit n c
  | Event.Reset => { s with node := Release s.size s.node n }
  | _ => s

/-- What can happen next: a thread takes the `i`-th submitted task and enters
its `operator()` (with oracle `o`); the `j`-th running task performs its next
event; the `RapidStartTask` object is destroyed; the waiting loop of
`ParallelFor` reads the count of `rootNode`. -/
inductive Step where
  | start (i : Nat) (o : Oracle)
  | advance (j : Nat)
  | dropRapid
  | leave

/-- One step.  A step that is not possible leaves the state as it is, and
nothing is followed beyond the return of `ParallelFor`. -/
def Sys.step (s : Sys) (st : Step) : Sys :=
  if s.returned then s
  else
    match st with
    | Step.start i o =>
      match s.queue.get? i with
      | none => s
      | some q =>
        match Task.call o q.2 with
        | none => s
        | some e =>
          { s with queue := s.queue.eraseIdx i, running := s.running ++ [⟨q.1, e.trace⟩] }
    | Step.advance j =>
      match s.running.get? j with
      | none => s
      | some r =>
        match r.rest with
        | [] => { s with running := s.running.eraseIdx j }
        | ev :: rest =>
          { s.perform r.node ev with running := s.running.eraseIdx j ++ [⟨r.node, rest⟩] }
    | Step.dropRapid =>
      if s.rapid then { s with rapid := false, node := Release s.size s.node 0 } else s
    | Step.leave =>
      if (s.node 0).refs = 1 then { s with returned := true } else s

/-- A sequence of steps. -/
def Sys.run (s : Sys) (steps : List Step) : Sys := steps.foldl Sys.step s

/-- The state when `ParallelFor` has constructed what it starts with:
`rootNode` with one reference from `IntrusivePtrAddRef(&rootNode)`, one from
the range task it is about to run itself (if any) and one from the
`RapidStartTask` (if one was made). -/
def Sys.init (st : ParallelForStart) : Sys :=
  { node := fun m =>
      if m = 0 then
        ⟨none, 1 + (if st.task.isSome then 1 else 0) + (if st.try_run_rapid then 1 else 0), true⟩
      else ⟨none, 0, false⟩
    size := 1
    queue := match st.task with
      | some t => [(0, t)]
      | none => []
    running := []
    rapid := st.try_run_rapid
    returned := false }

/-- Number of existing nodes among the first `k` whose `Parent` is `x`. -/
def kids (node : Nat → TaskNode) : Nat → Nat → Nat
  | 0, _ => 0
  | k + 1, x =>
    kids node k x + (if (node k).live = true ∧ (node k).Parent = some x then 1 else 0)

/-- Number of references to node `n` held outside the nodes: by
`IntrusivePtrAddRef(&rootNode)` and the `RapidStartTask` (for `rootNode`), by
submitted tasks, by running tasks that have not yet reached
`CurrentNode_.Reset()`. -/
def Sys.ext (s : Sys) (n : Nat) : Nat :=
  (if n = 0 then 1 + (if s.rapid then 1 else 0) else 0) +
    s.queue.countP (fun q => decide (q.1 = n)) +
    s.running.countP (fun r => decide (r.node = n ∧ Event.Reset ∈ r.rest))

/-- The events a running task has still to perform are a tail of a trace of
`operator()`. -/
def WfRest (rest : List Event) : Prop :=
  (∃ pre, rest = pre ++ [Event.Reset, Event.Pop] ∧ Event.Reset ∉ pre) ∨
    rest = [Event.Pop] ∨ rest = []

/-- Counting invariant of the nodes against given outside counts. -/
def Counted (ext : Nat → Nat) (node : Nat → TaskNode) (size : Nat) : Prop :=
  (∀ n, n < size → (node n).refs = ext n + kids node size n) ∧
  (∀ n, n < size → ((node n).live = true ↔ 0 < (node n).refs)) ∧
  (∀ n p, n < size → (node n).Parent = some p → p < n) ∧
  (∀ n, 1 ≤ n → n < size → (node n).Parent ≠ none)

/-- Invariant of the system. -/
def Sys.Inv (s : Sys) : Prop :=
  1 ≤ s.size ∧ Counted s.ext s.node s.size ∧
  (∀ q ∈ s.queue, q.1 < s.size) ∧
  (∀ r ∈ s.running, r.node < s.size ∧ WfRest r.rest)

/-! ## Quantities of the spec of `DistributeWork` -/

/-- The worker indices of a thread range. -/
def Range.indices (r : Range) : List Nat := List.range' r.From (r.To - r.From)

/-- The share `⌈(End_ - Current_) / Split_.Threads.Size()⌉` of the remaining
indices that the spec gives to the distributing task itself, in unbounded
arithmetic. -/
def Task.selfShare (t : Task) : Nat :=
  (t.End_ - t.Current_ + t.Split_.Threads.Size - 1) / t.Split_.Threads.Size

/-- The conditions under which the spec says `DistributeWork` distributes: a
thread range of size at least 2, a divisible task (more than grain indices
left, stack not half full at the check), and more than grain indices beyond
the task's own share. -/
def Distributes (o : Oracle) (e : Exec) : Prop :=
  2 ≤ e.t.Split_.Threads.Size ∧
    e.t.Split_.GrainSize < e.t.End_ - e.t.Current_ ∧
    o.is_stack_half_full e.stackChecks = false ∧
    e.t.Split_.GrainSize < e.t.End_ - e.t.Current_ - e.t.selfShare

instance (o : Oracle) (e : Exec) : Decidable (Distributes o e) := by
  unfold Distributes; infer_instance

/-! ## Events by origin -/

/-- What `operator()` can add to the trace after `DistributeWork()`: a body
call, the final `Reset` and `Pop`, or the `run` of a task built as
`Task<Func, SIMPLE, DEFAULT>{…, SplitData{.GrainSize = …, .Depth = …}}`, which
is not an initial task and whose thread range is value-initialised to
`{0, 0}`. -/
def Event.late : Event → Bool
  | Event.Func _ => true
  | Event.run c => decide (c.initial = Initial.FALSE ∧ c.Split_.Threads = ⟨0, 0⟩)
  | Event.Reset => true
  | Event.Pop => true
  | _ => false

/-- The trace of `e` is `base` followed by late events only. -/
def Late (base : List Event) (e : Exec) : Prop :=
  ∃ tl, e.trace = base ++ tl ∧ ∀ ev ∈ tl, ev.late = true

/-! # Theorems -/

/-! ## Arithmetic and index lists -/

theorem sub64_eq_mod (a b : Nat) : sub64 a b = (a % W + W - b % W) % W := by
  unfold sub64
  simp only [W]
  split <;> omega

theorem add64_lt (a b : Nat) : add64 a b < W := by
  unfold add64; exact Nat.mod_lt _ (by decide)

theorem sub64_lt (a b : Nat) : sub64 a b < W := by
  rw [sub64_eq_mod]; exact Nat.mod_lt _ (by decide)

theorem indices_zero (c : Nat) : indices c 0 = [] := rfl

theorem indices_length (c n : Nat) : (indices c n).length = n := by
  simp [indices]

theorem indices_append (c a b : Nat) :
    indices c (a + b) = indices c a ++ indices (add64 c a) b := by
  unfold indices
  rw [List.range_add, List.map_append, List.map_map]
  congr 1
  apply List.map_congr_left
  intro k _
  simp only [Function.comp, add64, W]
  omega

theorem indices_one (c : Nat) (h : c < W) : indices c 1 = [c] := by
  simp only [indices, add64, W] at *
  simp [List.range_succ]
  omega

theorem indices_succ (c n : Nat) (h : c < W) :
    indices c (n + 1) = c :: indices (add64 c 1) n := by
  rw [Nat.add_comm, indices_append, indices_one c h]; rfl

theorem indices_eq_range' (c n : Nat) (h : c + n ≤ W) : indices c n = List.range' c n := by
  rw [List.range'_eq_map_range]
  apply List.map_congr_left
  intro k hk
  have := List.mem_range.1 hk
  simp only [add64, W] at *
  omega

theorem funcs_append (a b : List Event) : funcs (a ++ b) = funcs a ++ funcs b := by
  simp [funcs]

theorem submitted_append (a b : List Event) :
    submitted (a ++ b) = submitted a ++ submitted b := by
  simp [submitted]

theorem Cover_Execute {c0 n0 : Nat} {e : Exec} (h : Cover c0 n0 e)
    (hne : e.t.Current_ ≠ e.t.End_) : Cover c0 n0 (Execute e) := by
  obtain ⟨hc, he, heq, hk⟩ := h
  refine ⟨add64_lt _ _, he, ?_, ?_⟩
  · have hn : sub64 e.t.End_ e.t.Current_ = sub64 e.t.End_ (add64 e.t.Current_ 1) + 1 := by
      simp only [sub64_eq_mod, add64, W] at *; omega
    rw [← heq, hn, indices_succ _ _ hc]
    simp [Execute, funcs_append, submitted_append, funcs, submitted, Event.func?, Event.child?]
  · simpa [Execute, submitted_append, submitted, Event.child?] using hk

theorem Cover_congr {c0 n0 : Nat} {e e' : Exec} (h : Cover c0 n0 e)
    (h1 : e'.t.Current_ = e.t.Current_) (h2 : e'.t.End_ = e.t.End_)
    (h3 : e'.trace = e.trace) : Cover c0 n0 e' := by
  unfold Cover at *
  rw [h1, h2, h3]; exact h

theorem IsDivisible_t (o : Oracle) (e : Exec) : (IsDivisible o e).2.t = e.t := by
  unfold IsDivisible; split <;> rfl

theorem IsDivisible_trace (o : Oracle) (e : Exec) : (IsDivisible o e).2.trace = e.trace := by
  unfold IsDivisible; split <;> rfl

theorem Cover_warmupLoop (o : Oracle) (start : Nat) {c0 n0 : Nat} (fuel : Nat) :
    ∀ e : Exec, Cover c0 n0 e → Cover c0 n0 (warmupLoop o start fuel e) := by
  induction fuel with
  | zero => intro e h; exact h
  | succ n ih =>
    intro e h
    simp only [warmupLoop]
    split
    · rename_i hlt
      have hE := Cover_Execute h (Nat.ne_of_lt hlt)
      split
      · exact Cover_congr hE rfl rfl rfl
      · apply ih
        split
        · exact Cover_congr hE rfl rfl rfl
        · exact Cover_congr hE rfl rfl rfl
    · exact h

theorem Cover_split {c0 n0 : Nat} {e : Exec} (h : Cover c0 n0 e) (b : Balance) (g : GrainSize)
    (sd : SplitData) :
    Cover c0 n0
      { e with
        trace := e.trace ++ [Event.run
          { balance := b, grainSizeMode := g,
            Current_ := add64 e.t.Current_ (sub64 e.t.End_ e.t.Current_ / 2),
            End_ := e.t.End_, Split_ := sd }]
        t := { e.t with End_ := add64 e.t.Current_ (sub64 e.t.End_ e.t.Current_ / 2) } } := by
  obtain ⟨hc, he, heq, hk⟩ := h
  refine ⟨hc, add64_lt _ _, ?_, ?_⟩
  · rw [← heq]
    have h1 : sub64 (add64 e.t.Current_ (sub64 e.t.End_ e.t.Current_ / 2)) e.t.Current_
        = sub64 e.t.End_ e.t.Current_ / 2 := by
      simp only [sub64_eq_mod, add64, W] at *; omega
    have h2 : sub64 e.t.End_ (add64 e.t.Current_ (sub64 e.t.End_ e.t.Current_ / 2))
        = sub64 e.t.End_ e.t.Current_ - sub64 e.t.End_ e.t.Current_ / 2 := by
      simp only [sub64_eq_mod, add64, W] at *; omega
    have h3 : sub64 e.t.End_ e.t.Current_ = sub64 e.t.End_ e.t.Current_ / 2 +
        (sub64 e.t.End_ e.t.Current_ - sub64 e.t.End_ e.t.Current_ / 2) := by omega
    simp only [submitted_append, funcs_append, List.reverse_append]
    simp only [funcs, submitted, Event.func?, Event.child?, List.filterMap_cons,
      List.filterMap_nil, List.reverse_cons, List.reverse_nil, List.nil_append,
      List.append_nil, List.singleton_append, List.flatMap_cons, Task.indices, h1, h2]
    conv_rhs => rw [h3, indices_append]
    simp [List.append_assoc]
  · intro c hc'
    rw [submitted_append, List.mem_append] at hc'
    rcases hc' with hc' | hc'
    · exact hk c hc'
    · simp only [submitted, Event.child?, List.filterMap_cons, List.filterMap_nil,
        List.mem_singleton] at hc'
      subst hc'
      exact ⟨rfl, add64_lt _ _, he⟩

theorem Cover_splitLoop (o : Oracle) {c0 n0 : Nat} (fuel : Nat) :
    ∀ e : Exec, Cover c0 n0 e → Cover c0 n0 (splitLoop o fuel e) := by
  induction fuel with
  | zero => intro e h; exact h
  | succ n ih =>
    intro e h
    simp only [splitLoop]
    split
    · split
      · apply ih
        have h' : Cover c0 n0 (IsDivisible o e).2 :=
          Cover_congr h (by rw [IsDivisible_t]) (by rw [IsDivisible_t]) (IsDivisible_trace o e)
        exact Cover_split h' _ _ _
      · exact Cover_congr h (by rw [IsDivisible_t]) (by rw [IsDivisible_t]) (IsDivisible_trace o e)
    · exact h

theorem Cover_drainLoop {c0 n0 : Nat} (fuel : Nat) :
    ∀ e : Exec, Cover c0 n0 e → Cover c0 n0 (drainLoop fuel e) := by
  induction fuel with
  | zero => intro e h; exact h
  | succ n ih =>
    intro e h
    simp only [drainLoop]
    split
    · rename_i hne
      exact ih _ (Cover_Execute h hne)
    · exact h

theorem drainLoop_done (fuel : Nat) :
    ∀ e : Exec, e.t.Current_ < W → e.t.End_ < W → sub64 e.t.End_ e.t.Current_ ≤ fuel →
      (drainLoop fuel e).t.Current_ = (drainLoop fuel e).t.End_ := by
  induction fuel with
  | zero =>
    intro e hc he h
    simp only [drainLoop]
    simp only [sub64_eq_mod, W] at *; omega
  | succ n ih =>
    intro e hc he h
    simp only [drainLoop]
    split
    · rename_i hne
      apply ih
      · exact add64_lt _ _
      · exact he
      · simp only [Execute, sub64_eq_mod, add64, W] at *; omega
    · rename_i heq
      simpa using heq

theorem DistributeWork_size_one (o : Oracle) (e : Exec) (h : e.t.Split_.Threads.Size = 1) :
    DistributeWork o e = some e := by
  simp [DistributeWork, h]

theorem Cover_delayedPhase (o : Oracle) {c0 n0 : Nat} (e : Exec) (h : Cover c0 n0 e) :
    Cover c0 n0 (delayedPhase o e) := by
  unfold delayedPhase
  split
  · exact Cover_warmupLoop o _ _ _ (Cover_congr h rfl rfl rfl)
  · exact h

theorem Cover_balancePhase (o : Oracle) {c0 n0 : Nat} (e : Exec) (h : Cover c0 n0 e) :
    Cover c0 n0 (balancePhase o e) := by
  unfold balancePhase
  split
  · exact Cover_splitLoop o _ _ h
  · exact h

theorem Cover_drainPhase {c0 n0 : Nat} (e : Exec) (h : Cover c0 n0 e) :
    Cover c0 n0 (drainPhase e) ∧ (drainPhase e).t.Current_ = (drainPhase e).t.End_ :=
  ⟨Cover_drainLoop _ _ h, drainLoop_done _ e h.1 h.2.1 (Nat.le_refl _)⟩

theorem sub64_self (a : Nat) : sub64 a a = 0 := by
  simp only [sub64_eq_mod, W]; omega

theorem Cover_afterDistribute (o : Oracle) {c0 n0 : Nat} (e : Exec) (h : Cover c0 n0 e) :
    funcs (afterDistribute o e).trace ++
        (submitted (afterDistribute o e).trace).reverse.flatMap Task.indices = indices c0 n0 ∧
      ∀ c ∈ submitted (afterDistribute o e).trace,
        c.initial = Initial.FALSE ∧ c.Current_ < W ∧ c.End_ < W := by
  obtain ⟨⟨_, _, heq, hk⟩, hd⟩ :=
    Cover_drainPhase _ (Cover_balancePhase o _ (Cover_delayedPhase o e h))
  rw [hd, sub64_self, indices_zero, List.append_nil] at heq
  have hf : ∀ tr : List Event, funcs (tr ++ [Event.Reset, Event.Pop]) = funcs tr := by
    intro tr; simp [funcs, Event.func?]
  have hs : ∀ tr : List Event, submitted (tr ++ [Event.Reset, Event.Pop]) = submitted tr := by
    intro tr; simp [submitted, Event.child?]
  simp only [afterDistribute, hf, hs]
  exact ⟨heq, hk⟩

theorem Cover_init (t : Task) (hc : t.Current_ < W) (he : t.End_ < W) :
    Cover t.Current_ (sub64 t.End_ t.Current_) { t := t, trace := [Event.Add] } := by
  refine ⟨hc, he, ?_, ?_⟩
  · simp [funcs, submitted, Event.func?, Event.child?]
  · intro c hc'; simp [submitted, Event.child?] at hc'

theorem Task.call_eq (o : Oracle) (t : Task) (hn : NoDistribute t) :
    Task.call o t = some (afterDistribute o { t := t, trace := [Event.Add] }) := by
  unfold Task.call
  rcases hn with h | h
  · simp [h]
  · by_cases hi : t.initial = Initial.TRUE
    · simp only [hi, if_true]
      rw [DistributeWork_size_one o _ h]; rfl
    · simp [hi]

theorem Task.call_cover (o : Oracle) (t : Task) (hc : t.Current_ < W) (he : t.End_ < W)
    (hn : NoDistribute t) :
    ∃ e, Task.call o t = some e ∧
      funcs e.trace ++ (submitted e.trace).reverse.flatMap Task.indices = t.indices ∧
      ∀ c ∈ submitted e.trace, c.initial = Initial.FALSE ∧ c.Current_ < W ∧ c.End_ < W :=
  ⟨_, Task.call_eq o t hn, Cover_afterDistribute o _ (Cover_init t hc he)⟩

theorem Prog_congr {n0 : Nat} {e e' : Exec} (h : Prog n0 e) (h1 : e'.t = e.t)
    (h3 : e'.trace = e.trace) : Prog n0 e' := by
  unfold Prog at *
  rw [h1, h3]; exact h

theorem submitted_Execute (e : Exec) : submitted (Execute e).trace = submitted e.trace := by
  simp [Execute, submitted_append, submitted, Event.child?]

theorem funcs_Execute (e : Exec) : funcs (Execute e).trace = funcs e.trace ++ [e.t.Current_] := by
  simp [Execute, funcs_append, funcs, Event.func?]

theorem Prog_Execute {n0 : Nat} {e : Exec} (h : Prog n0 e) (hlt : e.t.Current_ < e.t.End_) :
    Prog n0 (Execute e) := by
  obtain ⟨⟨h1, h2, h3⟩, hk, _⟩ := h
  refine ⟨⟨?_, h2, ?_⟩, ?_, ?_⟩
  · simp only [Execute, add64, W] at *; omega
  · simp only [Execute, add64, W] at *; omega
  · rw [submitted_Execute]; exact hk
  · intro _; left; rw [funcs_Execute]; simp

theorem Prog_Execute_bump {n0 : Nat} {e : Exec} (h : Prog n0 e)
    (hlt : e.t.Current_ < e.t.End_) (e1 : Exec) (ht : e1.t = (Execute e).t)
    (htr : e1.trace = (Execute e).trace) :
    Prog n0 { e1 with t := { e1.t with Split_ := { e1.t.Split_ with
      GrainSize := add64 e1.t.Split_.GrainSize 1 } } } := by
  obtain ⟨⟨h1, h2, h3⟩, hk, _⟩ := h
  refine ⟨⟨?_, ?_, ?_⟩, ?_, ?_⟩
  · simp only [ht, Execute]
    simp only [add64, W] at *; omega
  · simp only [ht, Execute]
    simp only [add64, W] at *; omega
  · simp only [ht, Execute]
    simp only [add64, W] at *; omega
  · simp only [htr]; rw [submitted_Execute]; exact hk
  · intro _; left; simp only [htr]; rw [funcs_Execute]; simp

theorem Prog_warmupLoop (o : Oracle) (start : Nat) {n0 : Nat} (fuel : Nat) :
    ∀ e : Exec, Prog n0 e → Prog n0 (warmupLoop o start fuel e) := by
  induction fuel with
  | zero => intro e h; exact h
  | succ n ih =>
    intro e h
    simp only [warmupLoop]
    split
    · rename_i hlt
      have hE := Prog_Execute h hlt
      split
      · exact Prog_congr hE rfl rfl
      · apply ih
        split
        · exact Prog_Execute_bump h hlt _ rfl rfl
        · exact Prog_congr hE rfl rfl
    · exact h

theorem add64_eq {a b : Nat} (h : a + b < W) : add64 a b = a + b := by
  unfold add64; exact Nat.mod_eq_of_lt h

theorem sub64_eq {a b : Nat} (h : b ≤ a) (ha : a < W) : sub64 a b = a - b := by
  simp only [sub64_eq_mod, W] at *; omega

theorem Prog_splitLoop (o : Oracle) {n0 : Nat} (fuel : Nat) :
    ∀ e : Exec, Prog n0 e → Prog n0 (splitLoop o fuel e) := by
  induction fuel with
  | zero => intro e h; exact h
  | succ n ih =>
    intro e h
    simp only [splitLoop]
    split
    · split
      · rename_i hd
        apply ih
        have hdiv : add64 e.t.Current_ e.t.Split_.GrainSize < e.t.End_ := by
          unfold IsDivisible at hd
          by_contra hcon
          simp [hcon] at hd
        obtain ⟨⟨h1, h2, h3⟩, hk, _⟩ := h
        simp only [IsDivisible_t, IsDivisible_trace]
        rw [add64_eq (by omega)] at hdiv
        have hs : sub64 e.t.End_ e.t.Current_ = e.t.End_ - e.t.Current_ :=
          sub64_eq h1 (by simp only [W] at *; omega)
        have hm : add64 e.t.Current_ ((e.t.End_ - e.t.Current_) / 2)
            = e.t.Current_ + (e.t.End_ - e.t.Current_) / 2 :=
          add64_eq (by simp only [W] at *; omega)
        rw [hs, hm]
        refine ⟨⟨?_, h2, ?_⟩, ?_, ?_⟩
        · show e.t.Current_ ≤ e.t.Current_ + (e.t.End_ - e.t.Current_) / 2
          omega
        · show e.t.Current_ + (e.t.End_ - e.t.Current_) / 2 + e.t.Split_.GrainSize +
            (e.t.Current_ + (e.t.End_ - e.t.Current_) / 2 - e.t.Current_) < W
          simp only [W] at *; omega
        · intro c hc
          rw [submitted_append, List.mem_append] at hc
          rcases hc with hc | hc
          · exact hk c hc
          · simp only [submitted, Event.child?, List.filterMap_cons, List.filterMap_nil,
              List.mem_singleton] at hc
            subst hc
            refine ⟨⟨?_, h2, ?_⟩, ?_⟩
            · show e.t.Current_ + (e.t.End_ - e.t.Current_) / 2 ≤ e.t.End_
              omega
            · show e.t.End_ + e.t.Split_.GrainSize +
                (e.t.End_ - (e.t.Current_ + (e.t.End_ - e.t.Current_) / 2)) < W
              simp only [W] at *; omega
            · show e.t.Current_ + (e.t.End_ - e.t.Current_) / 2 < e.t.End_
              omega
        · intro _; right
          show e.t.Current_ < e.t.Current_ + (e.t.End_ - e.t.Current_) / 2
          omega
      · exact Prog_congr h (IsDivisible_t o e) (IsDivisible_trace o e)
    · exact h

theorem Prog_drainLoop {n0 : Nat} (fuel : Nat) :
    ∀ e : Exec, Prog n0 e → Prog n0 (drainLoop fuel e) := by
  induction fuel with
  | zero => intro e h; exact h
  | succ n ih =>
    intro e h
    simp only [drainLoop]
    split
    · rename_i hne
      exact ih _ (Prog_Execute h (Nat.lt_of_le_of_ne h.1.1 hne))
    · exact h

theorem Prog_afterDistribute (o : Oracle) {n0 : Nat} (e : Exec) (h : Prog n0 e) :
    (∀ c ∈ submitted (afterDistribute o e).trace, NoWrap c ∧ c.Current_ < c.End_) ∧
      (0 < n0 → funcs (afterDistribute o e).trace ≠ []) := by
  have h1 : Prog n0 (delayedPhase o e) := by
    unfold delayedPhase
    split
    · exact Prog_warmupLoop o _ _ _ (Prog_congr h rfl rfl)
    · exact h
  have h2 : Prog n0 (balancePhase o (delayedPhase o e)) := by
    unfold balancePhase
    split
    · exact Prog_splitLoop o _ _ h1
    · exact h1
  have h3 : Prog n0 (drainPhase (balancePhase o (delayedPhase o e))) := Prog_drainLoop _ _ h2
  have hW : ∀ x : Exec, Prog n0 x → x.t.Current_ < W ∧ x.t.End_ < W := by
    intro x hx
    obtain ⟨⟨a, b, c⟩, _, _⟩ := hx
    simp only [W] at *; omega
  have hd := drainLoop_done _ _ (hW _ h2).1 (hW _ h2).2 (Nat.le_refl _)
  have hf : ∀ tr : List Event, funcs (tr ++ [Event.Reset, Event.Pop]) = funcs tr := by
    intro tr; simp [funcs, Event.func?]
  have hs : ∀ tr : List Event, submitted (tr ++ [Event.Reset, Event.Pop]) = submitted tr := by
    intro tr; simp [submitted, Event.child?]
  simp only [afterDistribute, hf, hs]
  refine ⟨h3.2.1, fun hn => ?_⟩
  rcases h3.2.2 hn with h' | h'
  · exact h'
  · exact absurd hd (Nat.ne_of_lt h')

theorem weight_append (a b : List Task) : weight (a ++ b) = weight a + weight b := by
  simp [weight]

theorem weight_eq_length (l : List Task)
    (h : ∀ c ∈ l, NoWrap c ∧ c.Current_ < c.End_) :
    weight l = (l.flatMap Task.indices).length := by
  induction l with
  | nil => rfl
  | cons a l ih =>
    have ha := h a (List.mem_cons_self _ _)
    have hl := ih fun c hc => h c (List.mem_cons_of_mem _ hc)
    have hsz : sub64 a.End_ a.Current_ = a.End_ - a.Current_ :=
      sub64_eq ha.1.1 (by have := ha.1.2.2; simp only [W] at *; omega)
    simp only [weight, List.map_cons, List.sum_cons, List.flatMap_cons, List.length_append,
      Task.indices, indices_length] at *
    rw [hl, hsz]
    omega

theorem NoWrap.lt {t : Task} (h : NoWrap t) : t.Current_ < W ∧ t.End_ < W := by
  obtain ⟨a, b, c⟩ := h
  simp only [W] at *; omega

theorem Task.call_progress (o : Oracle) (t : Task) (hw : NoWrap t) (hn : NoDistribute t) :
    ∃ e, Task.call o t = some e ∧
      (∀ c ∈ submitted e.trace, NoWrap c ∧ NoDistribute c) ∧
      weight (submitted e.trace) < max 1 (sub64 t.End_ t.Current_) := by
  refine ⟨_, Task.call_eq o t hn, ?_, ?_⟩
  · intro c hc
    have hP : Prog (sub64 t.End_ t.Current_) { t := t, trace := [Event.Add] } := by
      refine ⟨hw, ?_, fun h => Or.inr ?_⟩
      · intro c hc; simp [submitted, Event.child?] at hc
      · have := sub64_eq hw.1 hw.lt.2
        show t.Current_ < t.End_
        omega
    have h1 := (Prog_afterDistribute o _ hP).1 c hc
    have h2 := (Cover_afterDistribute o _ (Cover_init t hw.lt.1 hw.lt.2)).2 c hc
    exact ⟨h1.1, Or.inl h2.1⟩
  · have hP : Prog (sub64 t.End_ t.Current_) { t := t, trace := [Event.Add] } := by
      refine ⟨hw, ?_, fun h => Or.inr ?_⟩
      · intro c hc; simp [submitted, Event.child?] at hc
      · have := sub64_eq hw.1 hw.lt.2
        show t.Current_ < t.End_
        omega
    obtain ⟨hk, hf⟩ := Prog_afterDistribute o _ hP
    have hc := (Cover_afterDistribute o _ (Cover_init t hw.lt.1 hw.lt.2)).1
    have hlen := congrArg List.length hc
    rw [List.length_append, indices_length,
      ((List.reverse_perm _).flatMap_right Task.indices).length_eq,
      ← weight_eq_length _ hk] at hlen
    by_cases h0 : 0 < sub64 t.End_ t.Current_
    · have := List.length_pos.2 (hf h0)
      omega
    · omega

theorem pick_split {α : Type} (l : List α) (i : Nat) (h : i < l.length) :
    ∃ l1 u l2, l = l1 ++ u :: l2 ∧ l.get? i = some u ∧ l.eraseIdx i = l1 ++ l2 := by
  refine ⟨l.take i, l[i], l.drop (i + 1), ?_, ?_, ?_⟩
  · rw [← List.drop_eq_getElem_cons h, List.take_append_drop]
  · simp [List.getElem?_eq_getElem h]
  · exact List.eraseIdx_eq_take_drop_succ l i

theorem Pool.step_cases (c : Choice) (p : Pool) :
    (p.pending = [] ∧ Pool.step c p = some p) ∨
    ∃ l1 u l2, p.pending = l1 ++ u :: l2 ∧
      Pool.step c p = (Task.call c.o u).map fun e =>
        { pending := l1 ++ l2 ++ submitted e.trace, log := p.log ++ funcs e.trace } := by
  rcases hp : p.pending with _ | ⟨t, ts⟩
  · left; exact ⟨rfl, by simp [Pool.step, hp]⟩
  · right
    have hi : c.idx % (t :: ts).length < (t :: ts).length :=
      Nat.mod_lt _ (by simp)
    obtain ⟨l1, u, l2, h1, h2, h3⟩ := pick_split (t :: ts) _ hi
    refine ⟨l1, u, l2, h1, ?_⟩
    simp only [Pool.step, hp, h2, h3]

theorem Pool.Safe_step (L : List Nat) (c : Choice) (p : Pool) (h : Pool.Safe L p) :
    ∃ p', Pool.step c p = some p' ∧ Pool.Safe L p' := by
  rcases Pool.step_cases c p with ⟨_, h2⟩ | ⟨l1, u, l2, h1, h2⟩
  · exact ⟨p, h2, h⟩
  · obtain ⟨hall, hperm⟩ := h
    rw [h1] at hall hperm
    have hu := hall u (by simp)
    obtain ⟨e, he, hcov, hk⟩ := Task.call_cover c.o u hu.1 hu.2.1 hu.2.2
    refine ⟨_, by rw [h2, he]; rfl, ?_, ?_⟩
    · intro t ht
      simp only [List.mem_append] at ht
      rcases ht with (ht | ht) | ht
      · exact hall t (by simp [ht])
      · exact hall t (by simp [ht])
      · have := hk t ht
        exact ⟨this.2.1, this.2.2, Or.inl this.1⟩
    · refine List.Perm.trans ?_ hperm
      simp only [List.flatMap_append, List.flatMap_cons, ← hcov]
      have hr := (List.reverse_perm (submitted e.trace)).flatMap_right Task.indices
      generalize (submitted e.trace).reverse.flatMap Task.indices = R at hr
      generalize (submitted e.trace).flatMap Task.indices = S at hr
      generalize List.flatMap l1 Task.indices = A
      generalize List.flatMap l2 Task.indices = B
      generalize funcs e.trace = F
      have : (p.log ++ F ++ (A ++ B ++ S)).Perm (p.log ++ (A ++ (F ++ R ++ B))) := by
        rw [List.append_assoc]
        apply List.Perm.append_left
        have e1 : (F ++ (A ++ B ++ S)).Perm (A ++ (F ++ (S ++ B))) := by
          have : (F ++ (A ++ B ++ S)).Perm ((A ++ B ++ S) ++ F) := List.perm_append_comm
          refine this.trans ?_
          simp only [List.append_assoc]
          apply List.Perm.append_left
          have : (B ++ (S ++ F)).Perm ((S ++ F) ++ B) := List.perm_append_comm
          refine this.trans ?_
          simp only [List.append_assoc]
          have : (S ++ (F ++ B)).Perm ((F ++ B) ++ S) := List.perm_append_comm
          refine this.trans ?_
          simp only [List.append_assoc]
          apply List.Perm.append_left
          exact List.perm_append_comm
        refine e1.trans ?_
        apply List.Perm.append_left
        simp only [List.append_assoc]
        apply List.Perm.append_left
        exact List.Perm.append_right _ hr.symm
      exact this

theorem Pool.Safe_run (L : List Nat) (cs : List Choice) :
    ∀ p : Pool, Pool.Safe L p → ∃ p', Pool.run cs p = some p' ∧ Pool.Safe L p' := by
  induction cs with
  | nil => intro p h; exact ⟨p, rfl, h⟩
  | cons c cs ih =>
    intro p h
    obtain ⟨p1, h1, hs1⟩ := Pool.Safe_step L c p h
    obtain ⟨p2, h2, hs2⟩ := ih p1 hs1
    exact ⟨p2, by simp [Pool.run, h1, h2], hs2⟩

theorem weight_pos_of_ne_nil (l : List Task) (h : l ≠ []) : 0 < weight l := by
  cases l with
  | nil => exact absurd rfl h
  | cons a l =>
    simp only [weight, List.map_cons, List.sum_cons]
    omega

theorem Pool.Live_step (c : Choice) (p : Pool) (h : Pool.Live p) :
    ∃ p', Pool.step c p = some p' ∧ Pool.Live p' ∧
      weight p'.pending ≤ weight p.pending - 1 := by
  rcases Pool.step_cases c p with ⟨_, h2⟩ | ⟨l1, u, l2, h1, h2⟩
  · exact ⟨p, h2, h, by simp_all [weight]⟩
  · have hall := h
    unfold Pool.Live at hall
    rw [h1] at hall
    have hu := hall u (by simp)
    obtain ⟨e, he, hk, hlt⟩ := Task.call_progress c.o u hu.1 hu.2
    refine ⟨_, by rw [h2, he]; rfl, ?_, ?_⟩
    · intro t ht
      simp only [List.mem_append] at ht
      rcases ht with (ht | ht) | ht
      · exact hall t (by simp [ht])
      · exact hall t (by simp [ht])
      · exact hk t ht
    · rw [h1]
      simp only [weight_append]
      have : weight (u :: l2) = max 1 (sub64 u.End_ u.Current_) + weight l2 := by
        simp [weight]
      rw [this]
      omega

theorem Pool.Live_run (cs : List Choice) :
    ∀ p : Pool, Pool.Live p → ∃ p', Pool.run cs p = some p' ∧ Pool.Live p' ∧
      weight p'.pending ≤ weight p.pending - cs.length := by
  induction cs with
  | nil => intro p h; exact ⟨p, rfl, h, by simp⟩
  | cons c cs ih =>
    intro p h
    obtain ⟨p1, h1, hs1, hw1⟩ := Pool.Live_step c p h
    obtain ⟨p2, h2, hs2, hw2⟩ := ih p1 hs1
    refine ⟨p2, by simp [Pool.run, h1, h2], hs2, ?_⟩
    simp only [List.length_cons]
    omega

theorem ParallelFor_task (balance : Balance) (grainSizeMode : GrainSize) (stack : TaskStack)
    (rejected : Bool) (GetNumThreads from_ to_ : Nat) (grainSize : Int) (t : Task)
    (ht : (ParallelFor balance grainSizeMode stack rejected GetNumThreads from_ to_
      grainSize).task = some t) :
    t.Current_ = from_ ∧ t.End_ = to_ ∧ NoDistribute t ∧
      (t.Split_.GrainSize = 1 ∨ t.Split_.GrainSize = (max grainSize 1).toNat % W) := by
  unfold ParallelFor at ht
  by_cases hs : stack.IsEmpty = true
  · cases rejected with
    | true =>
      simp only [hs, if_true] at ht
      injection ht with ht
      subst ht
      exact ⟨rfl, rfl, Or.inr (by simp [RapidStartTask.IntoTask, Range.Size, sub64_eq_mod]), Or.inl rfl⟩
    | false => simp [hs] at ht
  · simp only [hs] at ht
    injection ht with ht
    subst ht
    exact ⟨rfl, rfl, Or.inl rfl, Or.inr rfl⟩

/-! ## C1: every index exactly once -/

/-- C1. Let `t` be the range task `ParallelFor` runs itself for `from_ ≤ to_`
(nested path, or fallback after `try_run_rapid` rejected), in any balance and
grain-size mode and for any grain.  Run `t` and the tasks it submits,
transitively, in the order and with the clock readings and stack-half-full
answers given by an arbitrary schedule.  Then no task divides by zero, and
* whenever no submitted task is left to run, the indices passed to the body
  are a permutation of `from_, …, to_ - 1`: each exactly once, no other;
* for `from_ = to_` the body is never called;
* if `to_ + grain + (to_ - from_)` does not exceed the `size_t` range, every
  schedule of `max 1 (to_ - from_)` steps or more leaves no task to run. -/
theorem parallel_for_calls_body_exactly_once
    (balance : Balance) (grainSizeMode : GrainSize) (stack : TaskStack) (rejected : Bool)
    (GetNumThreads from_ to_ : Nat) (grainSize : Int) (t : Task) (sched : List Choice)
    (hle : from_ ≤ to_) (hto : to_ < W)
    (ht : (ParallelFor balance grainSizeMode stack rejected GetNumThreads from_ to_
      grainSize).task = some t) :
    ∃ p, Pool.run sched ⟨[t], []⟩ = some p ∧
      (p.pending = [] → p.log.Perm (List.range' from_ (to_ - from_))) ∧
      (from_ = to_ → p.log = []) ∧
      (to_ + (max grainSize 1).toNat + (to_ - from_) < W →
        max 1 (to_ - from_) ≤ sched.length → p.pending = []) := by
  obtain ⟨hc, he, hn, hg⟩ := ParallelFor_task _ _ _ _ _ _ _ _ _ ht
  have hsz : sub64 t.End_ t.Current_ = to_ - from_ := by
    rw [hc, he]; exact sub64_eq hle hto
  have hsafe : Pool.Safe (List.range' from_ (to_ - from_)) ⟨[t], []⟩ := by
    refine ⟨?_, ?_⟩
    · intro u hu
      simp only [List.mem_singleton] at hu
      subst hu
      rw [hc, he]
      exact ⟨Nat.lt_of_le_of_lt hle hto, hto, hn⟩
    · simp only [List.flatMap_cons, List.flatMap_nil, List.append_nil, List.nil_append,
        Task.indices, hsz]
      rw [hc, indices_eq_range' _ _ (by simp only [W] at *; omega)]
  obtain ⟨p, hp, hall, hperm⟩ := Pool.Safe_run _ sched _ hsafe
  refine ⟨p, hp, ?_, ?_, ?_⟩
  · intro hpe
    simpa [hpe] using hperm
  · intro heq
    subst heq
    simp only [Nat.sub_self, List.range'_zero, List.perm_nil, List.append_eq_nil] at hperm
    exact hperm.1
  · intro hw hlen
    have hge : 1 ≤ (max grainSize 1).toNat := by omega
    have hlive : Pool.Live ⟨[t], []⟩ := by
      intro u hu
      simp only [List.mem_singleton] at hu
      subst hu
      refine ⟨⟨by omega, ?_, ?_⟩, hn⟩
      · rcases hg with hg | hg
        · omega
        · rw [hg, Nat.mod_eq_of_lt (by simp only [W] at *; omega)]; exact hge
      · rcases hg with hg | hg
        · rw [hg, hc, he]; simp only [W] at *; omega
        · rw [hg, Nat.mod_eq_of_lt (by simp only [W] at *; omega), hc, he]; exact hw
    obtain ⟨p', hp', _, hwt⟩ := Pool.Live_run sched _ hlive
    rw [hp] at hp'
    injection hp' with hp'
    subst hp'
    have h0 : weight p.pending = 0 := by
      have : weight [t] = max 1 (to_ - from_) := by simp [weight, hsz]
      simp only [this] at hwt
      omega
    by_contra hne
    have := weight_pos_of_ne_nil _ hne
    omega

/-- Witness for C1: a nested `ParallelFor<SIMPLE, DEFAULT>(0, 4, body, 1)` with
four workers, its tasks run in submission order and never finding the stack
half full, ends with no pending task and the body called on a permutation of
`0, 1, 2, 3`. -/
theorem parallel_for_calls_body_exactly_once_witness :
    ∃ p, Pool.run (List.replicate 4 ⟨0, ⟨0, fun _ => 0, fun _ => false⟩⟩)
        ⟨[{ balance := Balance.SIMPLE, grainSizeMode := GrainSize.DEFAULT,
            Current_ := 0, End_ := 4, Split_ := { Threads := ⟨0, 4⟩, GrainSize := 1 } }], []⟩
        = some p ∧ p.pending = [] ∧ p.log.Perm [0, 1, 2, 3] := by
  obtain ⟨p, hp, h1, _, h3⟩ := parallel_for_calls_body_exactly_once Balance.SIMPLE
    GrainSize.DEFAULT ⟨[7]⟩ false 4 0 4 1 _
    (List.replicate 4 ⟨0, ⟨0, fun _ => 0, fun _ => false⟩⟩) (by decide) (by decide) rfl
  have hd : p.pending = [] := h3 (by decide) (by decide)
  exact ⟨p, hp, hd, h1 hd⟩

/-! ## C2: the parts of a rapid task -/

theorem bounds_eq (r : RapidStartTask) (part totalParts : Nat) (hle : r.From_ ≤ r.To_)
    (hto : r.To_ < W) (hp : part < totalParts) :
    r.bounds part totalParts =
      (r.From_ + part * ((r.To_ - r.From_) / totalParts) +
          min ((r.To_ - r.From_) % totalParts) part,
        r.From_ + (part + 1) * ((r.To_ - r.From_) / totalParts) +
          min ((r.To_ - r.From_) % totalParts) (part + 1)) := by
  have hs : sub64 r.To_ r.From_ = r.To_ - r.From_ := sub64_eq hle hto
  have hdm := Nat.div_add_mod (r.To_ - r.From_) totalParts
  have hmod : (r.To_ - r.From_) % totalParts < totalParts := Nat.mod_lt _ (by omega)
  have h1 : part * ((r.To_ - r.From_) / totalParts) ≤
      totalParts * ((r.To_ - r.From_) / totalParts) :=
    Nat.mul_le_mul_right _ (by omega)
  have h2 : (part + 1) * ((r.To_ - r.From_) / totalParts) ≤
      totalParts * ((r.To_ - r.From_) / totalParts) :=
    Nat.mul_le_mul_right _ (by omega)
  simp only [RapidStartTask.bounds, hs, add64, mul64, W, Prod.mk.injEq] at *
  generalize (r.To_ - r.From_) / totalParts = step at *
  generalize (r.To_ - r.From_) % totalParts = rem at *
  generalize part * step = a at *
  generalize (part + 1) * step = b at *
  generalize totalParts * step = T at *
  omega

theorem funcs_map_Func (l : List Nat) : funcs (l.map Event.Func) = l := by
  induction l with
  | nil => rfl
  | cons a l ih =>
    simp only [funcs, List.map_cons, List.filterMap_cons, Event.func?] at *
    rw [ih]

theorem flatMap_range'_chain (B : Nat → Nat) (k : Nat) (hmono : ∀ p, p < k → B p ≤ B (p + 1)) :
    ((List.range k).flatMap fun p => List.range' (B p) (B (p + 1) - B p)) =
        List.range' (B 0) (B k - B 0) ∧ B 0 ≤ B k := by
  induction k with
  | zero => simp
  | succ n ih =>
    obtain ⟨h1, h2⟩ := ih fun p hp => hmono p (by omega)
    have h3 := hmono n (by omega)
    refine ⟨?_, by omega⟩
    rw [List.range_succ, List.flatMap_append, h1, List.flatMap_singleton]
    have := List.range'_append (B 0) (B n - B 0) (B (n + 1) - B n) 1
    rw [show B 0 + 1 * (B n - B 0) = B n by omega] at this
    rw [this]
    congr 1
    omega

theorem call_eq_range' (r : RapidStartTask) (part totalParts : Nat) (ht : 1 ≤ totalParts) :
    r.call part totalParts = some ((List.range' (r.bounds part totalParts).1
      ((r.bounds part totalParts).2 - (r.bounds part totalParts).1)).map Event.Func) := by
  unfold RapidStartTask.call
  rw [if_neg (by omega)]
  simp only
  split
  · rename_i h
    rw [h]; simp
  · rfl

/-- C2. For `From_ ≤ To_` and `totalParts ≥ 1` the sub-ranges computed by
`RapidStartTask::operator()(part, totalParts)` for `part = 0, …, totalParts - 1`
are a balanced partition of `[From_, To_)`: part 0 starts at `From_`, each part
ends where the next begins, the last part ends at `To_`, every part is a
well-formed interval, two parts differ in size by at most one, each part calls
the body on exactly its interval, and all parts together call the body on
`From_, …, To_ - 1`, each index once. -/
theorem rapid_parts_balanced_partition (r : RapidStartTask) (totalParts : Nat)
    (hle : r.From_ ≤ r.To_) (hto : r.To_ < W) (ht : 1 ≤ totalParts) :
    (r.bounds 0 totalParts).1 = r.From_ ∧
    (∀ p, p + 1 < totalParts → (r.bounds p totalParts).2 = (r.bounds (p + 1) totalParts).1) ∧
    (r.bounds (totalParts - 1) totalParts).2 = r.To_ ∧
    (∀ p, p < totalParts → (r.bounds p totalParts).1 ≤ (r.bounds p totalParts).2) ∧
    (∀ p q, p < totalParts → q < totalParts →
      (r.bounds p totalParts).2 - (r.bounds p totalParts).1 ≤
        (r.bounds q totalParts).2 - (r.bounds q totalParts).1 + 1) ∧
    (∀ p, p < totalParts → r.call p totalParts =
      some ((List.range' (r.bounds p totalParts).1
        ((r.bounds p totalParts).2 - (r.bounds p totalParts).1)).map Event.Func)) ∧
    r.allParts totalParts = List.range' r.From_ (r.To_ - r.From_) := by
  have hdm := Nat.div_add_mod (r.To_ - r.From_) totalParts
  have hmod : (r.To_ - r.From_) % totalParts < totalParts := Nat.mod_lt _ (by omega)
  have hB := fun p (hp : p < totalParts) => bounds_eq r p totalParts hle hto hp
  have hsucc : ∀ p : Nat, (p + 1) * ((r.To_ - r.From_) / totalParts)
      = p * ((r.To_ - r.From_) / totalParts) + (r.To_ - r.From_) / totalParts := by
    intro p; rw [Nat.add_mul, Nat.one_mul]
  refine ⟨?_, ?_, ?_, ?_, ?_, ?_, ?_⟩
  · rw [hB 0 (by omega)]; simp
  · intro p hp
    rw [hB p (by omega), hB (p + 1) hp]
  · rw [hB (totalParts - 1) (by omega)]
    simp only
    rw [show totalParts - 1 + 1 = totalParts by omega]
    generalize (r.To_ - r.From_) / totalParts = step at *
    generalize (r.To_ - r.From_) % totalParts = rem at *
    generalize totalParts * step = T at *
    omega
  · intro p hp
    rw [hB p hp]
    simp only
    rw [hsucc]
    generalize (r.To_ - r.From_) / totalParts = step at *
    generalize (r.To_ - r.From_) % totalParts = rem at *
    omega
  · intro p q hp hq
    rw [hB p hp, hB q hq]
    simp only
    rw [hsucc, hsucc]
    generalize (r.To_ - r.From_) / totalParts = step at *
    generalize (r.To_ - r.From_) % totalParts = rem at *
    omega
  · intro p _
    exact call_eq_range' r p totalParts ht
  · unfold RapidStartTask.allParts
    have hcongr : ∀ p ∈ List.range totalParts,
        funcs ((r.call p totalParts).getD []) =
          List.range' (r.From_ + p * ((r.To_ - r.From_) / totalParts) +
              min ((r.To_ - r.From_) % totalParts) p)
            ((r.From_ + (p + 1) * ((r.To_ - r.From_) / totalParts) +
              min ((r.To_ - r.From_) % totalParts) (p + 1)) -
             (r.From_ + p * ((r.To_ - r.From_) / totalParts) +
              min ((r.To_ - r.From_) % totalParts) p)) := by
      intro p hp
      have hp' := List.mem_range.1 hp
      rw [call_eq_range' r p totalParts ht, hB p hp']
      simp [funcs_map_Func]
    rw [List.flatMap_congr hcongr]
    have hch := flatMap_range'_chain
      (fun p => r.From_ + p * ((r.To_ - r.From_) / totalParts) +
        min ((r.To_ - r.From_) % totalParts) p) totalParts
      (by
        intro p _
        simp only
        rw [hsucc]
        generalize (r.To_ - r.From_) / totalParts = step at *
        generalize (r.To_ - r.From_) % totalParts = rem at *
        omega)
    simp only at hch
    rw [hch.1]
    congr 1
    · simp
    · simp only [Nat.zero_mul, Nat.zero_le, Nat.min_eq_right, Nat.add_zero]
      generalize (r.To_ - r.From_) / totalParts = step at *
      generalize (r.To_ - r.From_) % totalParts = rem at *
      generalize totalParts * step = T at *
      omega

/-- Witness for C2: `[3, 13)` in three parts. -/
theorem rapid_parts_balanced_partition_witness :
    (RapidStartTask.mk Balance.OFF GrainSize.DEFAULT 3 13).allParts 3 =
      List.range' 3 (13 - 3) :=
  (rapid_parts_balanced_partition ⟨Balance.OFF, GrainSize.DEFAULT, 3, 13⟩ 3
    (by decide) (by decide) (by decide)).2.2.2.2.2.2

/-! ## C3: `from > to` -/

theorem submitted_drainLoop (fuel : Nat) :
    ∀ e : Exec, submitted (drainLoop fuel e).trace = submitted e.trace := by
  induction fuel with
  | zero => intro e; rfl
  | succ n ih =>
    intro e
    simp only [drainLoop]
    split
    · rw [ih, submitted_Execute]
    · rfl

theorem submitted_afterDistribute_OFF (o : Oracle) (e : Exec) (h : e.t.balance = Balance.OFF) :
    submitted (afterDistribute o e).trace = submitted e.trace := by
  have h1 : delayedPhase o e = e := by simp [delayedPhase, h]
  have h2 : balancePhase o e = e := by simp [balancePhase, h]
  simp only [afterDistribute, h1, h2, drainPhase, submitted_append, submitted_drainLoop]
  simp [submitted, Event.child?]

theorem Task.call_OFF (o : Oracle) (t : Task) (hc : t.Current_ < W) (he : t.End_ < W)
    (hn : NoDistribute t) (hoff : t.balance = Balance.OFF) :
    ∃ e, Task.call o t = some e ∧ funcs e.trace = t.indices ∧ submitted e.trace = [] := by
  refine ⟨_, Task.call_eq o t hn, ?_⟩
  have hcov := (Cover_afterDistribute o _ (Cover_init t hc he)).1
  have hsub := submitted_afterDistribute_OFF o { t := t, trace := [Event.Add] } hoff
  have hnil : submitted (afterDistribute o { t := t, trace := [Event.Add] }).trace = [] := by
    rw [hsub]; simp [submitted, Event.child?]
  rw [hnil] at hcov
  simp only [List.reverse_nil, List.flatMap_nil, List.append_nil] at hcov
  exact ⟨hcov, hnil⟩

/-- C3, amended. For `to_ < from_` the range is not treated as empty.  The
range task `ParallelFor` runs itself (nested path or fallback) owns the
`2^64 - (from_ - to_) ≥ 1` indices `from_, from_ + 1, …` taken modulo `2^64` up
to `to_`: whenever it and the tasks it submitted have all been run, the body
has been called on a permutation of exactly these indices, and in balance mode
`OFF` the task calls the body on all of them itself and submits nothing.  A
part of a rapid task calls the body on `[lo, hi)` for the bounds it computes
modulo `2^64` (nothing if `hi ≤ lo`); a rapid task with one part calls
nothing. -/
theorem wrapped_range_not_empty
    (balance : Balance) (grainSizeMode : GrainSize) (stack : TaskStack) (rejected : Bool)
    (GetNumThreads from_ to_ : Nat) (grainSize : Int) (t : Task)
    (hgt : to_ < from_) (hfrom : from_ < W)
    (ht : (ParallelFor balance grainSizeMode stack rejected GetNumThreads from_ to_
      grainSize).task = some t) :
    indices from_ (W - (from_ - to_)) ≠ [] ∧
    (∀ sched : List Choice, ∃ p, Pool.run sched ⟨[t], []⟩ = some p ∧
      (p.pending = [] → p.log.Perm (indices from_ (W - (from_ - to_))))) ∧
    (balance = Balance.OFF → ∀ o : Oracle, ∃ e, Task.call o t = some e ∧
      funcs e.trace = indices from_ (W - (from_ - to_)) ∧ submitted e.trace = []) ∧
    (∀ part totalParts : Nat, 1 ≤ totalParts →
      (RapidStartTask.mk balance grainSizeMode from_ to_).call part totalParts =
        some ((List.range'
          ((RapidStartTask.mk balance grainSizeMode from_ to_).bounds part totalParts).1
          (((RapidStartTask.mk balance grainSizeMode from_ to_).bounds part totalParts).2 -
            ((RapidStartTask.mk balance grainSizeMode from_ to_).bounds part totalParts).1)).map
          Event.Func)) ∧
    (RapidStartTask.mk balance grainSizeMode from_ to_).call 0 1 = some [] := by
  obtain ⟨hc, he, hn, _⟩ := ParallelFor_task _ _ _ _ _ _ _ _ _ ht
  have hsz : sub64 t.End_ t.Current_ = W - (from_ - to_) := by
    rw [hc, he]; simp only [sub64_eq_mod, W] at *; omega
  have hbal : t.balance = balance := by
    unfold ParallelFor at ht
    by_cases hs : stack.IsEmpty = true
    · cases rejected with
      | true =>
        simp only [hs, if_true] at ht
        injection ht with ht
        subst ht; rfl
      | false => simp [hs] at ht
    · simp only [hs] at ht
      injection ht with ht
      subst ht; rfl
  have hto : to_ < W := Nat.lt_trans hgt hfrom
  refine ⟨?_, ?_, ?_, ?_, ?_⟩
  · intro h
    have := congrArg List.length h
    rw [indices_length] at this
    simp only [W, List.length_nil] at *; omega
  · intro sched
    have hsafe : Pool.Safe (indices from_ (W - (from_ - to_))) ⟨[t], []⟩ := by
      refine ⟨?_, ?_⟩
      · intro u hu
        simp only [List.mem_singleton] at hu
        subst hu
        rw [hc, he]
        exact ⟨hfrom, hto, hn⟩
      · simp only [List.flatMap_cons, List.flatMap_nil, List.append_nil, List.nil_append,
          Task.indices, hsz]
        rw [hc]
    obtain ⟨p, hp, _, hperm⟩ := Pool.Safe_run _ sched _ hsafe
    exact ⟨p, hp, fun hpe => by simpa [hpe] using hperm⟩
  · intro hoff o
    obtain ⟨e, h1, h2, h3⟩ := Task.call_OFF o t (hc ▸ hfrom) (he ▸ hto) hn (hbal ▸ hoff)
    refine ⟨e, h1, ?_, h3⟩
    rw [h2, Task.indices, hsz, hc]
  · intro part totalParts h1
    exact call_eq_range' _ part totalParts h1
  · rw [call_eq_range' _ 0 1 (Nat.le_refl 1)]
    have : ((RapidStartTask.mk balance grainSizeMode from_ to_).bounds 0 1).2 -
        ((RapidStartTask.mk balance grainSizeMode from_ to_).bounds 0 1).1 = 0 := by
      simp only [RapidStartTask.bounds, add64, sub64_eq_mod, mul64, W] at *
      omega
    rw [this]; rfl

/-- Counterexample to C3: `ParallelFor<OFF>(1, 0, body, 1)` on the nested path
runs a task that calls the body on `1, 2, …`, and part 0 of 2 of the rapid task
for `(1, 0)` calls the body on index 1. -/
theorem from_gt_to_calls_body :
    (∃ t e, (ParallelFor Balance.OFF GrainSize.DEFAULT ⟨[7]⟩ false 4 1 0 1).task = some t ∧
      Task.call ⟨0, fun _ => 0, fun _ => false⟩ t = some e ∧
      funcs e.trace = 1 :: indices 2 (W - 2)) ∧
    (∃ tr, (RapidStartTask.mk Balance.OFF GrainSize.DEFAULT 1 0).call 0 2 = some tr ∧
      Event.Func 1 ∈ tr) := by
  constructor
  · obtain ⟨e, he, hf, _⟩ := Task.call_OFF ⟨0, fun _ => 0, fun _ => false⟩
      { balance := Balance.OFF, grainSizeMode := GrainSize.DEFAULT, Current_ := 1, End_ := 0,
        Split_ := { Threads := ⟨0, 4⟩, GrainSize := 1 } }
      (by decide) (by decide) (Or.inl rfl) rfl
    refine ⟨_, e, rfl, he, ?_⟩
    rw [hf]
    have hs : sub64 0 1 = W - 2 + 1 := by with_unfolding_all decide
    have h2 : add64 1 1 = 2 := by with_unfolding_all decide
    simp only [Task.indices, hs]
    rw [indices_succ 1 (W - 2) (by decide), h2]
  · refine ⟨_, call_eq_range' _ 0 2 (by decide), ?_⟩
    have hb : (RapidStartTask.mk Balance.OFF GrainSize.DEFAULT 1 0).bounds 0 2
        = (1, 9223372036854775809) := by with_unfolding_all decide
    rw [hb]
    exact List.mem_map.2 ⟨1, List.mem_range'_1.2 (by decide), rfl⟩

/-- Witness for C3 (amended): `from_ = 1`, `to_ = 0` on the nested path. -/
theorem wrapped_range_not_empty_witness :
    indices 1 (W - (1 - 0)) ≠ [] ∧
    (RapidStartTask.mk Balance.OFF GrainSize.DEFAULT 1 0).call 0 1 = some [] :=
  have h := wrapped_range_not_empty Balance.OFF GrainSize.DEFAULT ⟨[7]⟩ false 4 1 0 1
    { balance := Balance.OFF, grainSizeMode := GrainSize.DEFAULT, Current_ := 1, End_ := 0,
      Split_ := { Threads := ⟨0, 4⟩, GrainSize := 1 } } (by decide) (by decide) rfl
  ⟨h.1, h.2.2.2.2⟩

/-! ## The shape of a task's trace -/

theorem Shape_append {e e' : Exec} {l : List Event} (h : Shape e)
    (htr : e'.trace = e.trace ++ l) (hl : ∀ ev ∈ l, ev.inner = true) : Shape e' := by
  obtain ⟨mid, h1, h2⟩ := h
  refine ⟨mid ++ l, by rw [htr, h1]; rfl, ?_⟩
  intro ev hev
  rcases List.mem_append.1 hev with h | h
  · exact h2 ev h
  · exact hl ev h

theorem Shape_congr {e e' : Exec} (h : Shape e) (htr : e'.trace = e.trace) : Shape e' := by
  unfold Shape at *; rw [htr]; exact h

theorem Shape_Execute {e : Exec} (h : Shape e) : Shape (Execute e) :=
  Shape_append h rfl (by intro ev hev; simp at hev; subst hev; rfl)

theorem Shape_warmupLoop (o : Oracle) (start : Nat) (fuel : Nat) :
    ∀ e : Exec, Shape e → Shape (warmupLoop o start fuel e) := by
  induction fuel with
  | zero => intro e h; exact h
  | succ n ih =>
    intro e h
    simp only [warmupLoop]
    split
    · split
      · exact Shape_congr (Shape_Execute h) rfl
      · apply ih
        split
        · exact Shape_congr (Shape_Execute h) rfl
        · exact Shape_congr (Shape_Execute h) rfl
    · exact h

theorem Shape_splitLoop (o : Oracle) (fuel : Nat) :
    ∀ e : Exec, Shape e → Shape (splitLoop o fuel e) := by
  induction fuel with
  | zero => intro e h; exact h
  | succ n ih =>
    intro e h
    simp only [splitLoop]
    split
    · split
      · apply ih
        refine Shape_append (Shape_congr h (IsDivisible_trace o e)) rfl ?_
        intro ev hev; simp at hev; subst hev; rfl
      · exact Shape_congr h (IsDivisible_trace o e)
    · exact h

theorem Shape_drainLoop (fuel : Nat) :
    ∀ e : Exec, Shape e → Shape (drainLoop fuel e) := by
  induction fuel with
  | zero => intro e h; exact h
  | succ n ih =>
    intro e h
    simp only [drainLoop]
    split
    · exact ih _ (Shape_Execute h)
    · exact h

theorem distribute_foldl_trace (t : Task) (a b c d f g h : Nat) (l : List Nat) :
    ∀ s : DistState, ∃ D, (l.foldl (distributeStep t a b c d f g h) s).trace = s.trace ++ D ∧
      ∀ ev ∈ D, ∃ ch hint, ev = Event.run_on_thread ch hint := by
  induction l with
  | nil => intro s; exact ⟨[], by simp, by simp⟩
  | cons i l ih =>
    intro s
    obtain ⟨D, h1, h2⟩ := ih (distributeStep t a b c d f g h s i)
    rw [List.foldl_cons, h1]
    simp only [distributeStep, List.append_assoc, List.singleton_append]
    refine ⟨_ :: D, rfl, ?_⟩
    intro ev hev
    rcases List.mem_cons.1 hev with h | h
    · exact ⟨_, _, h⟩
    · exact h2 ev h

theorem distributeLoop_trace (t : Task) (tr : List Event) (oT oD : Range) (parts : Nat) :
    ∃ D, (distributeLoop t tr oT oD parts).trace = tr ++ D ∧
      ∀ ev ∈ D, ∃ ch hint, ev = Event.run_on_thread ch hint := by
  unfold distributeLoop
  exact distribute_foldl_trace t _ _ _ _ _ _ _ (List.range parts) ⟨tr, oT.From, oD.From⟩

theorem distribute_trace (e e' : Exec) (h : distribute e = some e') :
    ∃ D, e'.trace = e.trace ++ D ∧ (∀ ev ∈ D, ∃ ch hint, ev = Event.run_on_thread ch hint) ∧
      e'.t.balance = e.t.balance ∧ e'.t.Current_ = e.t.Current_ ∧ e'.t.Split_ = e.t.Split_ ∧
      e'.t.grainSizeMode = e.t.grainSizeMode := by
  unfold distribute at h
  split at h
  · exact Option.noConfusion h
  · split at h
    · split at h
      · exact Option.noConfusion h
      · obtain ⟨D, hD1, hD2⟩ := distributeLoop_trace e.t e.trace e.t.otherThreads
          e.t.otherData e.t.parts
        have h' := Option.some.inj h
        subst h'
        exact ⟨D, hD1, hD2, rfl, rfl, rfl, rfl⟩
    · have h' := Option.some.inj h
      subst h'
      exact ⟨[], (List.append_nil _).symm, by simp, rfl, rfl, rfl, rfl⟩

theorem DistributeWork_trace (o : Oracle) (e e' : Exec) (h : DistributeWork o e = some e') :
    ∃ D, e'.trace = e.trace ++ D ∧ (∀ ev ∈ D, ∃ ch hint, ev = Event.run_on_thread ch hint) ∧
      e'.t.balance = e.t.balance ∧ e'.t.Current_ = e.t.Current_ ∧ e'.t.Split_ = e.t.Split_ ∧
      e'.t.grainSizeMode = e.t.grainSizeMode := by
  unfold DistributeWork at h
  split at h
  · simp only at h
    split at h
    · have := distribute_trace _ _ h
      simpa only [IsDivisible_t, IsDivisible_trace] using this
    · injection h with h
      subst h
      exact ⟨[], by simp [IsDivisible_trace], by simp, by simp [IsDivisible_t],
        by simp [IsDivisible_t], by simp [IsDivisible_t], by simp [IsDivisible_t]⟩
  · injection h with h
    subst h
    exact ⟨[], by simp, by simp, rfl, rfl, rfl, rfl⟩

theorem Shape_afterDistribute (o : Oracle) (e : Exec) (h : Shape e) :
    ∃ mid, (afterDistribute o e).trace = Event.Add :: mid ++ [Event.Reset, Event.Pop] ∧
      ∀ ev ∈ mid, ev.inner = true := by
  have h1 : Shape (delayedPhase o e) := by
    unfold delayedPhase
    split
    · exact Shape_warmupLoop o _ _ _ (Shape_congr h rfl)
    · exact h
  have h2 : Shape (balancePhase o (delayedPhase o e)) := by
    unfold balancePhase
    split
    · exact Shape_splitLoop o _ _ h1
    · exact h1
  obtain ⟨mid, h3, h4⟩ := Shape_drainLoop
    (sub64 (balancePhase o (delayedPhase o e)).t.End_
      (balancePhase o (delayedPhase o e)).t.Current_) _ h2
  refine ⟨mid, ?_, h4⟩
  simp only [afterDistribute, drainPhase, h3]

theorem Task.call_shape (o : Oracle) (t : Task) (e : Exec) (h : Task.call o t = some e) :
    ∃ mid, e.trace = Event.Add :: mid ++ [Event.Reset, Event.Pop] ∧
      ∀ ev ∈ mid, ev.inner = true := by
  unfold Task.call at h
  simp only [Option.map_eq_some'] at h
  obtain ⟨e1, h1, h2⟩ := h
  subst h2
  apply Shape_afterDistribute
  split at h1
  · obtain ⟨D, hD, hD2, _⟩ := DistributeWork_trace o _ _ h1
    refine ⟨D, hD, ?_⟩
    intro ev hev
    obtain ⟨c, hint, hc⟩ := hD2 ev hev
    subst hc; rfl
  · injection h1 with h1
    subst h1
    exact ⟨[], rfl, by simp⟩

/-! ## C4: ranges not larger than the grain -/

/-- C4 fails on the fallback path. `ParallelFor<SIMPLE, DEFAULT>(0, 3, body, 5)`
called with an empty task stack, `try_run_rapid` rejecting: the task built by
`IntoTask` has grain size 1, not 5, so with the stack not half full it submits
the task `[1, 3)` through `run` and calls the body on 0 only.  On the nested
path the same call submits nothing and calls the body on 0, 1, 2. -/
theorem fallback_ignores_grain :
    (ParallelFor Balance.SIMPLE GrainSize.DEFAULT ⟨[]⟩ true 4 0 3 5).task =
      some { balance := Balance.SIMPLE, grainSizeMode := GrainSize.DEFAULT,
             initial := Initial.TRUE, Current_ := 0, End_ := 3,
             Split_ := { Threads := ⟨0, 1⟩, GrainSize := 1 } } ∧
    (Task.call ⟨0, fun _ => 0, fun _ => false⟩
        { balance := Balance.SIMPLE, grainSizeMode := GrainSize.DEFAULT,
          initial := Initial.TRUE, Current_ := 0, End_ := 3,
          Split_ := { Threads := ⟨0, 1⟩, GrainSize := 1 } }).map Exec.trace =
      some [Event.Add,
        Event.run { balance := Balance.SIMPLE, grainSizeMode := GrainSize.DEFAULT,
                    Current_ := 1, End_ := 3, Split_ := { GrainSize := 1, Depth := 1 } },
        Event.Func 0, Event.Reset, Event.Pop] ∧
    (ParallelFor Balance.SIMPLE GrainSize.DEFAULT ⟨[7]⟩ true 4 0 3 5).task =
      some { balance := Balance.SIMPLE, grainSizeMode := GrainSize.DEFAULT,
             initial := Initial.FALSE, Current_ := 0, End_ := 3,
             Split_ := { Threads := ⟨0, 4⟩, GrainSize := 5 } } ∧
    (Task.call ⟨0, fun _ => 0, fun _ => false⟩
        { balance := Balance.SIMPLE, grainSizeMode := GrainSize.DEFAULT,
          initial := Initial.FALSE, Current_ := 0, End_ := 3,
          Split_ := { Threads := ⟨0, 4⟩, GrainSize := 5 } }).map Exec.trace =
      some [Event.Add, Event.Func 0, Event.Func 1, Event.Func 2, Event.Reset, Event.Pop] := by
  refine ⟨by with_unfolding_all decide, by with_unfolding_all decide,
    by with_unfolding_all decide, by with_unfolding_all decide⟩

/-! ## C10: the task built after a rejected rapid start -/

/-- Counterexample to C10: for grain 5 and 4 workers the task run after a
rejection has grain size 1 and thread range `[0, 1)`, the task of the nested
path grain size 5 and thread range `[0, 4)`. -/
theorem fallback_task_differs :
    ∃ tf tn, (ParallelFor Balance.SIMPLE GrainSize.DEFAULT ⟨[]⟩ true 4 0 100 5).task = some tf ∧
      (ParallelFor Balance.SIMPLE GrainSize.DEFAULT ⟨[7]⟩ true 4 0 100 5).task = some tn ∧
      tf.Split_.GrainSize = 1 ∧ tn.Split_.GrainSize = 5 ∧
      tf.Split_.Threads = ⟨0, 1⟩ ∧ tn.Split_.Threads = ⟨0, 4⟩ :=
  ⟨_, _, rfl, rfl, rfl, by with_unfolding_all decide, rfl, rfl⟩

/-- C10, amended. When `try_run_rapid` rejects the rapid task, the range task
`ParallelFor` then runs has the same range `[from_, to_)` and the same balance
and grain-size modes as the task built on the nested path, for every grain and
worker count; its thread range is `[0, 1)` (so that `DistributeWork` does
nothing) where the nested task has `[0, GetNumThreads)`, and the nested task
has grain size `max(grainSize, 1)`. -/
theorem fallback_task_config (balance : Balance) (grainSizeMode : GrainSize)
    (empty nonempty : TaskStack) (GetNumThreads from_ to_ : Nat) (grainSize : Int)
    (he : empty.IsEmpty = true) (hn : nonempty.IsEmpty = false) :
    ∃ tf tn,
      (ParallelFor balance grainSizeMode empty true GetNumThreads from_ to_ grainSize).task
        = some tf ∧
      (ParallelFor balance grainSizeMode nonempty true GetNumThreads from_ to_ grainSize).task
        = some tn ∧
      tf.Current_ = from_ ∧ tf.End_ = to_ ∧ tn.Current_ = from_ ∧ tn.End_ = to_ ∧
      tf.balance = tn.balance ∧ tf.grainSizeMode = tn.grainSizeMode ∧
      tf.Split_.Threads = ⟨0, 1⟩ ∧ tf.Split_.Threads.Size = 1 ∧
      tn.Split_.Threads = ⟨0, GetNumThreads⟩ ∧
      tn.Split_.GrainSize = (max grainSize 1).toNat % W := by
  refine ⟨(RapidStartTask.mk balance grainSizeMode from_ to_).IntoTask Initial.TRUE from_ to_,
    { balance := balance, grainSizeMode := grainSizeMode, initial := Initial.FALSE,
      Current_ := from_, End_ := to_,
      Split_ := { Threads := ⟨0, GetNumThreads⟩, GrainSize := (max grainSize 1).toNat % W } },
    by simp only [ParallelFor, he, if_true], by simp [ParallelFor, hn],
    rfl, rfl, rfl, rfl, rfl, rfl, rfl, ?_, rfl, rfl⟩
  simp [RapidStartTask.IntoTask, Range.Size, sub64_eq_mod]

/-- Witness for C10 (amended). -/
theorem fallback_task_config_witness :
    ∃ tf tn,
      (ParallelFor Balance.DELAYED GrainSize.AUTO ⟨[]⟩ true 8 2 50 0).task = some tf ∧
      (ParallelFor Balance.DELAYED GrainSize.AUTO ⟨[3]⟩ true 8 2 50 0).task = some tn ∧
      tf.Current_ = 2 ∧ tf.End_ = 50 ∧ tn.Current_ = 2 ∧ tn.End_ = 50 ∧
      tf.balance = tn.balance ∧ tf.grainSizeMode = tn.grainSizeMode ∧
      tf.Split_.Threads = ⟨0, 1⟩ ∧ tf.Split_.Threads.Size = 1 ∧
      tn.Split_.Threads = ⟨0, 8⟩ ∧
      tn.Split_.GrainSize = (max (0 : Int) 1).toNat % W :=
  fallback_task_config Balance.DELAYED GrainSize.AUTO ⟨[]⟩ ⟨[3]⟩ 8 2 50 0 rfl rfl

/-! ## C7: the two sides of `ParallelDo` -/

/-- C7 fails for the right side. `ParallelDo` wraps only `fst` with
`WrapAsTask`; `sec` is called directly.  So while `fst` runs the executing
thread's task stack is non-empty, but `sec` runs on the caller's stack as it
is: called with an empty stack, `sec` sees an empty stack. -/
theorem par_do_right_has_no_frame (fst sec : TaskStack → TaskStack) (ts : Nat)
    (worker : TaskStack) :
    (ParallelDo fst sec ts worker ⟨[]⟩).left.seen.IsEmpty = false ∧
    (ParallelDo fst sec ts worker ⟨[]⟩).right.seen.IsEmpty = true :=
  ⟨rfl, rfl⟩

/-! ## The task stack -/

theorem replay_inner (ts : Nat) (n : Nested) (hb : ∀ i s, n.body i s = s)
    (hs : ∀ c s, n.sched c s = s) (mid : List Event) :
    ∀ (rest : List Event) (s : TaskStack), (∀ ev ∈ mid, ev.inner = true) →
      (replay ts n (mid ++ rest) s).final = (replay ts n rest s).final ∧
      (replay ts n (mid ++ rest) s).popped = (replay ts n rest s).popped ∧
      (replay ts n (mid ++ rest) s).atFunc =
        List.replicate (funcs mid).length s ++ (replay ts n rest s).atFunc := by
  induction mid with
  | nil => intro rest s _; simp [funcs]
  | cons ev mid ih =>
    intro rest s h
    have hev := h ev (List.mem_cons_self _ _)
    obtain ⟨h1, h2, h3⟩ := ih rest s fun x hx => h x (List.mem_cons_of_mem _ hx)
    rw [List.cons_append]
    cases ev with
    | Add => exact absurd hev (by simp [Event.inner])
    | Pop => exact absurd hev (by simp [Event.inner])
    | Reset => exact absurd hev (by simp [Event.inner])
    | Func i =>
      simp only [replay, hb]
      refine ⟨h1, h2, ?_⟩
      rw [h3]
      simp [funcs, Event.func?, List.replicate_succ]
    | run c =>
      simp only [replay, hs]
      refine ⟨h1, h2, ?_⟩
      rw [h3]
      simp [funcs, Event.func?]
    | run_on_thread c hint =>
      simp only [replay, hs]
      refine ⟨h1, h2, ?_⟩
      rw [h3]
      simp [funcs, Event.func?]

theorem replay_task (ts : Nat) (n : Nested) (hb : ∀ i s, n.body i s = s)
    (hs : ∀ c s, n.sched c s = s) (mid : List Event) (s : TaskStack)
    (hmid : ∀ ev ∈ mid, ev.inner = true) :
    (replay ts n (Event.Add :: mid ++ [Event.Reset, Event.Pop]) s).final = s ∧
    (replay ts n (Event.Add :: mid ++ [Event.Reset, Event.Pop]) s).popped = [some ts] ∧
    (replay ts n (Event.Add :: mid ++ [Event.Reset, Event.Pop]) s).atFunc =
      List.replicate (funcs mid).length (s.Add ts) := by
  obtain ⟨h1, h2, h3⟩ := replay_inner ts n hb hs mid [Event.Reset, Event.Pop] (s.Add ts) hmid
  rw [List.cons_append]
  simp only [replay] at h1 h2 h3 ⊢
  rw [h1, h2, h3]
  simp [TaskStack.Add, TaskStack.Pop]

theorem replay_funcs (ts : Nat) (n : Nested) (hb : ∀ i s, n.body i s = s) (l : List Nat)
    (s : TaskStack) :
    (replay ts n (l.map Event.Func) s).final = s ∧
    (replay ts n (l.map Event.Func) s).atFunc = List.replicate l.length s := by
  induction l with
  | nil => exact ⟨rfl, rfl⟩
  | cons i l ih =>
    simp only [List.map_cons, replay, hb, List.length_cons, List.replicate_succ]
    exact ⟨ih.1, by rw [ih.2]⟩

theorem TaskEffect.neutral {f : TaskStack → TaskStack} (h : TaskEffect f) : ∀ s, f s = s := by
  induction h with
  | nothing => intro s; rfl
  | seq f g _ _ ihf ihg => intro s; simp only [ihf, ihg]
  | task t o ts n e _ _ he ihb ihs =>
    intro s
    obtain ⟨mid, hm, hin⟩ := Task.call_shape o t e he
    rw [hm]
    exact (replay_task ts n ihb ihs mid s hin).1
  | rapidPart r part totalParts n tr _ hr ihb =>
    intro s
    have ht : 1 ≤ totalParts := by
      by_contra hc
      have : totalParts = 0 := by omega
      simp [RapidStartTask.call, this] at hr
    rw [call_eq_range' r part totalParts ht] at hr
    have hr' := Option.some.inj hr
    subst hr'
    exact (replay_funcs 0 n ihb _ s).1
  | wrapped func ts _ ih =>
    intro s
    simp [WrapAsTask, ih, TaskStack.Add, TaskStack.Pop]

/-! ## C9: a range task leaves the task stack as it found it -/

/-- C9. Run a range task (any range, modes, oracle answers) on a thread whose
task stack is `s`, with anything the partitioner can run nested inside its body
calls and submissions (`TaskEffect`).  Then the stack after the task is `s`
again, the task's single `Pop()` removes the frame `ts` that its `Add(ts)`
pushed, and consequently a `ParallelFor` called with an empty task stack
(running its own range task, if any, and then whatever the waiting loop
executes) returns with an empty task stack. -/
theorem range_task_restores_stack (t : Task) (o : Oracle) (ts : Nat) (n : Nested) (e : Exec)
    (s : TaskStack) (hb : ∀ i, TaskEffect (n.body i)) (hs : ∀ c, TaskEffect (n.sched c))
    (he : Task.call o t = some e) :
    (replay ts n e.trace s).final = s ∧
    (replay ts n e.trace s).popped = [some ts] ∧
    (∀ (balance : Balance) (grainSizeMode : GrainSize) (rejected : Bool)
        (GetNumThreads from_ to_ : Nat) (grainSize : Int) (o' : Oracle) (ts' : Nat)
        (n' : Nested) (spin : TaskStack → TaskStack),
      (∀ i, TaskEffect (n'.body i)) → (∀ c, TaskEffect (n'.sched c)) → TaskEffect spin →
      ParallelFor.onStack
        (ParallelFor balance grainSizeMode ⟨[]⟩ rejected GetNumThreads from_ to_ grainSize)
        o' ts' n' spin ⟨[]⟩ = some ⟨[]⟩) := by
  obtain ⟨mid, hm, hin⟩ := Task.call_shape o t e he
  have h := replay_task ts n (fun i => (hb i).neutral) (fun c => (hs c).neutral) mid s hin
  rw [← hm] at h
  refine ⟨h.1, h.2.1, ?_⟩
  intro balance grainSizeMode rejected GetNumThreads from_ to_ grainSize o' ts' n' spin hb' hs' hsp
  cases rejected with
  | false =>
    simp only [ParallelFor.onStack, ParallelFor, TaskStack.IsEmpty, List.isEmpty_nil, if_true]
    simp [hsp.neutral]
  | true =>
    have hn : NoDistribute ((RapidStartTask.mk balance grainSizeMode from_ to_).IntoTask
        Initial.TRUE from_ to_) :=
      Or.inr (by simp [RapidStartTask.IntoTask, Range.Size, sub64_eq_mod])
    have hc := Task.call_eq o' _ hn
    simp only [ParallelFor.onStack, ParallelFor, TaskStack.IsEmpty, List.isEmpty_nil, if_true,
      hc, Option.map_some']
    rw [hsp.neutral]
    exact congrArg some ((TaskEffect.task _ o' ts' n' _ hb' hs' hc).neutral ⟨[]⟩)

/-- Witness for C9: a `SIMPLE` task over `[0, 4)` on a thread whose stack holds
the frames 5 and 6, its own frame being 7. -/
theorem range_task_restores_stack_witness :
    (replay 7 ⟨fun _ s => s, fun _ s => s⟩
      (afterDistribute ⟨0, fun _ => 0, fun _ => false⟩
        { t := { balance := Balance.SIMPLE, grainSizeMode := GrainSize.DEFAULT, Current_ := 0,
                 End_ := 4, Split_ := { GrainSize := 1 } },
          trace := [Event.Add] }).trace ⟨[5, 6]⟩).final = ⟨[5, 6]⟩ :=
  (range_task_restores_stack
    { balance := Balance.SIMPLE, grainSizeMode := GrainSize.DEFAULT, Current_ := 0,
      End_ := 4, Split_ := { GrainSize := 1 } }
    ⟨0, fun _ => 0, fun _ => false⟩ 7 ⟨fun _ s => s, fun _ s => s⟩ _ ⟨[5, 6]⟩
    (fun _ => TaskEffect.nothing) (fun _ => TaskEffect.nothing)
    (Task.call_eq _ _ (Or.inl rfl))).1

/-! ## C5: the task stack while the body runs -/

theorem range_task_body_sees_frame (t : Task) (o : Oracle) (ts : Nat) (n : Nested) (e : Exec)
    (s : TaskStack) (hb : ∀ i, TaskEffect (n.body i)) (hs : ∀ c, TaskEffect (n.sched c))
    (he : Task.call o t = some e) :
    ∀ x ∈ (replay ts n e.trace s).atFunc, x.IsEmpty = false := by
  obtain ⟨mid, hm, hin⟩ := Task.call_shape o t e he
  have h := replay_task ts n (fun i => (hb i).neutral) (fun c => (hs c).neutral) mid s hin
  rw [← hm] at h
  rw [h.2.2]
  intro x hx
  rw [List.eq_of_mem_replicate hx]
  rfl

/-- C5 fails for the parts of a rapid task. `RapidStartTask::operator()` calls
`Func_(i)` without pushing a frame: part 0 of 1 of the rapid task for `[0, 1)`,
run on a thread whose task stack is empty, calls the body on 0 with the task
stack still empty, and every `ParallelFor` called with an empty task stack
calls `try_run_rapid`. -/
theorem rapid_part_pushes_no_frame :
    (RapidStartTask.mk Balance.SIMPLE GrainSize.DEFAULT 0 1).call 0 1 =
      some [Event.Func 0] ∧
    (replay 0 ⟨fun _ s => s, fun _ s => s⟩ [Event.Func 0] ⟨[]⟩).atFunc = [⟨[]⟩] ∧
    (TaskStack.mk []).IsEmpty = true ∧
    ∀ (balance : Balance) (grainSizeMode : GrainSize) (rejected : Bool)
      (GetNumThreads from_ to_ : Nat) (grainSize : Int),
      (ParallelFor balance grainSizeMode ⟨[]⟩ rejected GetNumThreads from_ to_
        grainSize).try_run_rapid = true := by
  refine ⟨by with_unfolding_all decide, rfl, rfl, ?_⟩
  intro balance grainSizeMode rejected GetNumThreads from_ to_ grainSize
  cases rejected <;> rfl

/-! ## C6: warm-up before split -/

theorem ext_append {base : List Event} {e e' : Exec} {l : List Event}
    (h : ∃ tl, e.trace = base ++ tl) (htr : e'.trace = e.trace ++ l) :
    ∃ tl, e'.trace = base ++ tl := by
  obtain ⟨tl, h⟩ := h
  exact ⟨tl ++ l, by rw [htr, h, List.append_assoc]⟩

theorem ext_congr {base : List Event} {e e' : Exec}
    (h : ∃ tl, e.trace = base ++ tl) (htr : e'.trace = e.trace) :
    ∃ tl, e'.trace = base ++ tl := by
  rw [htr]; exact h

theorem warmupLoop_ext (o : Oracle) (start : Nat) (base : List Event) (fuel : Nat) :
    ∀ e : Exec, (∃ tl, e.trace = base ++ tl) →
      ∃ tl, (warmupLoop o start fuel e).trace = base ++ tl := by
  induction fuel with
  | zero => intro e h; exact h
  | succ n ih =>
    intro e h
    simp only [warmupLoop]
    have hE : ∃ tl, (Execute e).trace = base ++ tl := ext_append h rfl
    split
    · split
      · exact ext_congr hE rfl
      · apply ih
        split
        · exact ext_congr hE rfl
        · exact ext_congr hE rfl
    · exact h

theorem splitLoop_ext (o : Oracle) (base : List Event) (fuel : Nat) :
    ∀ e : Exec, (∃ tl, e.trace = base ++ tl) →
      ∃ tl, (splitLoop o fuel e).trace = base ++ tl := by
  induction fuel with
  | zero => intro e h; exact h
  | succ n ih =>
    intro e h
    simp only [splitLoop]
    split
    · split
      · apply ih
        exact ext_append (ext_congr h (IsDivisible_trace o e)) rfl
      · exact ext_congr h (IsDivisible_trace o e)
    · exact h

theorem drainLoop_ext (base : List Event) (fuel : Nat) :
    ∀ e : Exec, (∃ tl, e.trace = base ++ tl) →
      ∃ tl, (drainLoop fuel e).trace = base ++ tl := by
  induction fuel with
  | zero => intro e h; exact h
  | succ n ih =>
    intro e h
    simp only [drainLoop]
    split
    · exact ih _ (ext_append h rfl)
    · exact h

theorem warmupLoop_first (o : Oracle) (start : Nat) (fuel : Nat) (e : Exec)
    (h : e.t.Current_ < e.t.End_) :
    ∃ tl, (warmupLoop o start (fuel + 1) e).trace =
      (e.trace ++ [Event.Func e.t.Current_]) ++ tl := by
  simp only [warmupLoop, h, if_true]
  have hE : ∃ tl, (Execute e).trace = (e.trace ++ [Event.Func e.t.Current_]) ++ tl :=
    ⟨[], by simp [Execute]⟩
  split
  · exact ext_congr hE rfl
  · apply warmupLoop_ext
    split
    · exact ext_congr hE rfl
    · exact ext_congr hE rfl

theorem afterDistribute_ext (o : Oracle) (base : List Event) (e : Exec)
    (h : ∃ tl, (delayedPhase o e).trace = base ++ tl) :
    ∃ tl, (afterDistribute o e).trace = base ++ tl := by
  have h2 : ∃ tl, (balancePhase o (delayedPhase o e)).trace = base ++ tl := by
    unfold balancePhase
    split
    · exact splitLoop_ext o base _ _ h
    · exact h
  have h3 : ∃ tl, (drainPhase (balancePhase o (delayedPhase o e))).trace = base ++ tl :=
    drainLoop_ext base _ _ h2
  exact ext_append h3 rfl

theorem afterDistribute_DELAYED_first (o : Oracle) (e : Exec)
    (hb : e.t.balance = Balance.DELAYED) (h : e.t.Current_ < e.t.End_) :
    ∃ tl, (afterDistribute o e).trace = (e.trace ++ [Event.Func e.t.Current_]) ++ tl := by
  apply afterDistribute_ext
  unfold delayedPhase
  rw [if_pos hb]
  simp only
  obtain ⟨k, hk⟩ : ∃ k, e.t.End_ - e.t.Current_ = k + 1 := ⟨e.t.End_ - e.t.Current_ - 1, by omega⟩
  rw [hk]
  exact warmupLoop_first o _ k { e with clockReads := e.clockReads + 1 } h

theorem splitLoop_empty (o : Oracle) (fuel : Nat) (e : Exec) (h : e.t.Current_ = e.t.End_) :
    splitLoop o fuel e = e := by
  cases fuel with
  | zero => rfl
  | succ n => simp only [splitLoop, h, ne_eq, not_true_eq_false, if_false]

theorem afterDistribute_empty (o : Oracle) (e : Exec) (h : e.t.Current_ = e.t.End_) :
    (afterDistribute o e).trace = e.trace ++ [Event.Reset, Event.Pop] := by
  have h1 : (delayedPhase o e).trace = e.trace ∧ (delayedPhase o e).t = e.t := by
    unfold delayedPhase
    split
    · simp [h, warmupLoop]
    · exact ⟨rfl, rfl⟩
  have h2 : balancePhase o (delayedPhase o e) = delayedPhase o e := by
    unfold balancePhase
    split
    · exact splitLoop_empty o 64 _ (by rw [h1.2]; exact h)
    · rfl
  simp only [afterDistribute, h2, drainPhase, h1.2, h, sub64_self, drainLoop, h1.1]

theorem ceil_share_le (n T : Nat) (hn : 1 ≤ n) (hnW : n < W) (hT : 1 ≤ T) (hTW : T < W) :
    sub64 (add64 n T) 1 / T ≤ n := by
  have hm : sub64 (add64 n T) 1 ≤ n + T - 1 := by
    simp only [sub64_eq_mod, add64, W] at *; omega
  have hmul : n + T - 1 ≤ T * n := by
    have h1 : (T - 1) * 1 ≤ (T - 1) * n := Nat.mul_le_mul_left _ hn
    have h2 : T * n = (T - 1) * n + n := by
      conv_lhs => rw [show T = (T - 1) + 1 by omega]
      rw [Nat.add_mul, Nat.one_mul]
    omega
  exact Nat.div_le_of_le_mul (Nat.le_trans hm hmul)

theorem distribute_end (e e1 : Exec) (h : distribute e = some e1)
    (hlt : e.t.Current_ < e.t.End_) (hW : e.t.End_ < W) :
    e1.t.Current_ ≤ e1.t.End_ := by
  unfold distribute at h
  split at h
  · exact Option.noConfusion h
  · rename_i hT
    split at h
    · split at h
      · exact Option.noConfusion h
      · have h' := Option.some.inj h
        subst h'
        show e.t.Current_ ≤ e.t.otherData.From
        have hs : sub64 e.t.End_ e.t.Current_ = e.t.End_ - e.t.Current_ :=
          sub64_eq (Nat.le_of_lt hlt) hW
        have hx := ceil_share_le (e.t.End_ - e.t.Current_) e.t.Split_.Threads.Size
          (by omega) (by simp only [W] at *; omega) (by omega) (sub64_lt _ _)
        simp only [Task.otherData, hs]
        generalize sub64 (add64 (e.t.End_ - e.t.Current_) e.t.Split_.Threads.Size) 1
          / e.t.Split_.Threads.Size = x at *
        rw [add64_eq (by simp only [W] at *; omega)]
        omega
    · have h' := Option.some.inj h
      subst h'
      exact Nat.le_of_lt hlt

theorem DistributeWork_end (o : Oracle) (e e1 : Exec) (h : DistributeWork o e = some e1)
    (hlt : e.t.Current_ < e.t.End_) (hW : e.t.End_ < W) :
    e1.t.Current_ ≤ e1.t.End_ := by
  unfold DistributeWork at h
  split at h
  · simp only at h
    split at h
    · exact distribute_end _ _ h (by rw [IsDivisible_t]; exact hlt)
        (by rw [IsDivisible_t]; exact hW)
    · have h' := Option.some.inj h
      subst h'
      rw [IsDivisible_t]; exact Nat.le_of_lt hlt
  · have h' := Option.some.inj h
    subst h'
    exact Nat.le_of_lt hlt

theorem runBeforeFunc_prefix (D tl : List Event) (i : Nat)
    (hD : ∀ ev ∈ D, ∃ ch hint, ev = Event.run_on_thread ch hint) :
    runBeforeFunc ((Event.Add :: D ++ [Event.Func i]) ++ tl) = false := by
  simp only [List.cons_append, List.append_assoc, runBeforeFunc]
  induction D with
  | nil => rfl
  | cons ev D ih =>
    obtain ⟨ch, hint, hev⟩ := hD ev (List.mem_cons_self _ _)
    subst hev
    simp only [List.cons_append, runBeforeFunc]
    exact ih fun x hx => hD x (List.mem_cons_of_mem _ hx)

theorem runBeforeFunc_none (D : List Event)
    (hD : ∀ ev ∈ D, ∃ ch hint, ev = Event.run_on_thread ch hint) :
    runBeforeFunc (Event.Add :: D ++ [Event.Reset, Event.Pop]) = false := by
  simp only [List.cons_append, runBeforeFunc]
  induction D with
  | nil => rfl
  | cons ev D ih =>
    obtain ⟨ch, hint, hev⟩ := hD ev (List.mem_cons_self _ _)
    subst hev
    simp only [List.cons_append, runBeforeFunc]
    exact ih fun x hx => hD x (List.mem_cons_of_mem _ hx)

/-- Counterexample to C6: a `DELAYED` initial task over `[0, 10)` with thread
range `[0, 2)` and grain 1, the stack not half full: `DistributeWork` submits
`[5, 10)` through `run_on_thread` before the first body call. -/
theorem delayed_initial_task_submits_first :
    (Task.call ⟨0, fun _ => 0, fun _ => false⟩
      { balance := Balance.DELAYED, grainSizeMode := GrainSize.DEFAULT,
        initial := Initial.TRUE, Current_ := 0, End_ := 10,
        Split_ := { Threads := ⟨0, 2⟩, GrainSize := 1 } }).map
      (fun e => (e.trace.take 3, submitBeforeFunc e.trace)) =
    some ([Event.Add,
      Event.run_on_thread
        { balance := Balance.DELAYED, grainSizeMode := GrainSize.DEFAULT,
          initial := Initial.TRUE, Current_ := 5, End_ := 10,
          Split_ := { Threads := ⟨1, 2⟩, GrainSize := 1 } } 1,
      Event.Func 0], true) := by
  with_unfolding_all decide

/-- C6, amended. For every `DELAYED` range task with a non-empty range
(`Current_ < End_`), whatever its initial flag, thread range and grain: no
subtask is submitted through `Sched_.run` (the halving loop) before the task
has called the body; and a task that is not initial, or whose thread range has
size 1, submits nothing at all before its first body call, which it does
make. -/
theorem delayed_warmup_precedes_split (o : Oracle) (t : Task) (e : Exec)
    (hb : t.balance = Balance.DELAYED) (hlt : t.Current_ < t.End_) (hW : t.End_ < W)
    (he : Task.call o t = some e) :
    runBeforeFunc e.trace = false ∧
    (t.initial = Initial.FALSE ∨ t.Split_.Threads.Size = 1 →
      submitBeforeFunc e.trace = false ∧ funcs e.trace ≠ []) := by
  constructor
  · unfold Task.call at he
    simp only [Option.map_eq_some'] at he
    obtain ⟨e1, h1, h2⟩ := he
    subst h2
    have key : ∃ D, e1.trace = Event.Add :: D ∧
        (∀ ev ∈ D, ∃ ch hint, ev = Event.run_on_thread ch hint) ∧
        e1.t.balance = Balance.DELAYED ∧ e1.t.Current_ ≤ e1.t.End_ := by
      split at h1
      · obtain ⟨D, hD, hD2, hbal, _⟩ := DistributeWork_trace o _ _ h1
        exact ⟨D, hD, hD2, by rw [hbal]; exact hb, DistributeWork_end o _ _ h1 hlt hW⟩
      · have h' := Option.some.inj h1
        subst h'
        exact ⟨[], rfl, by simp, hb, Nat.le_of_lt hlt⟩
    obtain ⟨D, hD, hD2, hbal, hle⟩ := key
    rcases Nat.lt_or_ge e1.t.Current_ e1.t.End_ with hc | hc
    · obtain ⟨tl, htl⟩ := afterDistribute_DELAYED_first o e1 hbal hc
      rw [htl, hD]
      exact runBeforeFunc_prefix D tl _ hD2
    · rw [afterDistribute_empty o e1 (Nat.le_antisymm hle hc), hD]
      exact runBeforeFunc_none D hD2
  · intro hn
    rw [Task.call_eq o t hn] at he
    have he' := Option.some.inj he
    subst he'
    obtain ⟨tl, htl⟩ := afterDistribute_DELAYED_first o { t := t, trace := [Event.Add] } hb hlt
    rw [htl]
    constructor
    · rfl
    · simp [funcs, Event.func?]

/-- Witness for C6 (amended). -/
theorem delayed_warmup_precedes_split_witness :
    runBeforeFunc (afterDistribute ⟨0, fun _ => 0, fun _ => false⟩
      { t := { balance := Balance.DELAYED, grainSizeMode := GrainSize.AUTO, Current_ := 0,
               End_ := 4, Split_ := { GrainSize := 1 } },
        trace := [Event.Add] }).trace = false :=
  (delayed_warmup_precedes_split ⟨0, fun _ => 0, fun _ => false⟩
    { balance := Balance.DELAYED, grainSizeMode := GrainSize.AUTO, Current_ := 0,
      End_ := 4, Split_ := { GrainSize := 1 } } _ rfl (by decide) (by decide)
    (Task.call_eq _ _ (Or.inl rfl))).1

/-! ## C8: reference counts -/

theorem kids_congr (node node' : Nat → TaskNode) (x : Nat) (k : Nat)
    (h : ∀ m, m < k → (node' m).live = (node m).live ∧ (node' m).Parent = (node m).Parent) :
    kids node' k x = kids node k x := by
  induction k with
  | zero => rfl
  | succ k ih =>
    simp only [kids]
    rw [ih fun m hm => h m (by omega), (h k (by omega)).1, (h k (by omega)).2]

theorem kids_kill (node node' : Nat → TaskNode) (n x : Nat) (k : Nat)
    (hn : (node n).live = true) (hn' : (node' n).live = false)
    (h : ∀ m, m ≠ n → node' m = node m) :
    kids node' k x + (if n < k ∧ (node n).Parent = some x then 1 else 0) = kids node k x := by
  induction k with
  | zero => simp [kids]
  | succ k ih =>
    simp only [kids]
    by_cases hk : k = n
    · subst hk
      have h0 : ¬ (k < k ∧ (node k).Parent = some x) := by omega
      rw [if_neg h0, Nat.add_zero] at ih
      rw [ih, hn, hn']
      by_cases hp : (node k).Parent = some x
      · simp [hp]
      · simp [hp]
    · rw [h k hk]
      have e1 : (if n < k + 1 ∧ (node n).Parent = some x then 1 else 0) =
          (if n < k ∧ (node n).Parent = some x then 1 else 0) := by
        have : (n < k + 1 ∧ (node n).Parent = some x) ↔ (n < k ∧ (node n).Parent = some x) :=
          ⟨fun hc => ⟨by omega, hc.2⟩, fun hc => ⟨by omega, hc.2⟩⟩
        simp only [this]
      rw [e1]
      omega

theorem kids_fresh (node : Nat → TaskNode) (x : Nat) (k : Nat)
    (h : ∀ m p, m < k → (node m).Parent = some p → p < m) (hx : k ≤ x) :
    kids node k x = 0 := by
  induction k with
  | zero => rfl
  | succ k ih =>
    simp only [kids]
    rw [ih (fun m p hm => h m p (by omega)) (by omega)]
    have : ¬ ((node k).live = true ∧ (node k).Parent = some x) := by
      intro hc
      have := h k x (by omega) hc.2
      omega
    rw [if_neg this]

theorem kids_pos (node : Nat → TaskNode) (n x : Nat) (k : Nat) (hn : n < k)
    (hl : (node n).live = true) (hp : (node n).Parent = some x) : 1 ≤ kids node k x := by
  induction k with
  | zero => omega
  | succ k ih =>
    simp only [kids]
    by_cases hk : n = k
    · subst hk
      rw [if_pos ⟨hl, hp⟩]; omega
    · have := ih (by omega)
      omega

theorem destroyNode_self (node : Nat → TaskNode) (n : Nat) :
    destroyNode node n n = { node n with refs := 0, live := false } := by
  simp [destroyNode]

theorem destroyNode_ne (node : Nat → TaskNode) (n m : Nat) (h : m ≠ n) :
    destroyNode node n m = node m := by
  simp [destroyNode, h]

theorem dropRef_self (node : Nat → TaskNode) (n : Nat) :
    dropRef node n n = { node n with refs := (node n).refs - 1 } := by
  simp [dropRef]

theorem dropRef_ne (node : Nat → TaskNode) (n m : Nat) (h : m ≠ n) :
    dropRef node n m = node m := by
  simp [dropRef, h]

theorem Release_dead_none (fuel : Nat) (node : Nat → TaskNode) (n : Nat)
    (h1 : (node n).refs ≤ 1) (hp : (node n).Parent = none) :
    Release (fuel + 1) node n = destroyNode node n := by
  simp only [Release, if_pos h1, hp]

theorem Release_dead_some (fuel : Nat) (node : Nat → TaskNode) (n p : Nat)
    (h1 : (node n).refs ≤ 1) (hp : (node n).Parent = some p) :
    Release (fuel + 1) node n = Release fuel (destroyNode node n) p := by
  simp only [Release, if_pos h1, hp]

theorem Release_alive (fuel : Nat) (node : Nat → TaskNode) (n : Nat)
    (h1 : ¬ (node n).refs ≤ 1) :
    Release (fuel + 1) node n = dropRef node n := by
  simp only [Release, if_neg h1]

theorem Counted_of_same_shape (ext : Nat → Nat) (size : Nat) (node node' : Nat → TaskNode)
    (n : Nat) (hne : ∀ m, m ≠ n → node' m = node m)
    (hpar : (node' n).Parent = (node n).Parent)
    (hb : ∀ m, m < size → (node' m).refs = ext m + kids node' size m)
    (hcn : n < size → ((node' n).live = true ↔ 0 < (node' n).refs))
    (hc : ∀ m, m < size → ((node m).live = true ↔ 0 < (node m).refs))
    (hd : ∀ m p, m < size → (node m).Parent = some p → p < m)
    (hpn : ∀ m, 1 ≤ m → m < size → (node m).Parent ≠ none) :
    Counted ext node' size := by
  refine ⟨hb, ?_, ?_, ?_⟩
  · intro m hm
    by_cases hmn : m = n
    · subst hmn; exact hcn hm
    · rw [hne m hmn]; exact hc m hm
  · intro m p hm hp
    by_cases hmn : m = n
    · subst hmn; rw [hpar] at hp; exact hd m p hm hp
    · rw [hne m hmn] at hp; exact hd m p hm hp
  · intro m h1 hm
    by_cases hmn : m = n
    · subst hmn; rw [hpar]; exact hpn m h1 hm
    · rw [hne m hmn]; exact hpn m h1 hm

theorem Release_counted (ext : Nat → Nat) (size : Nat) (fuel : Nat) :
    ∀ (node : Nat → TaskNode) (n : Nat), n < fuel → n < size →
      (∀ m, m < size → m ≠ n → (node m).refs = ext m + kids node size m) →
      (node n).refs = ext n + kids node size n + 1 →
      (∀ m, m < size → ((node m).live = true ↔ 0 < (node m).refs)) →
      (∀ m p, m < size → (node m).Parent = some p → p < m) →
      (∀ m, 1 ≤ m → m < size → (node m).Parent ≠ none) →
      Counted ext (Release fuel node n) size := by
  induction fuel with
  | zero => intro node n h; omega
  | succ fuel ih =>
    intro node n hf hn hb hbn hc hd hpn
    by_cases h1 : (node n).refs ≤ 1
    · have hlive : (node n).live = true := (hc n hn).2 (by omega)
      have hk := fun x => kids_kill node (destroyNode node n) n x size hlive
        (by rw [destroyNode_self]) (fun m hm => destroyNode_ne node n m hm)
      have hshape : ∀ ext', (∀ m, m < size →
            (destroyNode node n m).refs = ext' m + kids (destroyNode node n) size m) →
          Counted ext' (destroyNode node n) size := fun ext' hb' =>
        Counted_of_same_shape ext' size node (destroyNode node n) n
          (fun m hm => destroyNode_ne node n m hm) (by rw [destroyNode_self]) hb'
          (fun _ => by rw [destroyNode_self]; simp) hc hd hpn
      cases hp : (node n).Parent with
      | none =>
        rw [Release_dead_none fuel node n h1 hp]
        have hk' : ∀ x, kids (destroyNode node n) size x = kids node size x := by
          intro x
          have := hk x
          rw [hp] at this
          simpa using this
        apply hshape
        intro m hm
        rw [hk']
        by_cases hmn : m = n
        · subst hmn
          rw [destroyNode_self]
          show 0 = _
          omega
        · rw [destroyNode_ne node n m hmn]
          exact hb m hm hmn
      | some p =>
        rw [Release_dead_some fuel node n p h1 hp]
        have hpn' : p < n := hd n p hn hp
        have hkp : kids (destroyNode node n) size p + 1 = kids node size p := by
          have := hk p
          rw [if_pos ⟨hn, hp⟩] at this
          exact this
        have hkx : ∀ x, x ≠ p → kids (destroyNode node n) size x = kids node size x := by
          intro x hx
          have := hk x
          have hne : ¬ (n < size ∧ (node n).Parent = some x) := by
            rw [hp]; intro hc'; exact hx (Option.some.inj hc'.2).symm
          rw [if_neg hne, Nat.add_zero] at this
          exact this
        have hpn2 : p ≠ n := by omega
        -- the nodes after the destruction of `n`, seen with one reference too many at `p`
        have hC := Counted_of_same_shape (fun m => if m = p then ext m + 1 else ext m) size node
          (destroyNode node n) n (fun m hm => destroyNode_ne node n m hm)
          (by rw [destroyNode_self])
          (by
            intro m hm
            beta_reduce
            by_cases hmn : m = n
            · subst hmn
              rw [destroyNode_self, hkx m (Ne.symm hpn2), if_neg (Ne.symm hpn2)]
              show 0 = _
              omega
            · rw [destroyNode_ne node n m hmn, hb m hm hmn]
              by_cases hmp : m = p
              · subst hmp
                rw [if_pos rfl]; omega
              · rw [if_neg hmp, hkx m hmp])
          (fun _ => by rw [destroyNode_self]; simp) hc hd hpn
        apply ih (destroyNode node n) p (by omega) (by omega)
        · intro m hm hmp
          have := hC.1 m hm
          simp only [hmp, if_false] at this
          exact this
        · have := hC.1 p (by omega)
          simp only [if_true] at this
          omega
        · exact hC.2.1
        · exact hC.2.2.1
        · exact hC.2.2.2
    · rw [Release_alive fuel node n h1]
      have hk' : ∀ x, kids (dropRef node n) size x = kids node size x := by
        intro x
        apply kids_congr
        intro m _
        by_cases hmn : m = n
        · subst hmn; rw [dropRef_self]; exact ⟨rfl, rfl⟩
        · rw [dropRef_ne node n m hmn]; exact ⟨rfl, rfl⟩
      apply Counted_of_same_shape ext size node (dropRef node n) n
        (fun m hm => dropRef_ne node n m hm) (by rw [dropRef_self]) _ _ hc hd hpn
      · intro m hm
        rw [hk']
        by_cases hmn : m = n
        · subst hmn
          rw [dropRef_self]
          show (node m).refs - 1 = _
          omega
        · rw [dropRef_ne node n m hmn]
          exact hb m hm hmn
      · intro _
        rw [dropRef_self]
        show (node n).live = true ↔ 0 < (node n).refs - 1
        have := hc n hn
        constructor
        · intro _; omega
        · intro _; exact this.2 (by omega)

theorem Counted_congr_ext {ext ext' : Nat → Nat} {node : Nat → TaskNode} {size : Nat}
    (h : ∀ n, ext' n = ext n) (hC : Counted ext node size) : Counted ext' node size := by
  have : ext' = ext := funext h
  rw [this]; exact hC

theorem WfRest_tail {ev : Event} {rest : List Event} (h : WfRest (ev :: rest)) :
    WfRest rest ∧ (ev = Event.Reset → Event.Reset ∉ rest) ∧
      (ev ≠ Event.Reset → ev ≠ Event.Pop → Event.Reset ∈ rest) := by
  rcases h with ⟨pre, hpre, hno⟩ | h | h
  · cases pre with
    | nil =>
      simp only [List.nil_append, List.cons.injEq] at hpre
      obtain ⟨h1, h2⟩ := hpre
      subst h1 h2
      exact ⟨Or.inr (Or.inl rfl), fun _ => by simp, fun h => absurd rfl h⟩
    | cons a pre =>
      simp only [List.cons_append, List.cons.injEq] at hpre
      obtain ⟨h1, h2⟩ := hpre
      subst h1 h2
      have hno' : Event.Reset ∉ pre := fun hc => hno (List.mem_cons_of_mem _ hc)
      have hne : ev ≠ Event.Reset := fun hc => hno (by rw [hc]; exact List.mem_cons_self _ _)
      exact ⟨Or.inl ⟨pre, rfl, hno'⟩, fun hc => absurd hc hne, fun _ _ => by simp⟩
  · simp only [List.cons.injEq] at h
    obtain ⟨h1, h2⟩ := h
    subst h1 h2
    exact ⟨Or.inr (Or.inr rfl), fun hc => by simp at hc, fun _ hc => absurd rfl hc⟩
  · simp at h

theorem WfRest_trace (o : Oracle) (t : Task) (e : Exec) (h : Task.call o t = some e) :
    WfRest e.trace ∧ Event.Reset ∈ e.trace := by
  obtain ⟨mid, hm, hin⟩ := Task.call_shape o t e h
  rw [hm]
  refine ⟨Or.inl ⟨Event.Add :: mid, by simp, ?_⟩, by simp⟩
  intro hc
  rcases List.mem_cons.1 hc with hc | hc
  · simp at hc
  · have := hin _ hc
    simp [Event.inner] at this

theorem Inv_start (s : Sys) (h : s.Inv) (l1 l2 : List (Nat × Task)) (q : Nat × Task)
    (hq : s.queue = l1 ++ q :: l2) (trace : List Event) (hw : WfRest trace)
    (hr : Event.Reset ∈ trace) :
    Sys.Inv { s with queue := l1 ++ l2, running := s.running ++ [⟨q.1, trace⟩] } := by
  obtain ⟨h1, hC, hQ, hR⟩ := h
  refine ⟨h1, Counted_congr_ext ?_ hC, ?_, ?_⟩
  · intro n
    simp only [Sys.ext, hq, List.countP_append, List.countP_cons, List.countP_nil, hr,
      and_true]
    by_cases hn : q.1 = n
    · simp [hn]; omega
    · simp [hn]
  · intro x hx
    apply hQ x
    rw [hq]
    rcases List.mem_append.1 hx with hx | hx
    · exact List.mem_append_left _ hx
    · exact List.mem_append_right _ (List.mem_cons_of_mem _ hx)
  · intro r hr'
    rcases List.mem_append.1 hr' with hr' | hr'
    · exact hR r hr'
    · simp only [List.mem_singleton] at hr'
      subst hr'
      exact ⟨hQ q (by rw [hq]; simp), hw⟩

theorem Inv_quiet (s : Sys) (h : s.Inv) (l1 l2 : List Running) (r : Running)
    (hrun : s.running = l1 ++ r :: l2) (ev : Event) (rest : List Event)
    (hrest : r.rest = ev :: rest) (hev : ev ≠ Event.Reset) :
    Sys.Inv { s with running := l1 ++ l2 ++ [⟨r.node, rest⟩] } := by
  obtain ⟨h1, hC, hQ, hR⟩ := h
  have hr := hR r (by rw [hrun]; simp)
  refine ⟨h1, Counted_congr_ext ?_ hC, hQ, ?_⟩
  · intro n
    have hmem : Event.Reset ∈ r.rest ↔ Event.Reset ∈ rest := by
      rw [hrest]
      constructor
      · intro hc
        rcases List.mem_cons.1 hc with hc | hc
        · exact absurd hc.symm hev
        · exact hc
      · intro hc; exact List.mem_cons_of_mem _ hc
    simp only [Sys.ext, hrun, List.countP_append, List.countP_cons, List.countP_nil, hmem]
    omega
  · intro x hx
    rcases List.mem_append.1 hx with hx | hx
    · apply hR x
      rw [hrun]
      rcases List.mem_append.1 hx with hx | hx
      · exact List.mem_append_left _ hx
      · exact List.mem_append_right _ (List.mem_cons_of_mem _ hx)
    · simp only [List.mem_singleton] at hx
      subst hx
      exact ⟨hr.1, (WfRest_tail (hrest ▸ hr.2)).1⟩

theorem Inv_finished (s : Sys) (h : s.Inv) (l1 l2 : List Running) (r : Running)
    (hrun : s.running = l1 ++ r :: l2) (hrest : r.rest = []) :
    Sys.Inv { s with running := l1 ++ l2 } := by
  obtain ⟨h1, hC, hQ, hR⟩ := h
  refine ⟨h1, Counted_congr_ext ?_ hC, hQ, ?_⟩
  · intro n
    simp only [Sys.ext, hrun, List.countP_append, List.countP_cons, hrest, List.not_mem_nil,
      and_false, decide_False]
    simp
  · intro x hx
    apply hR x
    rw [hrun]
    rcases List.mem_append.1 hx with hx | hx
    · exact List.mem_append_left _ hx
    · exact List.mem_append_right _ (List.mem_cons_of_mem _ hx)

theorem Inv_reset (s : Sys) (h : s.Inv) (l1 l2 : List Running) (r : Running)
    (hrun : s.running = l1 ++ r :: l2) (rest : List Event)
    (hrest : r.rest = Event.Reset :: rest) :
    Sys.Inv { s with
      node := Release s.size s.node r.node
      running := l1 ++ l2 ++ [⟨r.node, rest⟩] } := by
  obtain ⟨h1, hC, hQ, hR⟩ := h
  have hr := hR r (by rw [hrun]; simp)
  have hwt := WfRest_tail (hrest ▸ hr.2)
  have hno : Event.Reset ∉ rest := hwt.2.1 rfl
  have hext : ∀ n, s.ext n = Sys.ext { s with
      node := Release s.size s.node r.node
      running := l1 ++ l2 ++ [⟨r.node, rest⟩] } n + (if n = r.node then 1 else 0) := by
    intro n
    simp only [Sys.ext, hrun, List.countP_append, List.countP_cons, List.countP_nil, hrest,
      hno, List.mem_cons, true_or, and_true, and_false, decide_False]
    by_cases hn : r.node = n
    · simp [hn]; omega
    · have hn' : ¬ n = r.node := fun hc => hn hc.symm
      simp [hn, hn']
  refine ⟨h1, ?_, hQ, ?_⟩
  · apply Release_counted _ s.size s.size s.node r.node hr.1 hr.1
    · intro m hm hmn
      rw [hC.1 m hm, hext m, if_neg hmn, Nat.add_zero]
    · rw [hC.1 _ hr.1, hext r.node, if_pos rfl]
      omega
    · exact hC.2.1
    · exact hC.2.2.1
    · exact hC.2.2.2
  · intro x hx
    rcases List.mem_append.1 hx with hx | hx
    · apply hR x
      rw [hrun]
      rcases List.mem_append.1 hx with hx | hx
      · exact List.mem_append_left _ hx
      · exact List.mem_append_right _ (List.mem_cons_of_mem _ hx)
    · simp only [List.mem_singleton] at hx
      subst hx
      exact ⟨hr.1, hwt.1⟩

theorem Inv_dropRapid (s : Sys) (h : s.Inv) (hr : s.rapid = true) :
    Sys.Inv { s with rapid := false, node := Release s.size s.node 0 } := by
  obtain ⟨h1, hC, hQ, hR⟩ := h
  have hext : ∀ n, s.ext n = Sys.ext { s with
      rapid := false, node := Release s.size s.node 0 } n + (if n = 0 then 1 else 0) := by
    intro n
    simp only [Sys.ext, hr]
    by_cases hn : n = 0
    · simp [hn]; omega
    · simp [hn]
  refine ⟨h1, ?_, hQ, hR⟩
  apply Release_counted _ s.size s.size s.node 0 (by omega) (by omega)
  · intro m hm hmn
    rw [hC.1 m hm, hext m, if_neg hmn, Nat.add_zero]
  · rw [hC.1 0 (by omega), hext 0, if_pos rfl]
    omega
  · exact hC.2.1
  · exact hC.2.2.1
  · exact hC.2.2.2

theorem ext_fresh (s : Sys) (h : s.Inv) (n : Nat) (hn : s.size ≤ n) : s.ext n = 0 := by
  obtain ⟨h1, _, hQ, hR⟩ := h
  have hq : s.queue.countP (fun q => decide (q.1 = n)) = 0 := by
    rw [List.countP_eq_zero]
    intro q hq
    have := hQ q hq
    simp only [decide_eq_true_eq]
    omega
  have hr : s.running.countP (fun r => decide (r.node = n ∧ Event.Reset ∈ r.rest)) = 0 := by
    rw [List.countP_eq_zero]
    intro r hr
    have := (hR r hr).1
    simp only [decide_eq_true_eq, not_and]
    intro hc
    omega
  have h0 : n ≠ 0 := by omega
  simp only [Sys.ext, hq, hr, h0, if_false]

theorem Inv_submit (s : Sys) (h : s.Inv) (l1 l2 : List Running) (r : Running)
    (hrun : s.running = l1 ++ r :: l2) (ev : Event) (rest : List Event)
    (hrest : r.rest = ev :: rest) (hev : ev ≠ Event.Reset) (hev' : ev ≠ Event.Pop)
    (c : Task) :
    Sys.Inv { s.submit r.node c with running := l1 ++ l2 ++ [⟨r.node, rest⟩] } := by
  have hfresh := ext_fresh s h s.size (Nat.le_refl _)
  obtain ⟨h1, hC, hQ, hR⟩ := h
  have hr := hR r (by rw [hrun]; simp)
  have hwt := WfRest_tail (hrest ▸ hr.2)
  have hin : Event.Reset ∈ rest := hwt.2.2 hev hev'
  have hin' : Event.Reset ∈ r.rest := by rw [hrest]; exact List.mem_cons_of_mem _ hin
  -- outside counts: one more for the new node
  have hext : ∀ n, Sys.ext { s.submit r.node c with
      running := l1 ++ l2 ++ [⟨r.node, rest⟩] } n = s.ext n + (if n = s.size then 1 else 0) := by
    intro n
    simp only [Sys.ext, Sys.submit, hrun, List.countP_append, List.countP_cons,
      List.countP_nil, hin, hin', and_true]
    by_cases hn : s.size = n
    · have hn' : n = s.size := hn.symm
      simp [hn']; omega
    · have hn' : ¬ n = s.size := fun hc => hn hc.symm
      simp [hn, hn']; omega
  -- the running task still holds its node, which therefore exists
  have hpos : 1 ≤ s.ext r.node := by
    simp only [Sys.ext, hrun, List.countP_append, List.countP_cons, hin', and_self,
      decide_True, if_true]
    omega
  have hrefs : 0 < (s.node r.node).refs := by
    rw [hC.1 _ hr.1]; omega
  have hnode : ∀ m, m < s.size → m ≠ r.node →
      (Sys.submit s r.node c).node m = s.node m := by
    intro m hm hmn
    have : m ≠ s.size := by omega
    simp [Sys.submit, AddRef, this, hmn]
  have hnode_n : (Sys.submit s r.node c).node r.node =
      { s.node r.node with refs := (s.node r.node).refs + 1 } := by
    have : r.node ≠ s.size := by omega
    simp [Sys.submit, AddRef, this]
  have hnode_new : (Sys.submit s r.node c).node s.size = ⟨some r.node, 1, true⟩ := by
    simp [Sys.submit]
  have hshape : ∀ m, m < s.size →
      ((Sys.submit s r.node c).node m).live = (s.node m).live ∧
      ((Sys.submit s r.node c).node m).Parent = (s.node m).Parent := by
    intro m hm
    by_cases hmn : m = r.node
    · subst hmn; rw [hnode_n]; exact ⟨rfl, rfl⟩
    · rw [hnode m hm hmn]; exact ⟨rfl, rfl⟩
  have hkids : ∀ x, kids (Sys.submit s r.node c).node (s.size + 1) x =
      kids s.node s.size x + (if x = r.node then 1 else 0) := by
    intro x
    simp only [kids]
    rw [kids_congr s.node (Sys.submit s r.node c).node x s.size hshape, hnode_new]
    by_cases hx : x = r.node
    · subst hx; simp
    · have : ¬ r.node = x := fun hc => hx hc.symm
      simp [hx, this]
  refine ⟨Nat.le_succ_of_le h1, ⟨?_, ?_, ?_, ?_⟩, ?_, ?_⟩
  · intro n hn
    show ((Sys.submit s r.node c).node n).refs = _ + kids (Sys.submit s r.node c).node
      (s.size + 1) n
    rw [hext n, hkids n]
    by_cases hns : n = s.size
    · subst hns
      rw [hnode_new, hfresh, kids_fresh s.node s.size s.size hC.2.2.1 (Nat.le_refl _)]
      have : ¬ s.size = r.node := by omega
      simp [this]
    · have hn' : n < s.size := by
        have : n < s.size + 1 := hn
        omega
      by_cases hnr : n = r.node
      · subst hnr
        rw [hnode_n, if_neg hns, if_pos rfl]
        show (s.node r.node).refs + 1 = _
        rw [hC.1 _ hr.1]; omega
      · rw [hnode n hn' hnr, if_neg hns, if_neg hnr, hC.1 n hn']
        omega
  · intro n hn
    show ((Sys.submit s r.node c).node n).live = true ↔
      0 < ((Sys.submit s r.node c).node n).refs
    by_cases hns : n = s.size
    · subst hns
      rw [hnode_new]; simp
    · have hn' : n < s.size := by
        have : n < s.size + 1 := hn
        omega
      by_cases hnr : n = r.node
      · subst hnr
        rw [hnode_n]
        show (s.node r.node).live = true ↔ 0 < (s.node r.node).refs + 1
        have := hC.2.1 _ hr.1
        constructor
        · intro _; omega
        · intro _; exact this.2 hrefs
      · rw [hnode n hn' hnr]; exact hC.2.1 n hn'
  · intro n p hn hp
    by_cases hns : n = s.size
    · subst hns
      rw [hnode_new] at hp
      have := Option.some.inj hp
      omega
    · have hn' : n < s.size := by
        have : n < s.size + 1 := hn
        omega
      rw [(hshape n hn').2] at hp
      exact hC.2.2.1 n p hn' hp
  · intro n h1n hn
    by_cases hns : n = s.size
    · subst hns
      rw [hnode_new]; simp
    · have hn' : n < s.size := by
        have : n < s.size + 1 := hn
        omega
      rw [(hshape n hn').2]
      exact hC.2.2.2 n h1n hn'
  · intro q hq
    show q.1 < s.size + 1
    have hq' : q ∈ s.queue ++ [(s.size, c)] := hq
    rcases List.mem_append.1 hq' with hq' | hq'
    · have := hQ q hq'; omega
    · simp only [List.mem_singleton] at hq'
      subst hq'; exact Nat.lt_succ_self _
  · intro x hx
    show x.node < s.size + 1 ∧ WfRest x.rest
    have hx' : x ∈ l1 ++ l2 ++ [⟨r.node, rest⟩] := hx
    rcases List.mem_append.1 hx' with hx' | hx'
    · have := hR x (by
        rw [hrun]
        rcases List.mem_append.1 hx' with hx' | hx'
        · exact List.mem_append_left _ hx'
        · exact List.mem_append_right _ (List.mem_cons_of_mem _ hx'))
      exact ⟨by omega, this.2⟩
    · simp only [List.mem_singleton] at hx'
      subst hx'
      exact ⟨by show r.node < s.size + 1; omega, hwt.1⟩

theorem Sys.Inv_step (s : Sys) (st : Step) (h : s.Inv) : (s.step st).Inv := by
  unfold Sys.step
  split
  · exact h
  · cases st with
    | start i o =>
      simp only
      cases hq : s.queue.get? i with
      | none => exact h
      | some q =>
        simp only
        cases he : Task.call o q.2 with
        | none => exact h
        | some e =>
          simp only
          have hi : i < s.queue.length := by
            rcases Nat.lt_or_ge i s.queue.length with hlt | hge
            · exact hlt
            · rw [List.get?_eq_none.2 hge] at hq; exact Option.noConfusion hq
          obtain ⟨l1, u, l2, h1, h2, h3⟩ := pick_split s.queue i hi
          rw [hq] at h2
          have hu := Option.some.inj h2
          subst hu
          rw [h3]
          have hw := WfRest_trace o q.2 e he
          exact Inv_start s h l1 l2 q h1 e.trace hw.1 hw.2
    | advance j =>
      simp only
      cases hr : s.running.get? j with
      | none => exact h
      | some r =>
        simp only
        have hj : j < s.running.length := by
          rcases Nat.lt_or_ge j s.running.length with hlt | hge
          · exact hlt
          · rw [List.get?_eq_none.2 hge] at hr; exact Option.noConfusion hr
        obtain ⟨l1, u, l2, h1, h2, h3⟩ := pick_split s.running j hj
        rw [hr] at h2
        have hu := Option.some.inj h2
        subst hu
        rw [h3]
        cases hrest : r.rest with
        | nil => exact Inv_finished s h l1 l2 r h1 hrest
        | cons ev rest =>
          simp only
          cases ev with
          | Add => exact Inv_quiet s h l1 l2 r h1 _ rest hrest (by simp)
          | Pop => exact Inv_quiet s h l1 l2 r h1 _ rest hrest (by simp)
          | Func i => exact Inv_quiet s h l1 l2 r h1 _ rest hrest (by simp)
          | run c => exact Inv_submit s h l1 l2 r h1 _ rest hrest (by simp) (by simp) c
          | run_on_thread c hint =>
            exact Inv_submit s h l1 l2 r h1 _ rest hrest (by simp) (by simp) c
          | Reset => exact Inv_reset s h l1 l2 r h1 rest hrest
    | dropRapid =>
      simp only
      split
      · rename_i hr
        exact Inv_dropRapid s h hr
      · exact h
    | leave =>
      simp only
      split
      · exact h
      · exact h

theorem Sys.Inv_run (steps : List Step) : ∀ s : Sys, s.Inv → (s.run steps).Inv := by
  induction steps with
  | nil => intro s h; exact h
  | cons st steps ih =>
    intro s h
    exact ih _ (Sys.Inv_step s st h)

theorem Sys.Inv_init (st : ParallelForStart) : (Sys.init st).Inv := by
  refine ⟨Nat.le_refl 1, ⟨?_, ?_, ?_, ?_⟩, ?_, ?_⟩
  · intro n hn
    have hn0 : n = 0 := by
      have : n < 1 := hn
      omega
    subst hn0
    cases ht : st.task with
    | none => simp [Sys.init, Sys.ext, kids, ht]
    | some t => simp [Sys.init, Sys.ext, kids, ht]; omega
  · intro n hn
    have hn0 : n = 0 := by
      have : n < 1 := hn
      omega
    subst hn0
    simp [Sys.init]
  · intro n p hn hp
    have hn0 : n = 0 := by
      have : n < 1 := hn
      omega
    subst hn0
    simp [Sys.init] at hp
  · intro n h1 hn
    have : n < 1 := hn
    omega
  · intro q hq
    cases ht : st.task with
    | none => simp [Sys.init, ht] at hq
    | some t =>
      simp [Sys.init, ht] at hq
      subst hq
      exact Nat.lt_succ_self 0
  · intro r hr
    simp [Sys.init] at hr

theorem Sys.quiescent (s : Sys) (h : s.Inv) (h1 : (s.node 0).refs = 1) :
    (∀ n, 1 ≤ n → n < s.size → (s.node n).live = false) ∧
    s.queue = [] ∧ (∀ r ∈ s.running, Event.Reset ∉ r.rest) ∧ s.rapid = false := by
  obtain ⟨hsz, hC, hQ, hR⟩ := h
  have h0 := hC.1 0 (by omega)
  rw [h1] at h0
  have hk0 : kids s.node s.size 0 = 0 := by
    simp only [Sys.ext, if_true] at h0
    omega
  have hdead : ∀ n, 1 ≤ n → n < s.size → (s.node n).live = false := by
    intro n
    induction n using Nat.strong_induction_on with
    | _ n ih =>
      intro hn1 hn
      by_contra hlive
      have hl : (s.node n).live = true := by
        cases hb : (s.node n).live with
        | true => rfl
        | false => exact absurd hb hlive
      cases hp : (s.node n).Parent with
      | none => exact hC.2.2.2 n hn1 hn hp
      | some p =>
        have hpn := hC.2.2.1 n p hn hp
        have hkp := kids_pos s.node n p s.size hn hl hp
        by_cases hp0 : p = 0
        · subst hp0; omega
        · have hpl := ih p hpn (by omega) (by omega)
          have hrp := hC.1 p (by omega)
          have := (hC.2.1 p (by omega)).2 (by omega)
          rw [hpl] at this
          exact Bool.noConfusion this
  have hnolive : ∀ n, 1 ≤ n → n < s.size → 1 ≤ s.ext n → False := by
    intro n hn1 hn hext
    have hr := hC.1 n hn
    have := (hC.2.1 n hn).2 (by omega)
    rw [hdead n hn1 hn] at this
    exact Bool.noConfusion this
  have hsplit : s.rapid = false ∧ s.queue.countP (fun q => decide (q.1 = 0)) = 0 ∧
      s.running.countP (fun r => decide (r.node = 0 ∧ Event.Reset ∈ r.rest)) = 0 := by
    simp only [Sys.ext, if_true] at h0
    cases hr : s.rapid with
    | true => rw [hr] at h0; simp only [if_true] at h0; omega
    | false =>
      rw [hr] at h0
      simp only [Bool.false_eq_true, if_false] at h0
      exact ⟨rfl, by omega, by omega⟩
  refine ⟨hdead, ?_, ?_, hsplit.1⟩
  · cases hq : s.queue with
    | nil => rfl
    | cons q l =>
      exfalso
      have hmem : q ∈ s.queue := by rw [hq]; exact List.mem_cons_self _ _
      have hcnt : ∀ n, q.1 = n → 0 < s.queue.countP (fun q => decide (q.1 = n)) := by
        intro n hn
        rw [List.countP_pos_iff]
        exact ⟨q, hmem, by simp [hn]⟩
      by_cases hq0 : q.1 = 0
      · have := hcnt 0 hq0
        omega
      · apply hnolive q.1 (by omega) (hQ q hmem)
        have := hcnt q.1 rfl
        simp only [Sys.ext]
        omega
  · intro r hr hreset
    have hcnt : ∀ n, r.node = n →
        0 < s.running.countP (fun r => decide (r.node = n ∧ Event.Reset ∈ r.rest)) := by
      intro n hn
      rw [List.countP_pos_iff]
      exact ⟨r, hr, by simp [hn, hreset]⟩
    by_cases hr0 : r.node = 0
    · have := hcnt 0 hr0
      omega
    · apply hnolive r.node (by omega) (hR r hr).1
      have := hcnt r.node rfl
      simp only [Sys.ext]
      omega

theorem Sys.perform_returned (s : Sys) (n : Nat) (ev : Event) :
    (s.perform n ev).returned = s.returned := by
  cases ev <;> rfl

theorem Sys.step_returned (s : Sys) (st : Step) (hrf : s.returned = false)
    (h : (s.step st).returned = true) : ((s.step st).node 0).refs = 1 := by
  have hne : ¬ (s.returned = true) := by rw [hrf]; exact Bool.noConfusion
  unfold Sys.step at h ⊢
  rw [if_neg hne] at h ⊢
  cases st with
  | start i o =>
    exfalso
    simp only at h
    split at h
    · rw [hrf] at h; exact Bool.noConfusion h
    · split at h
      · rw [hrf] at h; exact Bool.noConfusion h
      · simp only at h; rw [hrf] at h; exact Bool.noConfusion h
  | advance j =>
    exfalso
    simp only at h
    split at h
    · rw [hrf] at h; exact Bool.noConfusion h
    · split at h
      · simp only at h; rw [hrf] at h; exact Bool.noConfusion h
      · simp only [Sys.perform_returned] at h; rw [hrf] at h; exact Bool.noConfusion h
  | dropRapid =>
    exfalso
    simp only at h
    split at h
    · simp only at h; rw [hrf] at h; exact Bool.noConfusion h
    · rw [hrf] at h; exact Bool.noConfusion h
  | leave =>
    simp only at h ⊢
    split
    · rename_i h1; exact h1
    · rename_i h1
      rw [if_neg h1] at h
      rw [hrf] at h; exact Bool.noConfusion h

theorem Sys.step_of_returned (s : Sys) (st : Step) (h : s.returned = true) : s.step st = s := by
  unfold Sys.step
  rw [if_pos h]

theorem Sys.run_returned (steps : List Step) :
    ∀ s : Sys, (s.returned = true → (s.node 0).refs = 1) →
      (s.run steps).returned = true → ((s.run steps).node 0).refs = 1 := by
  induction steps with
  | nil => intro s h; exact h
  | cons st steps ih =>
    intro s h
    apply ih (s.step st)
    intro hret
    cases hr : s.returned with
    | true => rw [Sys.step_of_returned s st hr]; exact h hr
    | false => exact Sys.step_returned s st hr hret

/-- C8. Start from what `ParallelFor` sets up (nested path, fallback after a
rejected rapid start, or accepted rapid start) and let the tasks be started,
perform their events one at a time in any interleaving, and release their
nodes, with reference counts kept as counters.  In every state reached:
* as long as a submitted task has not been started, or a running task has not
  yet released its node (`CurrentNode_.Reset()`, its last action before
  `stack.Pop()`), or the `RapidStartTask` object still exists, the count of
  `rootNode` is not 1, so the waiting loop cannot be left;
* `rootNode` is never destroyed;
* once `ParallelFor` has left its waiting loop, the count of `rootNode` is 1,
  every other `TaskNode` created during the call has been destroyed, no task
  is waiting to be started and no running task still holds a node. -/
theorem refcount_protocol (st : ParallelForStart) (steps : List Step) :
    ((((Sys.init st).run steps).queue ≠ [] ∨
        (∃ r ∈ ((Sys.init st).run steps).running, Event.Reset ∈ r.rest) ∨
        ((Sys.init st).run steps).rapid = true) →
      (((Sys.init st).run steps).node 0).refs ≠ 1) ∧
    (((Sys.init st).run steps).node 0).live = true ∧
    (((Sys.init st).run steps).returned = true →
      (((Sys.init st).run steps).node 0).refs = 1 ∧
      (∀ n, 1 ≤ n → n < ((Sys.init st).run steps).size →
        (((Sys.init st).run steps).node n).live = false) ∧
      ((Sys.init st).run steps).queue = [] ∧
      ∀ r ∈ ((Sys.init st).run steps).running, Event.Reset ∉ r.rest) := by
  have hinv := Sys.Inv_run steps _ (Sys.Inv_init st)
  have hret := Sys.run_returned steps (Sys.init st)
    (fun h => by simp [Sys.init] at h)
  generalize (Sys.init st).run steps = s at hinv hret
  refine ⟨?_, ?_, ?_⟩
  · intro hbusy h1
    obtain ⟨_, hq, hr, hrap⟩ := Sys.quiescent s hinv h1
    rcases hbusy with hb | ⟨r, hr1, hr2⟩ | hb
    · exact hb hq
    · exact hr r hr1 hr2
    · rw [hrap] at hb; exact Bool.noConfusion hb
  · obtain ⟨hsz, hC, _, _⟩ := hinv
    apply (hC.2.1 0 (by omega)).2
    rw [hC.1 0 (by omega)]
    simp only [Sys.ext, if_true]
    omega
  · intro h
    have h1 := hret h
    obtain ⟨hd, hq, hr, _⟩ := Sys.quiescent s hinv h1
    exact ⟨h1, hd, hq, hr⟩

/-- Witness for C8: a nested `ParallelFor<SIMPLE, DEFAULT>(0, 2, body, 1)`; the
initial task submits `[1, 2)`, runs index 0 and releases, the submitted task
runs and releases, the waiting loop is left: the count of `rootNode` is 1 and
the one node created is destroyed. -/
theorem refcount_protocol_witness :
    ((Sys.init (ParallelFor Balance.SIMPLE GrainSize.DEFAULT ⟨[7]⟩ false 4 0 2 1)).run
      [Step.start 0 ⟨0, fun _ => 0, fun _ => false⟩, Step.advance 0, Step.advance 0,
        Step.advance 0, Step.advance 0, Step.advance 0, Step.advance 0,
        Step.start 0 ⟨0, fun _ => 0, fun _ => false⟩, Step.advance 0, Step.advance 0,
        Step.advance 0, Step.advance 0, Step.leave]).size = 2 ∧
    (((Sys.init (ParallelFor Balance.SIMPLE GrainSize.DEFAULT ⟨[7]⟩ false 4 0 2 1)).run
      [Step.start 0 ⟨0, fun _ => 0, fun _ => false⟩, Step.advance 0, Step.advance 0,
        Step.advance 0, Step.advance 0, Step.advance 0, Step.advance 0,
        Step.start 0 ⟨0, fun _ => 0, fun _ => false⟩, Step.advance 0, Step.advance 0,
        Step.advance 0, Step.advance 0, Step.leave]).node 0).refs = 1 ∧
    (((Sys.init (ParallelFor Balance.SIMPLE GrainSize.DEFAULT ⟨[7]⟩ false 4 0 2 1)).run
      [Step.start 0 ⟨0, fun _ => 0, fun _ => false⟩, Step.advance 0, Step.advance 0,
        Step.advance 0, Step.advance 0, Step.advance 0, Step.advance 0,
        Step.start 0 ⟨0, fun _ => 0, fun _ => false⟩, Step.advance 0, Step.advance 0,
        Step.advance 0, Step.advance 0, Step.leave]).node 1).live = false := by
  have h := (refcount_protocol (ParallelFor Balance.SIMPLE GrainSize.DEFAULT ⟨[7]⟩ false 4 0 2 1)
    [Step.start 0 ⟨0, fun _ => 0, fun _ => false⟩, Step.advance 0, Step.advance 0,
      Step.advance 0, Step.advance 0, Step.advance 0, Step.advance 0,
      Step.start 0 ⟨0, fun _ => 0, fun _ => false⟩, Step.advance 0, Step.advance 0,
      Step.advance 0, Step.advance 0, Step.leave]).2.2 (by with_unfolding_all decide)
  have hs : ((Sys.init (ParallelFor Balance.SIMPLE GrainSize.DEFAULT ⟨[7]⟩ false 4 0 2 1)).run
      [Step.start 0 ⟨0, fun _ => 0, fun _ => false⟩, Step.advance 0, Step.advance 0,
        Step.advance 0, Step.advance 0, Step.advance 0, Step.advance 0,
        Step.start 0 ⟨0, fun _ => 0, fun _ => false⟩, Step.advance 0, Step.advance 0,
        Step.advance 0, Step.advance 0, Step.leave]).size = 2 := by
    with_unfolding_all decide
  exact ⟨hs, h.1, h.2.1 1 (Nat.le_refl 1) (by rw [hs]; decide)⟩

/-! ## The loops do not run out of fuel -/

theorem splitLoop_fuel (o : Oracle) (f : Nat) :
    ∀ (g : Nat) (e : Exec), f ≤ g → e.t.Current_ < W → e.t.End_ < W →
      sub64 e.t.End_ e.t.Current_ < 2 ^ f → splitLoop o g e = splitLoop o f e := by
  induction f with
  | zero =>
    intro g e _ hc he hs
    have heq : e.t.Current_ = e.t.End_ := by
      simp only [sub64_eq_mod, W] at *; omega
    rw [splitLoop_empty o g e heq, splitLoop_empty o 0 e heq]
  | succ f ih =>
    intro g e hfg hc he hs
    obtain ⟨g', hg'⟩ : ∃ g', g = g' + 1 := ⟨g - 1, by omega⟩
    subst hg'
    simp only [splitLoop]
    split
    · split
      · apply ih g' _ (by omega)
        · simp only [IsDivisible_t]; exact hc
        · exact add64_lt _ _
        · simp only [IsDivisible_t]
          have hpow : 2 ^ (f + 1) = 2 * 2 ^ f := by rw [Nat.pow_succ, Nat.mul_comm]
          have h1 : sub64 (add64 e.t.Current_ (sub64 e.t.End_ e.t.Current_ / 2)) e.t.Current_
              = sub64 e.t.End_ e.t.Current_ / 2 := by
            simp only [sub64_eq_mod, add64, W] at *; omega
          show sub64 (add64 e.t.Current_ (sub64 e.t.End_ e.t.Current_ / 2)) e.t.Current_ < 2 ^ f
          rw [h1]
          omega
      · rfl
    · rfl

/-- The halving loop of `operator()` has stopped by itself within the 64
rounds `balancePhase` allows: more rounds give the same result. -/
theorem splitLoop_64 (o : Oracle) (g : Nat) (e : Exec) (hg : 64 ≤ g)
    (hc : e.t.Current_ < W) (he : e.t.End_ < W) : splitLoop o g e = splitLoop o 64 e :=
  splitLoop_fuel o 64 g e hg hc he (sub64_lt _ _)

/-- The warm-up loop has stopped by itself within the `End_ - Current_` rounds
`delayedPhase` allows: more rounds give the same result. -/
theorem warmupLoop_fuel (o : Oracle) (start : Nat) (f : Nat) :
    ∀ (g : Nat) (e : Exec), f ≤ g → e.t.End_ < W → e.t.End_ - e.t.Current_ ≤ f →
      warmupLoop o start g e = warmupLoop o start f e := by
  induction f with
  | zero =>
    intro g e _ _ hs
    have hge : ¬ e.t.Current_ < e.t.End_ := by omega
    cases g with
    | zero => rfl
    | succ g => simp only [warmupLoop, hge, if_false]
  | succ f ih =>
    intro g e hfg he hs
    obtain ⟨g', hg'⟩ : ∃ g', g = g' + 1 := ⟨g - 1, by omega⟩
    subst hg'
    simp only [warmupLoop]
    split
    · rename_i hlt
      have hcur : (Execute e).t.Current_ = e.t.Current_ + 1 := by
        show add64 e.t.Current_ 1 = _
        exact add64_eq (by simp only [W] at *; omega)
      split
      · rfl
      · apply ih g' _ (by omega)
        · split <;> exact he
        · have : ∀ x : Exec, x.t.Current_ = (Execute e).t.Current_ → x.t.End_ = e.t.End_ →
              x.t.End_ - x.t.Current_ ≤ f := by
            intro x h1 h2
            rw [h1, h2, hcur]; omega
          split
          · exact this _ rfl rfl
          · exact this _ rfl rfl
    · rfl

/-! ## `DistributeWork`: the chunks handed out -/

theorem distributeLoop_one (t : Task) (tr : List Event) (oT oD : Range) :
    distributeLoop t tr oT oD 1 =
      distributeStep t oT.To oD.To 1 (oT.Size / 1) (oT.Size % 1) (oD.Size / 1) (oD.Size % 1)
        ⟨tr, oT.From, oD.From⟩ 0 := by
  simp only [distributeLoop, List.range_succ, List.range_zero, List.nil_append, List.foldl_cons,
    List.foldl_nil]

theorem distributeLoop_two (t : Task) (tr : List Event) (oT oD : Range) :
    distributeLoop t tr oT oD 2 =
      distributeStep t oT.To oD.To 2 (oT.Size / 2) (oT.Size % 2) (oD.Size / 2) (oD.Size % 2)
        (distributeStep t oT.To oD.To 2 (oT.Size / 2) (oT.Size % 2) (oD.Size / 2) (oD.Size % 2)
          ⟨tr, oT.From, oD.From⟩ 0) 1 := by
  simp only [distributeLoop, List.range_succ, List.range_zero, List.nil_append, List.foldl_cons,
    List.foldl_nil, List.singleton_append]

theorem sub64_210 : sub64 (sub64 2 1) 0 = 1 := by with_unfolding_all decide

theorem sub64_211 : sub64 (sub64 2 1) 1 = 0 := by with_unfolding_all decide

theorem range'_glue (x y z : Nat) (h1 : x ≤ y) (h2 : y ≤ z) :
    List.range' x (y - x) ++ List.range' y (z - y) = List.range' x (z - x) := by
  have := List.range'_append x (y - x) (z - y) 1
  rw [show x + 1 * (y - x) = y by omega] at this
  rw [this]
  congr 1
  omega

/-- The thread ranges handed out by the loop of `DistributeWork`. -/
theorem distributeLoop_threads (t : Task) (tr : List Event) (oT oD : Range) (parts : Nat)
    (hW : oT.To < W) (hp1 : 1 ≤ parts) (hp2 : parts ≤ 2) (hpT : parts ≤ oT.To - oT.From) :
    ∃ D, (distributeLoop t tr oT oD parts).trace = tr ++ D ∧ D.length = parts ∧
      (∀ ev ∈ D, ∃ ch, ev = Event.run_on_thread ch ch.Split_.Threads.From ∧
        ch.Split_.GrainSize = t.Split_.GrainSize ∧
        ch.Split_.Threads.From < ch.Split_.Threads.To ∧ ch.Split_.Threads.To < W) ∧
      List.Chain' (fun c d : Task => c.Split_.Threads.To = d.Split_.Threads.From) (submitted D) ∧
      (submitted D).flatMap (fun c => c.Split_.Threads.indices) = oT.indices := by
  have hS : oT.Size = oT.To - oT.From := by
    unfold Range.Size; exact sub64_eq (by omega) hW
  obtain rfl | rfl : parts = 1 ∨ parts = 2 := by omega
  · rw [distributeLoop_one]
    have h1 : min oT.To (add64 (add64 oT.From (oT.Size / 1))
        (if sub64 (sub64 1 1) 0 < oT.Size % 1 then 1 else 0)) = oT.To := by
      rw [hS, Nat.mod_one, Nat.div_one, if_neg (Nat.not_lt_zero _)]
      simp only [add64, W] at *; omega
    simp only [distributeStep, h1]
    refine ⟨[_], rfl, rfl, ?_, ?_, ?_⟩
    · intro ev hev
      rw [List.mem_singleton] at hev
      subst hev
      exact ⟨_, rfl, rfl, by show oT.From < oT.To; omega, hW⟩
    · simp [submitted, Event.child?]
    · simp [submitted, Event.child?, Range.indices]
  · rw [distributeLoop_two]
    have h1 : min oT.To (add64 (add64 oT.From (oT.Size / 2))
        (if sub64 (sub64 2 1) 0 < oT.Size % 2 then 1 else 0)) = oT.From + (oT.To - oT.From) / 2 := by
      rw [hS, sub64_210, if_neg (by omega)]
      simp only [add64, W] at *; omega
    have h2 : min oT.To (add64 (add64 (oT.From + (oT.To - oT.From) / 2) (oT.Size / 2))
        (if sub64 (sub64 2 1) 1 < oT.Size % 2 then 1 else 0)) = oT.To := by
      rw [hS, sub64_211]
      split <;> (simp only [add64, W] at *; omega)
    simp only [distributeStep, h1, h2, List.append_assoc, List.singleton_append]
    refine ⟨[_, _], rfl, rfl, ?_, ?_, ?_⟩
    · intro ev hev
      simp only [List.mem_cons, List.mem_singleton, List.not_mem_nil, or_false] at hev
      rcases hev with rfl | rfl
      · exact ⟨_, rfl, rfl, by show oT.From < oT.From + (oT.To - oT.From) / 2; omega,
          by show oT.From + (oT.To - oT.From) / 2 < W; omega⟩
      · exact ⟨_, rfl, rfl, by show oT.From + (oT.To - oT.From) / 2 < oT.To; omega, hW⟩
    · simp [submitted, Event.child?]
    · simp only [submitted, List.filterMap_cons, Event.child?, List.filterMap_nil,
        List.flatMap_cons, List.flatMap_nil, List.append_nil, Range.indices]
      exact range'_glue _ _ _ (by omega) (by omega)

/-- The data ranges handed out by the loop of `DistributeWork`. -/
theorem distributeLoop_data (t : Task) (tr : List Event) (oT oD : Range) (parts : Nat)
    (hW : oD.To < W) (hp1 : 1 ≤ parts) (hp2 : parts ≤ 2) (hpD : parts ≤ oD.To - oD.From) :
    ∃ D, (distributeLoop t tr oT oD parts).trace = tr ++ D ∧ D.length = parts ∧
      (∀ ev ∈ D, ∃ ch hint, ev = Event.run_on_thread ch hint) ∧
      (∀ c ∈ submitted D, c.Current_ < c.End_ ∧ c.End_ < W) ∧
      List.Chain' (fun c d : Task => c.End_ = d.Current_) (submitted D) ∧
      (submitted D).flatMap (fun c => List.range' c.Current_ (c.End_ - c.Current_)) =
        List.range' oD.From (oD.To - oD.From) ∧
      (∀ c ∈ submitted D, ∀ d ∈ submitted D,
        c.End_ - c.Current_ ≤ d.End_ - d.Current_ + 1) := by
  have hS : oD.Size = oD.To - oD.From := by
    unfold Range.Size; exact sub64_eq (by omega) hW
  obtain rfl | rfl : parts = 1 ∨ parts = 2 := by omega
  · rw [distributeLoop_one]
    have h1 : ∀ j : Nat, min oD.To (add64 (add64 oD.From (oD.Size / 1))
        (if j < oD.Size % 1 then 1 else 0)) = oD.To := by
      intro j
      rw [hS, Nat.mod_one, Nat.div_one, if_neg (Nat.not_lt_zero _)]
      simp only [add64, W] at *; omega
    simp only [distributeStep, h1]
    refine ⟨[_], rfl, rfl, ?_, ?_, ?_, ?_, ?_⟩
    · intro ev hev
      rw [List.mem_singleton] at hev
      exact ⟨_, _, hev⟩
    · intro c hc
      simp only [submitted, List.filterMap_cons, Event.child?, List.filterMap_nil,
        List.mem_singleton] at hc
      subst hc
      exact ⟨by show oD.From < oD.To; omega, hW⟩
    · simp [submitted, Event.child?]
    · simp [submitted, Event.child?]
    · intro c hc d hd
      simp only [submitted, List.filterMap_cons, Event.child?, List.filterMap_nil,
        List.mem_singleton] at hc hd
      subst hc; subst hd
      omega
  · rw [distributeLoop_two]
    obtain ⟨x, hx, hx1⟩ : ∃ x, (if (if oT.Size % 2 = 0 then 0 else sub64 (sub64 2 1) 0)
        < oD.Size % 2 then 1 else 0) = x ∧ x ≤ 1 := ⟨_, rfl, by split <;> split <;> omega⟩
    obtain ⟨y, hy, hxy⟩ : ∃ y, (if (if oT.Size % 2 = 0 then 1 else sub64 (sub64 2 1) 1)
        < oD.Size % 2 then 1 else 0) = y ∧ x + y = (oD.To - oD.From) % 2 := by
      refine ⟨_, rfl, ?_⟩
      rw [← hx, sub64_210, sub64_211, hS]
      split <;> split <;> split <;> omega
    have h1 : min oD.To (add64 (add64 oD.From (oD.Size / 2)) x)
        = oD.From + (oD.To - oD.From) / 2 + x := by
      rw [hS]
      simp only [add64, W] at *; omega
    have h2 : min oD.To (add64 (add64 (oD.From + (oD.To - oD.From) / 2 + x) (oD.Size / 2)) y)
        = oD.To := by
      rw [hS]
      simp only [add64, W] at *; omega
    simp only [distributeStep, hx, hy, h1, h2, List.append_assoc, List.singleton_append]
    refine ⟨[_, _], rfl, rfl, ?_, ?_, ?_, ?_, ?_⟩
    · intro ev hev
      simp only [List.mem_cons, List.mem_singleton, List.not_mem_nil, or_false] at hev
      rcases hev with rfl | rfl
      · exact ⟨_, _, rfl⟩
      · exact ⟨_, _, rfl⟩
    · intro c hc
      simp only [submitted, List.filterMap_cons, Event.child?, List.filterMap_nil,
        List.mem_cons, List.mem_singleton, List.not_mem_nil, or_false] at hc
      rcases hc with rfl | rfl
      · exact ⟨by show oD.From < oD.From + (oD.To - oD.From) / 2 + x; omega,
          by show oD.From + (oD.To - oD.From) / 2 + x < W; omega⟩
      · exact ⟨by show oD.From + (oD.To - oD.From) / 2 + x < oD.To; omega, hW⟩
    · simp [submitted, Event.child?]
    · simp only [submitted, List.filterMap_cons, Event.child?, List.filterMap_nil,
        List.flatMap_cons, List.flatMap_nil, List.append_nil]
      exact range'_glue _ _ _ (by omega) (by omega)
    · intro c hc d hd
      simp only [submitted, List.filterMap_cons, Event.child?, List.filterMap_nil,
        List.mem_cons, List.mem_singleton, List.not_mem_nil, or_false] at hc hd
      rcases hc with rfl | rfl <;> rcases hd with rfl | rfl <;> simp only <;> omega

theorem ceil_div_bounds (n T : Nat) (hT : 1 ≤ T) :
    (n + T - 1) / T ≤ n ∧ n ≤ T * ((n + T - 1) / T) ∧ T * ((n + T - 1) / T) < n + T := by
  have h1 := Nat.div_add_mod (n + T - 1) T
  have h2 := Nat.mod_lt (n + T - 1) (show 0 < T by omega)
  have h3 : (n + T - 1) / T ≤ n := by
    rcases Nat.eq_zero_or_pos n with rfl | hn
    · rw [Nat.div_eq_of_lt (by omega)]
    · apply Nat.div_le_of_le_mul
      have h4 : (T - 1) * 1 ≤ (T - 1) * n := Nat.mul_le_mul_left _ hn
      have h5 : T * n = (T - 1) * n + n := by
        conv_lhs => rw [show T = (T - 1) + 1 by omega]
        rw [Nat.add_mul, Nat.one_mul]
      omega
  generalize (n + T - 1) / T = q at *
  generalize (n + T - 1) % T = r at *
  refine ⟨h3, ?_, ?_⟩ <;> omega

theorem selfShare_le (t : Task) (hT : 1 ≤ t.Split_.Threads.Size) :
    t.selfShare ≤ t.End_ - t.Current_ ∧
      t.End_ - t.Current_ ≤ t.Split_.Threads.Size * t.selfShare ∧
      t.Split_.Threads.Size * t.selfShare < t.End_ - t.Current_ + t.Split_.Threads.Size :=
  ceil_div_bounds _ _ hT

theorem otherData_eq (t : Task) (hle : t.Current_ ≤ t.End_) (hW : t.End_ < W)
    (hT : 1 ≤ t.Split_.Threads.Size)
    (hround : t.End_ - t.Current_ + t.Split_.Threads.Size - 1 < W) :
    t.otherData = ⟨t.Current_ + t.selfShare, t.End_⟩ := by
  have hs := (selfShare_le t hT).1
  have h1 : sub64 t.End_ t.Current_ = t.End_ - t.Current_ := sub64_eq hle hW
  have hTW : t.Split_.Threads.Size < W := sub64_lt _ _
  have h2 : sub64 (add64 (t.End_ - t.Current_) t.Split_.Threads.Size) 1
      = t.End_ - t.Current_ + t.Split_.Threads.Size - 1 := by
    generalize t.Split_.Threads.Size = T at *
    simp only [sub64_eq_mod, add64, W] at *; omega
  unfold Task.otherData
  rw [h1, h2]
  show (⟨add64 t.Current_ t.selfShare, t.End_⟩ : Range) = _
  rw [add64_eq (by simp only [W] at *; omega)]

theorem otherThreads_Size (t : Task) (hT : 1 ≤ t.Split_.Threads.Size) :
    t.otherThreads.Size = t.Split_.Threads.Size - 1 := by
  unfold Task.otherThreads Range.Size at *
  simp only [sub64_eq_mod, add64, W] at *
  omega

theorem DistributeWork_distributes (o : Oracle) (e : Exec)
    (hT1 : e.t.Split_.Threads.Size ≠ 1) (hT0 : e.t.Split_.Threads.Size ≠ 0)
    (hdiv : add64 e.t.Current_ e.t.Split_.GrainSize < e.t.End_)
    (hhalf : o.is_stack_half_full e.stackChecks = false)
    (htest : add64 e.t.otherData.From e.t.Split_.GrainSize < e.t.otherData.To)
    (hp : e.t.parts ≠ 0) :
    ∃ e1, DistributeWork o e = some e1 ∧ e1.t = { e.t with End_ := e.t.otherData.From } ∧
      e1.trace = (distributeLoop e.t e.trace e.t.otherThreads e.t.otherData e.t.parts).trace := by
  unfold DistributeWork
  rw [if_pos hT1]
  have hd : IsDivisible o e = (true, { e with stackChecks := e.stackChecks + 1 }) := by
    unfold IsDivisible
    rw [if_pos hdiv, hhalf]; rfl
  simp only [hd, if_true]
  unfold distribute
  rw [if_neg hT0, if_pos htest, if_neg hp]
  exact ⟨_, rfl, rfl, rfl⟩

theorem DistributeWork_unchanged (o : Oracle) (e : Exec)
    (h : e.t.Split_.Threads.Size = 1 ∨ ¬ add64 e.t.Current_ e.t.Split_.GrainSize < e.t.End_ ∨
      o.is_stack_half_full e.stackChecks = true ∨
      (e.t.Split_.Threads.Size ≠ 0 ∧
        ¬ add64 e.t.otherData.From e.t.Split_.GrainSize < e.t.otherData.To)) :
    ∃ e1, DistributeWork o e = some e1 ∧ e1.t = e.t ∧ e1.trace = e.trace := by
  unfold DistributeWork
  by_cases hT1 : e.t.Split_.Threads.Size = 1
  · rw [if_neg (not_not.2 hT1)]
    exact ⟨_, rfl, rfl, rfl⟩
  · rw [if_pos hT1]
    by_cases hd : (IsDivisible o e).1 = true
    · simp only [hd, if_true]
      have hdiv : add64 e.t.Current_ e.t.Split_.GrainSize < e.t.End_ := by
        by_contra hc
        unfold IsDivisible at hd
        rw [if_neg hc] at hd
        exact Bool.noConfusion hd
      have hhalf : o.is_stack_half_full e.stackChecks = false := by
        unfold IsDivisible at hd
        rw [if_pos hdiv] at hd
        simpa using hd
      rcases h with h | h | h | ⟨h0, h⟩
      · exact absurd h hT1
      · exact absurd hdiv h
      · rw [hhalf] at h; exact Bool.noConfusion h
      · unfold distribute
        rw [IsDivisible_t, if_neg h0, if_neg h]
        exact ⟨_, rfl, IsDivisible_t o e, IsDivisible_trace o e⟩
    · simp only [hd]
      exact ⟨_, rfl, IsDivisible_t o e, IsDivisible_trace o e⟩

/-! ## C11: the data handed out by `DistributeWork` -/

/-- C11, amended. Let the task have `Current_ ≤ End_`, a thread range of size
`T ≥ 1` and grain at least 1, and let none of the sums the source forms wrap
around: `(End_ - Current_) + T - 1` and `Current_ + ⌈(End_ - Current_) / T⌉ +
GrainSize` stay below `2^64`.  Then `DistributeWork` returns, `Current_` is
unchanged, and
* if it distributes (`T ≥ 2`, divisible, more than grain indices beyond the own
  share), the task keeps exactly the first `s = ⌈(End_ - Current_) / T⌉` indices
  (`T * (s - 1) < End_ - Current_ ≤ T * s`), and submits exactly
  `min (min K_SPLIT (T - 1)) (End_ - Current_ - s)` tasks, all by
  `run_on_thread`, whose data ranges are non-empty, each ending where the next
  begins, listing together exactly the indices from `Current_ + s` up to `End_`,
  any two of them differing in size by at most one;
* otherwise the task is unchanged and nothing is submitted. -/
theorem distribute_work_data_partition (o : Oracle) (e : Exec)
    (hle : e.t.Current_ ≤ e.t.End_) (hW : e.t.End_ < W)
    (hT : 1 ≤ e.t.Split_.Threads.Size) (hg : 1 ≤ e.t.Split_.GrainSize)
    (hround : e.t.End_ - e.t.Current_ + e.t.Split_.Threads.Size - 1 < W)
    (hgrain : e.t.Current_ + e.t.selfShare + e.t.Split_.GrainSize < W) :
    ∃ e1 D, DistributeWork o e = some e1 ∧ e1.trace = e.trace ++ D ∧
      e1.t.Current_ = e.t.Current_ ∧
      (Distributes o e →
        e1.t.End_ = e.t.Current_ + e.t.selfShare ∧
        e.t.End_ - e.t.Current_ ≤ e.t.Split_.Threads.Size * e.t.selfShare ∧
        e.t.Split_.Threads.Size * e.t.selfShare <
          e.t.End_ - e.t.Current_ + e.t.Split_.Threads.Size ∧
        D.length = min (min K_SPLIT (e.t.Split_.Threads.Size - 1))
          (e.t.End_ - e.t.Current_ - e.t.selfShare) ∧
        (∀ ev ∈ D, ∃ ch hint, ev = Event.run_on_thread ch hint) ∧
        (∀ c ∈ submitted D, c.Current_ < c.End_) ∧
        List.Chain' (fun c d : Task => c.End_ = d.Current_) (submitted D) ∧
        (submitted D).flatMap (fun c => List.range' c.Current_ (c.End_ - c.Current_)) =
          List.range' (e.t.Current_ + e.t.selfShare)
            (e.t.End_ - (e.t.Current_ + e.t.selfShare)) ∧
        (∀ c ∈ submitted D, ∀ d ∈ submitted D,
          c.End_ - c.Current_ ≤ d.End_ - d.Current_ + 1)) ∧
      (¬ Distributes o e → e1.t = e.t ∧ D = []) := by
  have hs := selfShare_le e.t hT
  have hoD := otherData_eq e.t hle hW hT hround
  have hoT := otherThreads_Size e.t hT
  have h1 : add64 e.t.Current_ e.t.Split_.GrainSize = e.t.Current_ + e.t.Split_.GrainSize :=
    add64_eq (by omega)
  have h2 : add64 e.t.otherData.From e.t.Split_.GrainSize
      = e.t.Current_ + e.t.selfShare + e.t.Split_.GrainSize := by
    rw [hoD]; exact add64_eq hgrain
  have hoDS : e.t.otherData.Size = e.t.End_ - e.t.Current_ - e.t.selfShare := by
    rw [hoD]; unfold Range.Size
    rw [sub64_eq (by show e.t.Current_ + e.t.selfShare ≤ e.t.End_; omega) hW]
    show e.t.End_ - (e.t.Current_ + e.t.selfShare) = _
    omega
  by_cases hd : Distributes o e
  · obtain ⟨hd1, hd2, hd3, hd4⟩ := hd
    have hparts : e.t.parts = min (min K_SPLIT (e.t.Split_.Threads.Size - 1))
        (e.t.End_ - e.t.Current_ - e.t.selfShare) := by
      unfold Task.parts; rw [hoT, hoDS]
    have hK : K_SPLIT = 2 := rfl
    obtain ⟨e1, he1, het, hetr⟩ := DistributeWork_distributes o e (by omega) (by omega)
      (by rw [h1]; omega) hd3
      (by rw [h2, hoD]; show _ < e.t.End_; omega)
      (by rw [hparts, hK]; omega)
    obtain ⟨D, hD, hlen, hev, hne, hchain, hcover, hbal⟩ :=
      distributeLoop_data e.t e.trace e.t.otherThreads e.t.otherData e.t.parts
        (by rw [hoD]; exact hW) (by rw [hparts, hK]; omega) (by rw [hparts, hK]; omega)
        (by rw [hparts, hoD, hK]; show _ ≤ e.t.End_ - (e.t.Current_ + e.t.selfShare); omega)
    refine ⟨e1, D, he1, by rw [hetr, hD], by rw [het], fun _ => ?_, fun hn => ?_⟩
    · refine ⟨by rw [het, hoD], hs.2.1, hs.2.2, by rw [hlen, hparts], hev,
        fun c hc => (hne c hc).1, hchain, ?_, hbal⟩
      rw [hcover, hoD]
    · exact absurd ⟨hd1, hd2, hd3, hd4⟩ hn
  · obtain ⟨e1, he1, het, hetr⟩ := DistributeWork_unchanged o e (by
      by_cases hT1 : e.t.Split_.Threads.Size = 1
      · exact Or.inl hT1
      · by_cases h3 : add64 e.t.Current_ e.t.Split_.GrainSize < e.t.End_
        · by_cases h4 : o.is_stack_half_full e.stackChecks = true
          · exact Or.inr (Or.inr (Or.inl h4))
          · refine Or.inr (Or.inr (Or.inr ⟨by omega, ?_⟩))
            intro h5
            apply hd
            rw [h1] at h3
            rw [h2, hoD] at h5
            have h5 : e.t.Current_ + e.t.selfShare + e.t.Split_.GrainSize < e.t.End_ := h5
            exact ⟨by omega, by omega, by simpa using h4, by omega⟩
        · exact Or.inr (Or.inl h3))
    refine ⟨e1, [], he1, by rw [hetr, List.append_nil], by rw [het], fun h => absurd h hd,
      fun _ => ⟨het, rfl⟩⟩

theorem distribute_work_data_partition_witness :
    ∃ e1 D, DistributeWork ⟨0, fun _ => 0, fun _ => false⟩
        { t := { balance := Balance.SIMPLE, grainSizeMode := GrainSize.DEFAULT,
                 initial := Initial.TRUE, Current_ := 0, End_ := 10,
                 Split_ := { Threads := ⟨0, 4⟩, GrainSize := 1 } } } = some e1 ∧
      e1.trace = [] ++ D ∧ e1.t.Current_ = 0 ∧ e1.t.End_ = 3 ∧ D.length = 2 ∧
      (submitted D).flatMap (fun c => List.range' c.Current_ (c.End_ - c.Current_)) =
        [3, 4, 5, 6, 7, 8, 9] := by
  obtain ⟨e1, D, h1, h2, h3, h4, _⟩ :=
    distribute_work_data_partition ⟨0, fun _ => 0, fun _ => false⟩
      { t := { balance := Balance.SIMPLE, grainSizeMode := GrainSize.DEFAULT,
               initial := Initial.TRUE, Current_ := 0, End_ := 10,
               Split_ := { Threads := ⟨0, 4⟩, GrainSize := 1 } } }
      (by decide) (by decide) (by with_unfolding_all decide) (by decide)
      (by with_unfolding_all decide) (by with_unfolding_all decide)
  obtain ⟨h5, _, _, h6, _, _, _, h7, _⟩ := h4 (by with_unfolding_all decide)
  refine ⟨e1, D, h1, h2, h3, ?_, ?_, ?_⟩
  · rw [h5]; with_unfolding_all decide
  · rw [h6]; with_unfolding_all decide
  · rw [h7]; with_unfolding_all decide

/-- Counterexample to C11: the claim fails where a `size_t` sum of
`DistributeWork` wraps around.
* Task `[0, 2^64 - 1)`, threads `[0, 2)`, grain 1, stack not half full: all the
  conditions of the claim hold and the own share is
  `⌈(2^64 - 1) / 2⌉ = 2^63`, but `End_ - Current_ + 2 - 1` is `0` in `size_t`,
  so the task keeps no index at all (`End_ = 0`) and the one submitted task
  gets the whole range `[0, 2^64 - 1)`.
* Task `[5, 10)`, threads `[0, 2)`, grain `2^64 - 5`: the remaining 5 indices do
  not exceed the grain, yet `5 + grain` and `8 + grain` wrap around to `0` and
  `3`, both tests pass, the task's range shrinks to `[5, 8)` and `[8, 10)` is
  submitted. -/
theorem distribute_work_wraps :
    (Distributes ⟨0, fun _ => 0, fun _ => false⟩
        { t := { balance := Balance.SIMPLE, grainSizeMode := GrainSize.DEFAULT,
                 initial := Initial.TRUE, Current_ := 0, End_ := W - 1,
                 Split_ := { Threads := ⟨0, 2⟩, GrainSize := 1 } } } ∧
      Task.selfShare { balance := Balance.SIMPLE, grainSizeMode := GrainSize.DEFAULT,
                       initial := Initial.TRUE, Current_ := 0, End_ := W - 1,
                       Split_ := { Threads := ⟨0, 2⟩, GrainSize := 1 } } = 2 ^ 63 ∧
      ∃ e1, DistributeWork ⟨0, fun _ => 0, fun _ => false⟩
        { t := { balance := Balance.SIMPLE, grainSizeMode := GrainSize.DEFAULT,
                 initial := Initial.TRUE, Current_ := 0, End_ := W - 1,
                 Split_ := { Threads := ⟨0, 2⟩, GrainSize := 1 } } } = some e1 ∧
        e1.t.Current_ = 0 ∧ e1.t.End_ = 0 ∧
        (submitted e1.trace).map (fun c => (c.Current_, c.End_)) = [(0, W - 1)]) ∧
    (¬ Distributes ⟨0, fun _ => 0, fun _ => false⟩
        { t := { balance := Balance.SIMPLE, grainSizeMode := GrainSize.DEFAULT,
                 initial := Initial.TRUE, Current_ := 5, End_ := 10,
                 Split_ := { Threads := ⟨0, 2⟩, GrainSize := W - 5 } } } ∧
      ∃ e1, DistributeWork ⟨0, fun _ => 0, fun _ => false⟩
        { t := { balance := Balance.SIMPLE, grainSizeMode := GrainSize.DEFAULT,
                 initial := Initial.TRUE, Current_ := 5, End_ := 10,
                 Split_ := { Threads := ⟨0, 2⟩, GrainSize := W - 5 } } } = some e1 ∧
        e1.t.Current_ = 5 ∧ e1.t.End_ = 8 ∧
        (submitted e1.trace).map (fun c => (c.Current_, c.End_)) = [(8, 10)]) := by
  refine ⟨⟨by with_unfolding_all decide, by with_unfolding_all decide, ?_⟩,
    by with_unfolding_all decide, ?_⟩
  · obtain ⟨e1, h1, h2, h3⟩ := DistributeWork_distributes ⟨0, fun _ => 0, fun _ => false⟩
      { t := { balance := Balance.SIMPLE, grainSizeMode := GrainSize.DEFAULT,
               initial := Initial.TRUE, Current_ := 0, End_ := W - 1,
               Split_ := { Threads := ⟨0, 2⟩, GrainSize := 1 } } }
      (by with_unfolding_all decide) (by with_unfolding_all decide)
      (by with_unfolding_all decide) rfl (by with_unfolding_all decide)
      (by with_unfolding_all decide)
    refine ⟨e1, h1, by rw [h2], by rw [h2]; with_unfolding_all decide, ?_⟩
    rw [h3, show Task.parts _ = 1 by with_unfolding_all decide, distributeLoop_one]
    simp only [distributeStep, submitted, List.nil_append, List.filterMap_cons, Event.child?,
      List.filterMap_nil, List.map_cons, List.map_nil, List.cons.injEq, Prod.mk.injEq, and_true]
    constructor <;> with_unfolding_all decide
  · obtain ⟨e1, h1, h2, h3⟩ := DistributeWork_distributes ⟨0, fun _ => 0, fun _ => false⟩
      { t := { balance := Balance.SIMPLE, grainSizeMode := GrainSize.DEFAULT,
               initial := Initial.TRUE, Current_ := 5, End_ := 10,
               Split_ := { Threads := ⟨0, 2⟩, GrainSize := W - 5 } } }
      (by with_unfolding_all decide) (by with_unfolding_all decide)
      (by with_unfolding_all decide) rfl (by with_unfolding_all decide)
      (by with_unfolding_all decide)
    refine ⟨e1, h1, by rw [h2], by rw [h2]; with_unfolding_all decide, ?_⟩
    rw [h3, show Task.parts _ = 1 by with_unfolding_all decide, distributeLoop_one]
    simp only [distributeStep, submitted, List.nil_append, List.filterMap_cons, Event.child?,
      List.filterMap_nil, List.map_cons, List.map_nil, List.cons.injEq, Prod.mk.injEq, and_true]
    constructor <;> with_unfolding_all decide

/-! ## C12: the threads handed out by `DistributeWork` -/

theorem distribute_cases (e e1 : Exec) (h : distribute e = some e1) :
    (e1 = e) ∨
      (e.t.Split_.Threads.Size ≠ 0 ∧ e.t.parts ≠ 0 ∧
        e1.t = { e.t with End_ := e.t.otherData.From } ∧
        e1.trace = (distributeLoop e.t e.trace e.t.otherThreads e.t.otherData e.t.parts).trace) := by
  unfold distribute at h
  split at h
  · exact Option.noConfusion h
  · rename_i hT
    split at h
    · split at h
      · exact Option.noConfusion h
      · rename_i hp
        have h' := Option.some.inj h
        subst h'
        exact Or.inr ⟨hT, hp, rfl, rfl⟩
    · exact Or.inl (Option.some.inj h).symm

theorem DistributeWork_cases (o : Oracle) (e e1 : Exec) (h : DistributeWork o e = some e1) :
    (e1.t = e.t ∧ e1.trace = e.trace) ∨
      (e.t.Split_.Threads.Size ≠ 0 ∧ e.t.Split_.Threads.Size ≠ 1 ∧ e.t.parts ≠ 0 ∧
        e1.t = { e.t with End_ := e.t.otherData.From } ∧
        e1.trace = (distributeLoop e.t e.trace e.t.otherThreads e.t.otherData e.t.parts).trace) := by
  unfold DistributeWork at h
  split at h
  · rename_i hT1
    simp only at h
    split at h
    · rcases distribute_cases _ _ h with h' | ⟨h0, hp, ht, htr⟩
      · subst h'
        exact Or.inl ⟨IsDivisible_t o e, IsDivisible_trace o e⟩
      · rw [IsDivisible_t] at h0 hp ht
        rw [IsDivisible_t, IsDivisible_trace] at htr
        exact Or.inr ⟨h0, hT1, hp, ht, htr⟩
    · have h' := Option.some.inj h
      subst h'
      exact Or.inl ⟨IsDivisible_t o e, IsDivisible_trace o e⟩
  · have h' := Option.some.inj h
    subst h'
    exact Or.inl ⟨rfl, rfl⟩

/-- C12. Let the task have the thread range `[a, b)` with `b - a ≥ 2`.  Whenever
`DistributeWork` distributes, that is, returns having submitted something,
every submission is a `run_on_thread` pinned to the first index of the
submitted task's own thread range, the submitted task carries the parent's
grain size, its thread range is non-empty, each thread range ends where the
next begins, and together the thread ranges list exactly the worker indices
`a + 1, …, b - 1`. -/
theorem distribute_work_threads_partition (o : Oracle) (e e1 : Exec) (a b : Nat)
    (hth : e.t.Split_.Threads = ⟨a, b⟩) (hb : b < W) (h2 : 2 ≤ b - a)
    (h : DistributeWork o e = some e1) (hne : e1.trace ≠ e.trace) :
    ∃ D, e1.trace = e.trace ++ D ∧ D ≠ [] ∧
      (∀ ev ∈ D, ∃ ch, ev = Event.run_on_thread ch ch.Split_.Threads.From ∧
        ch.Split_.GrainSize = e.t.Split_.GrainSize ∧
        ch.Split_.Threads.From < ch.Split_.Threads.To) ∧
      List.Chain' (fun c d : Task => c.Split_.Threads.To = d.Split_.Threads.From)
        (submitted D) ∧
      (submitted D).flatMap (fun c => c.Split_.Threads.indices) =
        List.range' (a + 1) (b - (a + 1)) := by
  rcases DistributeWork_cases o e e1 h with ⟨_, htr⟩ | ⟨_, _, hp, _, htr⟩
  · exact absurd htr hne
  · have hoT : e.t.otherThreads = ⟨a + 1, b⟩ := by
      unfold Task.otherThreads
      rw [hth]
      show (⟨add64 a 1, b⟩ : Range) = _
      rw [add64_eq (by omega)]
    have hK : K_SPLIT = 2 := rfl
    have hoTS : e.t.otherThreads.Size = b - (a + 1) := by
      rw [hoT]; unfold Range.Size
      exact sub64_eq (by show a + 1 ≤ b; omega) hb
    have hparts : e.t.parts = min (min K_SPLIT (b - (a + 1))) e.t.otherData.Size := by
      unfold Task.parts; rw [hoTS]
    obtain ⟨D, hD, hlen, hev, hchain, hcover⟩ :=
      distributeLoop_threads e.t e.trace e.t.otherThreads e.t.otherData e.t.parts
        (by rw [hoT]; exact hb) (by omega) (by rw [hparts, hK]; omega)
        (by rw [hparts, hoT, hK]; show _ ≤ b - (a + 1); omega)
    refine ⟨D, by rw [htr, hD], ?_, ?_, hchain, ?_⟩
    · intro hnil
      rw [hnil] at hlen
      exact hp hlen.symm
    · intro ev hev'
      obtain ⟨ch, h1, h2, h3, _⟩ := hev ev hev'
      exact ⟨ch, h1, h2, h3⟩
    · rw [hcover, hoT]; rfl

theorem distribute_work_threads_partition_witness :
    ∃ e1 D, DistributeWork ⟨0, fun _ => 0, fun _ => false⟩
        { t := { balance := Balance.DELAYED, grainSizeMode := GrainSize.AUTO,
                 initial := Initial.TRUE, Current_ := 0, End_ := 100,
                 Split_ := { Threads := ⟨2, 8⟩, GrainSize := 3 } } } = some e1 ∧
      e1.trace = [] ++ D ∧ D ≠ [] ∧
      (∀ ev ∈ D, ∃ ch, ev = Event.run_on_thread ch ch.Split_.Threads.From ∧
        ch.Split_.GrainSize = 3 ∧ ch.Split_.Threads.From < ch.Split_.Threads.To) ∧
      List.Chain' (fun c d : Task => c.Split_.Threads.To = d.Split_.Threads.From)
        (submitted D) ∧
      (submitted D).flatMap (fun c => c.Split_.Threads.indices) =
        List.range' (2 + 1) (8 - (2 + 1)) := by
  obtain ⟨e1, h1, _, h3⟩ := DistributeWork_distributes ⟨0, fun _ => 0, fun _ => false⟩
    { t := { balance := Balance.DELAYED, grainSizeMode := GrainSize.AUTO,
             initial := Initial.TRUE, Current_ := 0, End_ := 100,
             Split_ := { Threads := ⟨2, 8⟩, GrainSize := 3 } } }
    (by with_unfolding_all decide) (by with_unfolding_all decide)
    (by with_unfolding_all decide) rfl (by with_unfolding_all decide)
    (by with_unfolding_all decide)
  obtain ⟨D, hD⟩ := distribute_work_threads_partition _ _ e1 2 8 rfl (by decide) (by decide) h1
    (by rw [h3]; with_unfolding_all decide)
  exact ⟨e1, D, h1, hD⟩

/-! ## C13: the halving loop -/

theorem IsDivisible_true (o : Oracle) (e : Exec) (h : (IsDivisible o e).1 = true) :
    add64 e.t.Current_ e.t.Split_.GrainSize < e.t.End_ ∧
      o.is_stack_half_full e.stackChecks = false ∧
      (IsDivisible o e).2.stackChecks = e.stackChecks + 1 := by
  unfold IsDivisible at h ⊢
  split
  · rename_i hlt
    rw [if_pos hlt] at h
    exact ⟨hlt, by simpa using h, rfl⟩
  · rename_i hlt
    rw [if_neg hlt] at h
    exact Bool.noConfusion h

theorem IsDivisible_false (o : Oracle) (e : Exec) (h : ¬ (IsDivisible o e).1 = true) :
    (¬ add64 e.t.Current_ e.t.Split_.GrainSize < e.t.End_ ∧
        (IsDivisible o e).2.stackChecks = e.stackChecks) ∨
      (o.is_stack_half_full e.stackChecks = true ∧
        (IsDivisible o e).2.stackChecks = e.stackChecks + 1) := by
  unfold IsDivisible at h ⊢
  split
  · rename_i hlt
    rw [if_pos hlt] at h
    exact Or.inr ⟨by simpa using h, rfl⟩
  · rename_i hlt
    exact Or.inl ⟨hlt, rfl⟩

theorem splitLoop_round (o : Oracle) (f : Nat) (e : Exec) (hne : e.t.Current_ ≠ e.t.End_)
    (hd : (IsDivisible o e).1 = true) :
    ∃ e2, splitLoop o (f + 1) e = splitLoop o f e2 ∧ e2.t.Current_ = e.t.Current_ ∧
      e2.t.End_ = add64 e.t.Current_ (sub64 e.t.End_ e.t.Current_ / 2) ∧
      e2.t.Split_ = e.t.Split_ ∧
      e2.trace = e.trace ++ [Event.run
        { balance := Balance.SIMPLE
          grainSizeMode := GrainSize.DEFAULT
          Current_ := add64 e.t.Current_ (sub64 e.t.End_ e.t.Current_ / 2)
          End_ := e.t.End_
          Split_ := { GrainSize := e.t.Split_.GrainSize, Depth := add64 e.t.Split_.Depth 1 } }] ∧
      e2.stackChecks = e.stackChecks + 1 := by
  simp only [splitLoop]
  rw [if_pos hne]
  simp only [hd, if_true]
  refine ⟨_, rfl, ?_, ?_, ?_, ?_, (IsDivisible_true o e hd).2.2⟩
  · simp only [IsDivisible_t]
  · simp only [IsDivisible_t]
  · simp only [IsDivisible_t]
  · simp only [IsDivisible_t, IsDivisible_trace]

theorem splitLoop_stop (o : Oracle) (f : Nat) (e : Exec)
    (h : e.t.Current_ = e.t.End_ ∨ ¬ (IsDivisible o e).1 = true) :
    (splitLoop o (f + 1) e).t = e.t ∧ (splitLoop o (f + 1) e).trace = e.trace ∧
      (splitLoop o (f + 1) e).stackChecks =
        if e.t.Current_ = e.t.End_ then e.stackChecks else (IsDivisible o e).2.stackChecks := by
  simp only [splitLoop]
  by_cases hne : e.t.Current_ = e.t.End_
  · rw [if_neg (not_not.2 hne), if_pos hne]
    exact ⟨rfl, rfl, rfl⟩
  · rw [if_pos hne, if_neg hne]
    rcases h with h | h
    · exact absurd h hne
    · simp only [h]
      exact ⟨IsDivisible_t o e, IsDivisible_trace o e, rfl⟩

theorem splitLoop_spec (o : Oracle) (f : Nat) :
    ∀ e : Exec, e.t.Current_ ≤ e.t.End_ → e.t.End_ < W →
      e.t.Current_ + e.t.Split_.GrainSize < W → 1 ≤ e.t.Split_.GrainSize →
      e.t.End_ - e.t.Current_ < 2 ^ f →
      ∃ cs : List Task,
        (splitLoop o f e).trace = e.trace ++ cs.map Event.run ∧
        (splitLoop o f e).t.Current_ = e.t.Current_ ∧
        (cs ≠ [] → e.t.Split_.GrainSize * 2 ^ (cs.length - 1) < e.t.End_ - e.t.Current_) ∧
        (∀ c ∈ cs, c.Current_ = e.t.Current_ + (c.End_ - e.t.Current_) / 2 ∧
          c.Current_ < c.End_ ∧ e.t.Current_ < c.End_) ∧
        cs.map (fun c => c.End_) ++ [(splitLoop o f e).t.End_] =
          e.t.End_ :: cs.map (fun c => c.Current_) ∧
        e.stackChecks ≤ (splitLoop o f e).stackChecks ∧
        ((splitLoop o f e).t.End_ - e.t.Current_ ≤ e.t.Split_.GrainSize ∨
          (e.stackChecks < (splitLoop o f e).stackChecks ∧
            o.is_stack_half_full ((splitLoop o f e).stackChecks - 1) = true)) := by
  induction f with
  | zero =>
    intro e hle _ _ _ hn
    refine ⟨[], by simp [splitLoop], rfl, fun h => absurd rfl h, by simp, by simp [splitLoop],
      Nat.le_refl _, Or.inl ?_⟩
    show e.t.End_ - e.t.Current_ ≤ _
    omega
  | succ f ih =>
    intro e hle hW hgW hg hn
    by_cases hstop : e.t.Current_ = e.t.End_ ∨ ¬ (IsDivisible o e).1 = true
    · obtain ⟨h1, h2, h3⟩ := splitLoop_stop o f e hstop
      refine ⟨[], by rw [h2]; simp, by rw [h1], fun h => absurd rfl h, by simp, by rw [h1]; simp,
        ?_, ?_⟩
      · rw [h3]
        split
        · exact Nat.le_refl _
        · rename_i hne
          rcases hstop with hs | hs
          · exact absurd hs hne
          · rcases IsDivisible_false o e hs with ⟨_, h5⟩ | ⟨_, h5⟩ <;> omega
      · rw [h1, h3]
        by_cases hne : e.t.Current_ = e.t.End_
        · left; omega
        · rw [if_neg hne]
          rcases hstop with hs | hs
          · exact absurd hs hne
          · rcases IsDivisible_false o e hs with ⟨h4, _⟩ | ⟨h4, h5⟩
            · left
              rw [add64_eq hgW] at h4
              omega
            · right
              rw [h5]
              exact ⟨by omega, by simpa using h4⟩
    · have hne : e.t.Current_ ≠ e.t.End_ := fun h => hstop (Or.inl h)
      have hd : (IsDivisible o e).1 = true := by
        by_contra h; exact hstop (Or.inr h)
      obtain ⟨e2, he2, hc2, hE2, hS2, htr2, hsc2⟩ := splitLoop_round o f e hne hd
      have hdiv := (IsDivisible_true o e hd).1
      rw [add64_eq hgW] at hdiv
      have hs : sub64 e.t.End_ e.t.Current_ = e.t.End_ - e.t.Current_ := sub64_eq hle hW
      have hm : add64 e.t.Current_ ((e.t.End_ - e.t.Current_) / 2)
          = e.t.Current_ + (e.t.End_ - e.t.Current_) / 2 := add64_eq (by omega)
      rw [hs, hm] at hE2 htr2
      have hpow : 2 ^ (f + 1) = 2 * 2 ^ f := by rw [Nat.pow_succ, Nat.mul_comm]
      obtain ⟨cs, ih1, ih2, ih3, ih4, ih5, ih6, ih7⟩ := ih e2 (by rw [hc2, hE2]; omega)
        (by rw [hE2]; omega) (by rw [hc2, hS2]; exact hgW) (by rw [hS2]; exact hg)
        (by rw [hc2, hE2]; omega)
      rw [hc2, hS2] at ih3 ih7
      rw [hc2] at ih2 ih4
      rw [hE2] at ih3 ih5
      rw [hsc2] at ih6 ih7
      rw [he2]
      refine ⟨(⟨Balance.SIMPLE, GrainSize.DEFAULT, Initial.FALSE,
          e.t.Current_ + (e.t.End_ - e.t.Current_) / 2, e.t.End_,
          ⟨⟨0, 0⟩, e.t.Split_.GrainSize, add64 e.t.Split_.Depth 1⟩⟩ : Task) :: cs,
        by rw [ih1, htr2]; simp, ih2, fun _ => ?_, ?_, ?_, by omega, ?_⟩
      · simp only [List.length_cons, Nat.add_sub_cancel]
        by_cases hcs : cs = []
        · subst hcs
          simp only [List.length_nil, Nat.pow_zero, Nat.mul_one]
          omega
        · have h3 := ih3 hcs
          have hlen : 0 < cs.length := List.length_pos.2 hcs
          have hl : cs.length = (cs.length - 1) + 1 := by omega
          rw [hl, Nat.pow_succ, ← Nat.mul_assoc]
          generalize e.t.Split_.GrainSize * 2 ^ (cs.length - 1) = x at *
          omega
      · intro c hc
        rcases List.mem_cons.1 hc with rfl | hc
        · refine ⟨?_, ?_, ?_⟩
          · show e.t.Current_ + (e.t.End_ - e.t.Current_) / 2
              = e.t.Current_ + (e.t.End_ - e.t.Current_) / 2
            rfl
          · show e.t.Current_ + (e.t.End_ - e.t.Current_) / 2 < e.t.End_
            omega
          · show e.t.Current_ < e.t.End_
            omega
        · exact ih4 c hc
      · simp only [List.map_cons, List.cons_append, ih5]
      · rcases ih7 with h | ⟨h, h'⟩
        · exact Or.inl h
        · exact Or.inr ⟨by omega, h'⟩

theorem le_ceil_logb (k n g : Nat) (hg : 1 ≤ g) (hgn : g < n)
    (h : k ≠ 0 → g * 2 ^ (k - 1) < n) :
    (k : ℤ) ≤ ⌈Real.logb 2 ((n : ℝ) / (g : ℝ))⌉ := by
  have hg0 : (0 : ℝ) < g := by exact_mod_cast hg
  have hq : (1 : ℝ) ≤ (n : ℝ) / g := by
    rw [le_div_iff₀ hg0, one_mul]
    exact_mod_cast Nat.le_of_lt hgn
  rcases Nat.eq_zero_or_pos k with rfl | hk
  · exact_mod_cast Int.ceil_nonneg (Real.logb_nonneg one_lt_two hq)
  · have h1 := h (by omega)
    have h2 : ((k - 1 : ℕ) : ℝ) < Real.logb 2 ((n : ℝ) / g) := by
      rw [Real.lt_logb_iff_rpow_lt one_lt_two (by linarith), Real.rpow_natCast,
        lt_div_iff₀ hg0, mul_comm]
      exact_mod_cast h1
    have h3 : ((k - 1 : ℕ) : ℤ) < ⌈Real.logb 2 ((n : ℝ) / g)⌉ := by
      rw [Int.lt_ceil]
      exact_mod_cast h2
    have h4 : ((k - 1 : ℕ) : ℤ) = (k : ℤ) - 1 := by omega
    omega

/-- C13, amended. Let a range task with balance mode other than `OFF`, grain at
least 1 and `Current_ ≤ End_` reach the halving loop, and let `Current_ +
GrainSize` stay below `2^64`.  For every sequence of stack-half-full answers
the loop stops by itself (more rounds than the 64 allowed change nothing)
having done nothing but submit subtasks `cs` by `run`, and
* `cs` is empty when `End_ - Current_ ≤ GrainSize`, and otherwise its length
  `k` satisfies `GrainSize * 2^(k - 1) < End_ - Current_`, which is
  `k ≤ ⌈log₂ ((End_ - Current_) / GrainSize)⌉`;
* each subtask is the non-empty upper half `[Current_ + ⌊(E - Current_) / 2⌋, E)`
  of the range `[Current_, E)` remaining when it is submitted: the first `E` is
  `End_`, each later one is the lower bound of the subtask before, and the
  lower bound of the last subtask is the task's final `End_`;
* when the loop stops, either at most `GrainSize` indices remain or the last
  stack check answered half full. -/
theorem halving_loop_bound (o : Oracle) (e : Exec) (hbal : e.t.balance ≠ Balance.OFF)
    (hg : 1 ≤ e.t.Split_.GrainSize) (hle : e.t.Current_ ≤ e.t.End_) (hW : e.t.End_ < W)
    (hgW : e.t.Current_ + e.t.Split_.GrainSize < W) :
    ∃ cs : List Task,
      (balancePhase o e).trace = e.trace ++ cs.map Event.run ∧
      (∀ g, 64 ≤ g → splitLoop o g e = balancePhase o e) ∧
      (balancePhase o e).t.Current_ = e.t.Current_ ∧
      (e.t.End_ - e.t.Current_ ≤ e.t.Split_.GrainSize → cs = []) ∧
      (cs ≠ [] → e.t.Split_.GrainSize * 2 ^ (cs.length - 1) < e.t.End_ - e.t.Current_) ∧
      (e.t.Split_.GrainSize < e.t.End_ - e.t.Current_ →
        (cs.length : ℤ) ≤ ⌈Real.logb 2
          (((e.t.End_ - e.t.Current_ : ℕ) : ℝ) / ((e.t.Split_.GrainSize : ℕ) : ℝ))⌉) ∧
      (∀ c ∈ cs, c.Current_ = e.t.Current_ + (c.End_ - e.t.Current_) / 2 ∧
        c.Current_ < c.End_) ∧
      cs.map (fun c => c.End_) ++ [(balancePhase o e).t.End_] =
        e.t.End_ :: cs.map (fun c => c.Current_) ∧
      ((balancePhase o e).t.End_ - e.t.Current_ ≤ e.t.Split_.GrainSize ∨
        (e.stackChecks < (balancePhase o e).stackChecks ∧
          o.is_stack_half_full ((balancePhase o e).stackChecks - 1) = true)) := by
  have hb : balancePhase o e = splitLoop o 64 e := by
    unfold balancePhase; rw [if_pos hbal]
  have hc : e.t.Current_ < W := by omega
  obtain ⟨cs, h1, h2, h3, h4, h5, _, h7⟩ := splitLoop_spec o 64 e hle hW hgW hg
    (by have : W = 2 ^ 64 := by norm_num
        omega)
  rw [← hb] at h1 h2 h5 h7
  have h3' : cs.length ≠ 0 → e.t.Split_.GrainSize * 2 ^ (cs.length - 1)
      < e.t.End_ - e.t.Current_ := fun h => h3 (fun hn => h (by rw [hn]; rfl))
  refine ⟨cs, h1, fun g hg64 => ?_, h2, fun hsmall => ?_, h3, fun hbig => ?_,
    fun c hc' => ⟨(h4 c hc').1, (h4 c hc').2.1⟩, h5, h7⟩
  · rw [hb]; exact splitLoop_64 o g e hg64 hc hW
  · by_contra hne
    have := h3 hne
    have hpos : 1 ≤ 2 ^ (cs.length - 1) := Nat.one_le_two_pow
    have : e.t.Split_.GrainSize * 1 ≤ e.t.Split_.GrainSize * 2 ^ (cs.length - 1) :=
      Nat.mul_le_mul_left _ hpos
    omega
  · exact le_ceil_logb _ _ _ hg hbig h3'

theorem halving_loop_bound_witness :
    ∃ cs : List Task,
      (balancePhase ⟨0, fun _ => 0, fun _ => false⟩
        { t := { balance := Balance.SIMPLE, grainSizeMode := GrainSize.DEFAULT, Current_ := 0,
                 End_ := 20, Split_ := { GrainSize := 3 } } }).trace
          = [] ++ cs.map Event.run ∧
      ((20 - 0 : ℕ) ≤ 3 → cs = []) ∧ (cs ≠ [] → 3 * 2 ^ (cs.length - 1) < 20 - 0) := by
  obtain ⟨cs, h1, _, _, h4, h5, _⟩ := halving_loop_bound ⟨0, fun _ => 0, fun _ => false⟩
    { t := { balance := Balance.SIMPLE, grainSizeMode := GrainSize.DEFAULT, Current_ := 0,
             End_ := 20, Split_ := { GrainSize := 3 } } }
    (by decide) (by decide) (by decide) (by decide) (by decide)
  exact ⟨cs, h1, h4, h5⟩

/-- Counterexample to C13, where `Current_ + GrainSize` wraps around: the task
`[5, 6)` with grain `2^64 - 1` has `End_ - Current_ = 1 ≤ GrainSize`, but
`5 + GrainSize` is `4 < 6` in `size_t`, so with the stack not half full the
loop submits the subtask `[5, 6)` and leaves the task the empty range
`[5, 5)`. -/
theorem halving_loop_wraps :
    (submitted (balancePhase ⟨0, fun _ => 0, fun _ => false⟩
        { t := { balance := Balance.SIMPLE, grainSizeMode := GrainSize.DEFAULT, Current_ := 5,
                 End_ := 6, Split_ := { GrainSize := W - 1 } } }).trace).map
          (fun c => (c.Current_, c.End_)) = [(5, 6)] ∧
      (balancePhase ⟨0, fun _ => 0, fun _ => false⟩
        { t := { balance := Balance.SIMPLE, grainSizeMode := GrainSize.DEFAULT, Current_ := 5,
                 End_ := 6, Split_ := { GrainSize := W - 1 } } }).t.End_ = 5 ∧
      (6 - 5 : ℕ) ≤ W - 1 := by
  refine ⟨?_, ?_, ?_⟩ <;> with_unfolding_all decide

/-! ## C14: sizes of the thread ranges -/

theorem Late_append {base : List Event} {e e' : Exec} {l : List Event} (h : Late base e)
    (htr : e'.trace = e.trace ++ l) (hl : ∀ ev ∈ l, ev.late = true) : Late base e' := by
  obtain ⟨tl, h1, h2⟩ := h
  refine ⟨tl ++ l, by rw [htr, h1, List.append_assoc], ?_⟩
  intro ev hev
  rcases List.mem_append.1 hev with h | h
  · exact h2 ev h
  · exact hl ev h

theorem Late_congr {base : List Event} {e e' : Exec} (h : Late base e)
    (htr : e'.trace = e.trace) : Late base e' := by
  unfold Late at *; rw [htr]; exact h

theorem Late_Execute {base : List Event} {e : Exec} (h : Late base e) :
    Late base (Execute e) :=
  Late_append h rfl (by intro ev hev; simp at hev; subst hev; rfl)

theorem Late_warmupLoop (o : Oracle) (start : Nat) (base : List Event) (fuel : Nat) :
    ∀ e : Exec, Late base e → Late base (warmupLoop o start fuel e) := by
  induction fuel with
  | zero => intro e h; exact h
  | succ n ih =>
    intro e h
    simp only [warmupLoop]
    split
    · split
      · exact Late_congr (Late_Execute h) rfl
      · apply ih
        split
        · exact Late_congr (Late_Execute h) rfl
        · exact Late_congr (Late_Execute h) rfl
    · exact h

theorem Late_splitLoop (o : Oracle) (base : List Event) (fuel : Nat) :
    ∀ e : Exec, Late base e → Late base (splitLoop o fuel e) := by
  induction fuel with
  | zero => intro e h; exact h
  | succ n ih =>
    intro e h
    simp only [splitLoop]
    split
    · split
      · apply ih
        refine Late_append (Late_congr h (IsDivisible_trace o e)) rfl ?_
        intro ev hev
        simp only [List.mem_singleton] at hev
        subst hev
        simp [Event.late]
      · exact Late_congr h (IsDivisible_trace o e)
    · exact h

theorem Late_drainLoop (base : List Event) (fuel : Nat) :
    ∀ e : Exec, Late base e → Late base (drainLoop fuel e) := by
  induction fuel with
  | zero => intro e h; exact h
  | succ n ih =>
    intro e h
    simp only [drainLoop]
    split
    · exact ih _ (Late_Execute h)
    · exact h

theorem Late_afterDistribute (o : Oracle) (base : List Event) (e : Exec) (h : Late base e) :
    Late base (afterDistribute o e) := by
  have h1 : Late base (delayedPhase o e) := by
    unfold delayedPhase
    split
    · exact Late_warmupLoop o _ base _ _ (Late_congr h rfl)
    · exact h
  have h2 : Late base (balancePhase o (delayedPhase o e)) := by
    unfold balancePhase
    split
    · exact Late_splitLoop o base _ _ h1
    · exact h1
  have h3 : Late base (drainPhase (balancePhase o (delayedPhase o e))) :=
    Late_drainLoop base _ _ h2
  refine Late_append h3 rfl ?_
  intro ev hev
  simp only [List.mem_cons, List.mem_singleton, List.not_mem_nil, or_false] at hev
  rcases hev with rfl | rfl <;> rfl

/-- The trace of `operator()` is `Add`, then the `run_on_thread`s of
`DistributeWork`, then late events. -/
theorem Task.call_late (o : Oracle) (u : Task) (e : Exec) (h : Task.call o u = some e) :
    ∃ e0, (if u.initial = Initial.TRUE then DistributeWork o { t := u, trace := [Event.Add] }
        else some { t := u, trace := [Event.Add] }) = some e0 ∧ Late e0.trace e := by
  unfold Task.call at h
  simp only at h
  rcases hd : (if u.initial = Initial.TRUE then DistributeWork o { t := u, trace := [Event.Add] }
    else some { t := u, trace := [Event.Add] }) with _ | e0
  · rw [hd] at h; exact Option.noConfusion h
  · rw [hd] at h
    have h' := Option.some.inj h
    subst h'
    exact ⟨e0, rfl, Late_afterDistribute o _ e0 ⟨[], by simp, by simp⟩⟩

theorem Range.Size_pos (r : Range) (h1 : r.From < r.To) (h2 : r.To < W) : 1 ≤ r.Size := by
  unfold Range.Size
  rw [sub64_eq (Nat.le_of_lt h1) h2]
  omega

theorem Task.call_run_children (o : Oracle) (u : Task) (e : Exec)
    (h : Task.call o u = some e) (ch : Task) (hch : Event.run ch ∈ e.trace) :
    ch.initial = Initial.FALSE ∧ ch.Split_.Threads = ⟨0, 0⟩ := by
  obtain ⟨e0, h0, tl, htl, hlate⟩ := Task.call_late o u e h
  have hbase : Event.run ch ∉ e0.trace := by
    split at h0
    · obtain ⟨D, hD, hev, _⟩ := DistributeWork_trace o _ e0 h0
      rw [hD]
      intro hmem
      rcases List.mem_append.1 hmem with hm | hm
      · simp at hm
      · obtain ⟨c, hint, hc⟩ := hev _ hm
        exact Event.noConfusion hc
    · have h' := Option.some.inj h0
      subst h'
      simp
  rw [htl] at hch
  rcases List.mem_append.1 hch with hm | hm
  · exact absurd hm hbase
  · have := hlate _ hm
    simpa [Event.late] using this

theorem Task.call_pinned_children (o : Oracle) (u : Task) (e : Exec)
    (hle : u.Split_.Threads.From ≤ u.Split_.Threads.To) (hW : u.Split_.Threads.To < W)
    (h : Task.call o u = some e) (ch : Task) (hint : Nat)
    (hch : Event.run_on_thread ch hint ∈ e.trace) :
    ch.Split_.Threads.From < ch.Split_.Threads.To ∧ ch.Split_.Threads.To < W := by
  obtain ⟨e0, h0, tl, htl, hlate⟩ := Task.call_late o u e h
  rw [htl] at hch
  rcases List.mem_append.1 hch with hm | hm
  · split at h0
    · rcases DistributeWork_cases o _ e0 h0 with ⟨_, htr⟩ | ⟨hT0, hT1, hp, _, htr⟩
      · rw [htr] at hm
        simp at hm
      · have hT0' : u.Split_.Threads.Size ≠ 0 := hT0
        have hp' : u.parts ≠ 0 := hp
        have hlt : u.Split_.Threads.From < u.Split_.Threads.To := by
          rcases Nat.lt_or_ge u.Split_.Threads.From u.Split_.Threads.To with h1 | h1
          · exact h1
          · exfalso
            apply hT0'
            have : u.Split_.Threads.From = u.Split_.Threads.To := by omega
            unfold Range.Size
            rw [this, sub64_self]
        have hoT : u.otherThreads = ⟨u.Split_.Threads.From + 1, u.Split_.Threads.To⟩ := by
          unfold Task.otherThreads
          rw [add64_eq (by omega)]
        have hK : K_SPLIT = 2 := rfl
        have hoTS : u.otherThreads.Size = u.Split_.Threads.To - (u.Split_.Threads.From + 1) := by
          rw [hoT]; unfold Range.Size
          exact sub64_eq (by show u.Split_.Threads.From + 1 ≤ u.Split_.Threads.To; omega) hW
        have hparts : u.parts = min (min K_SPLIT
            (u.Split_.Threads.To - (u.Split_.Threads.From + 1))) u.otherData.Size := by
          unfold Task.parts; rw [hoTS]
        obtain ⟨D, hD, _, hev, _⟩ :=
          distributeLoop_threads u [Event.Add] u.otherThreads u.otherData u.parts
            (by rw [hoT]; exact hW) (by omega) (by rw [hparts, hK]; omega)
            (by rw [hparts, hoT, hK]
                show _ ≤ u.Split_.Threads.To - (u.Split_.Threads.From + 1)
                omega)
        have htr' : e0.trace = [Event.Add] ++ D := by rw [htr]; exact hD
        rw [htr'] at hm
        rcases List.mem_append.1 hm with hm | hm
        · simp at hm
        · obtain ⟨c, hc, _, h3, h4⟩ := hev _ hm
          injection hc with hc1 hc2
          subst hc1
          exact ⟨h3, h4⟩
    · have h' := Option.some.inj h0
      subst h'
      simp at hm
  · have := hlate _ hm
    simp [Event.late] at this

theorem ParallelFor_task_threads (balance : Balance) (grainSizeMode : GrainSize)
    (stack : TaskStack) (rejected : Bool) (GetNumThreads from_ to_ : Nat) (grainSize : Int)
    (t : Task)
    (ht : (ParallelFor balance grainSizeMode stack rejected GetNumThreads from_ to_
      grainSize).task = some t) :
    t.Split_.Threads = ⟨0, 1⟩ ∨ t.Split_.Threads = ⟨0, GetNumThreads⟩ := by
  unfold ParallelFor at ht
  by_cases hs : stack.IsEmpty = true
  · cases rejected with
    | true =>
      simp only [hs, if_true] at ht
      injection ht with ht
      subst ht
      exact Or.inl rfl
    | false => simp [hs] at ht
  · simp only [hs] at ht
    injection ht with ht
    subst ht
    exact Or.inr rfl

theorem Pool.halved_step (t : Task) (ht : NoDistribute t) (c : Choice) (p : Pool)
    (h : ∀ u ∈ p.pending, u = t ∨ (u.initial = Initial.FALSE ∧ u.Split_.Threads = ⟨0, 0⟩)) :
    ∃ p', Pool.step c p = some p' ∧
      ∀ u ∈ p'.pending, u = t ∨ (u.initial = Initial.FALSE ∧ u.Split_.Threads = ⟨0, 0⟩) := by
  rcases Pool.step_cases c p with ⟨_, h2⟩ | ⟨l1, u, l2, h1, h2⟩
  · exact ⟨p, h2, h⟩
  · have hu := h u (by rw [h1]; simp)
    have hnd : NoDistribute u := by
      rcases hu with rfl | ⟨hi, _⟩
      · exact ht
      · exact Or.inl hi
    have hcall := Task.call_eq c.o u hnd
    rw [hcall] at h2
    refine ⟨_, h2, ?_⟩
    intro v hv
    simp only [List.mem_append] at hv
    rcases hv with (hv | hv) | hv
    · exact h v (by rw [h1]; simp [hv])
    · exact h v (by rw [h1]; simp [hv])
    · right
      have hmem : Event.run v ∈ (afterDistribute c.o { t := u, trace := [Event.Add] }).trace ∨
          ∃ hint, Event.run_on_thread v hint ∈
            (afterDistribute c.o { t := u, trace := [Event.Add] }).trace := by
        simp only [submitted, List.mem_filterMap] at hv
        obtain ⟨ev, hev, hc⟩ := hv
        cases ev with
        | run ch =>
          simp only [Event.child?, Option.some.injEq] at hc
          subst hc; exact Or.inl hev
        | run_on_thread ch hint =>
          simp only [Event.child?, Option.some.injEq] at hc
          subst hc; exact Or.inr ⟨hint, hev⟩
        | Add => simp [Event.child?] at hc
        | Pop => simp [Event.child?] at hc
        | Func i => simp [Event.child?] at hc
        | Reset => simp [Event.child?] at hc
      have hlate := Late_afterDistribute c.o [Event.Add] { t := u, trace := [Event.Add] }
        ⟨[], by simp, by simp⟩
      obtain ⟨tl, htl, hl⟩ := hlate
      rcases hmem with hm | ⟨hint, hm⟩
      · exact Task.call_run_children c.o u _ hcall v hm
      · rw [htl] at hm
        rcases List.mem_append.1 hm with hm | hm
        · simp at hm
        · have := hl _ hm
          simp [Event.late] at this

theorem Pool.halved_run (t : Task) (ht : NoDistribute t) (cs : List Choice) :
    ∀ p : Pool,
      (∀ u ∈ p.pending, u = t ∨ (u.initial = Initial.FALSE ∧ u.Split_.Threads = ⟨0, 0⟩)) →
      ∃ p', Pool.run cs p = some p' ∧
        ∀ u ∈ p'.pending, u = t ∨ (u.initial = Initial.FALSE ∧ u.Split_.Threads = ⟨0, 0⟩) := by
  induction cs with
  | nil => intro p h; exact ⟨p, rfl, h⟩
  | cons c cs ih =>
    intro p h
    obtain ⟨p1, h1, hs1⟩ := Pool.halved_step t ht c p h
    obtain ⟨p2, h2, hs2⟩ := ih p1 hs1
    exact ⟨p2, by simp [Pool.run, h1, h2], hs2⟩

/-- C14, amended. In a `ParallelFor` started with at least one worker
(`1 ≤ GetNumThreads`), let `t` be the range task the caller runs.
* `t` has a thread range of size at least 1.
* Whatever tasks are run in whatever order, the pool never divides by zero and
  every task waiting in it is `t` or was submitted by the halving loop: it is
  not an initial task and its thread range is the value-initialised `{0, 0}`, of
  size 0.
* For every range task whose thread range `[a, b)` has `a ≤ b < 2^64`, each task
  that `operator()` submits by `run_on_thread` (the submissions of
  `DistributeWork`) has a non-empty thread range, of size at least 1, and each
  task it submits by `run` (the submissions of the halving loop) is not an
  initial task and has the thread range `{0, 0}` of size 0. -/
theorem thread_range_sizes (balance : Balance) (grainSizeMode : GrainSize) (stack : TaskStack)
    (rejected : Bool) (GetNumThreads from_ to_ : Nat) (grainSize : Int) (t : Task)
    (hn : 1 ≤ GetNumThreads) (hnW : GetNumThreads < W)
    (ht : (ParallelFor balance grainSizeMode stack rejected GetNumThreads from_ to_
      grainSize).task = some t) :
    1 ≤ t.Split_.Threads.Size ∧
    (∀ sched : List Choice, ∃ p, Pool.run sched ⟨[t], []⟩ = some p ∧
      ∀ u ∈ p.pending, u = t ∨
        (u.initial = Initial.FALSE ∧ u.Split_.Threads = ⟨0, 0⟩ ∧ u.Split_.Threads.Size = 0)) ∧
    (∀ (o : Oracle) (u : Task) (e : Exec), u.Split_.Threads.From ≤ u.Split_.Threads.To →
      u.Split_.Threads.To < W → Task.call o u = some e →
      (∀ ch hint, Event.run_on_thread ch hint ∈ e.trace →
        ch.Split_.Threads.From < ch.Split_.Threads.To ∧ ch.Split_.Threads.To < W ∧
          1 ≤ ch.Split_.Threads.Size) ∧
      (∀ ch, Event.run ch ∈ e.trace →
        ch.initial = Initial.FALSE ∧ ch.Split_.Threads = ⟨0, 0⟩ ∧
          ch.Split_.Threads.Size = 0)) := by
  have hz : (⟨0, 0⟩ : Range).Size = 0 := by unfold Range.Size; exact sub64_self 0
  refine ⟨?_, fun sched => ?_, fun o u e hle hW hcall => ⟨fun ch hint hch => ?_, fun ch hch => ?_⟩⟩
  · rcases ParallelFor_task_threads _ _ _ _ _ _ _ _ _ ht with h | h <;> rw [h]
    · exact Range.Size_pos _ (by decide) (by decide)
    · exact Range.Size_pos _ hn hnW
  · obtain ⟨_, _, hnd, _⟩ := ParallelFor_task _ _ _ _ _ _ _ _ _ ht
    obtain ⟨p, hp, hq⟩ := Pool.halved_run t hnd sched ⟨[t], []⟩
      (by intro u hu; simp only [List.mem_singleton] at hu; exact Or.inl hu)
    refine ⟨p, hp, fun u hu => ?_⟩
    rcases hq u hu with h | ⟨h1, h2⟩
    · exact Or.inl h
    · exact Or.inr ⟨h1, h2, by rw [h2]; exact hz⟩
  · obtain ⟨h1, h2⟩ := Task.call_pinned_children o u e hle hW hcall ch hint hch
    exact ⟨h1, h2, Range.Size_pos _ h1 h2⟩
  · obtain ⟨h1, h2⟩ := Task.call_run_children o u e hcall ch hch
    exact ⟨h1, h2, by rw [h2]; exact hz⟩

theorem thread_range_sizes_witness :
    ∃ t, (ParallelFor Balance.SIMPLE GrainSize.DEFAULT ⟨[7]⟩ false 4 0 2 1).task = some t ∧
      1 ≤ t.Split_.Threads.Size ∧
      ∀ sched : List Choice, ∃ p, Pool.run sched ⟨[t], []⟩ = some p ∧
        ∀ u ∈ p.pending, u = t ∨
          (u.initial = Initial.FALSE ∧ u.Split_.Threads = ⟨0, 0⟩ ∧ u.Split_.Threads.Size = 0) :=
  ⟨_, rfl,
    (thread_range_sizes Balance.SIMPLE GrainSize.DEFAULT ⟨[7]⟩ false 4 0 2 1 _
      (by decide) (by decide) rfl).1,
    (thread_range_sizes Balance.SIMPLE GrainSize.DEFAULT ⟨[7]⟩ false 4 0 2 1 _
      (by decide) (by decide) rfl).2.1⟩

/-- Counterexample to C14: the tasks the halving loop submits.  In
`ParallelFor<SIMPLE, DEFAULT>(0, 2, body, 1)`, called inside another task on a
pool of 4 workers, the caller's task `[0, 2)` has the thread range `[0, 4)`;
with the stack not half full its halving loop submits the task `[1, 2)` built
with `SplitData{.GrainSize = 1, .Depth = 1}`, whose thread range is `{0, 0}`,
of size 0. -/
theorem halving_child_has_no_threads :
    ∃ t, (ParallelFor Balance.SIMPLE GrainSize.DEFAULT ⟨[7]⟩ false 4 0 2 1).task = some t ∧
      t.Split_.Threads = ⟨0, 4⟩ ∧
      (Task.call ⟨0, fun _ => 0, fun _ => false⟩ t).map (fun e =>
        (submitted e.trace).map fun c =>
          (c.Current_, c.End_, c.Split_.Threads, c.Split_.Threads.Size)) =
        some [(1, 2, ⟨0, 0⟩, 0)] :=
  ⟨_, rfl, rfl, by with_unfolding_all decide⟩

/-! ## C15: `IsDivisible` in 64-bit arithmetic -/

/-- C15, amended. For all 64-bit `Current_ ≤ End_` and every 64-bit grain size,
with the sum `Current_ + GrainSize` taken modulo `2^64` as in the code:
* if `Current_ + GrainSize < 2^64`, `IsDivisible()` is true if and only if the
  remaining size `End_ - Current_` exceeds the grain and the stack is not half
  full;
* in any case a remaining size that exceeds the grain and a stack that is not
  half full make `IsDivisible()` true;
* if `Current_ + GrainSize ≥ 2^64`, the remaining size never exceeds the grain,
  and `IsDivisible()` is true if and only if `Current_ + GrainSize - 2^64 < End_`
  and the stack is not half full. -/
theorem is_divisible_iff (o : Oracle) (e : Exec) (hle : e.t.Current_ ≤ e.t.End_)
    (hW : e.t.End_ < W) (hg : e.t.Split_.GrainSize < W) :
    (e.t.Current_ + e.t.Split_.GrainSize < W →
      ((IsDivisible o e).1 = true ↔
        (e.t.Split_.GrainSize < e.t.End_ - e.t.Current_ ∧
          o.is_stack_half_full e.stackChecks = false))) ∧
    ((e.t.Split_.GrainSize < e.t.End_ - e.t.Current_ ∧
        o.is_stack_half_full e.stackChecks = false) → (IsDivisible o e).1 = true) ∧
    (W ≤ e.t.Current_ + e.t.Split_.GrainSize →
      ¬ e.t.Split_.GrainSize < e.t.End_ - e.t.Current_ ∧
      ((IsDivisible o e).1 = true ↔
        (e.t.Current_ + e.t.Split_.GrainSize - W < e.t.End_ ∧
          o.is_stack_half_full e.stackChecks = false))) := by
  have key : (IsDivisible o e).1 = true ↔
      (add64 e.t.Current_ e.t.Split_.GrainSize < e.t.End_ ∧
        o.is_stack_half_full e.stackChecks = false) := by
    constructor
    · intro h
      exact ⟨(IsDivisible_true o e h).1, (IsDivisible_true o e h).2.1⟩
    · rintro ⟨h1, h2⟩
      unfold IsDivisible
      rw [if_pos h1, h2]
      rfl
  refine ⟨fun hnw => ?_, fun ⟨h1, h2⟩ => ?_, fun hwrap => ⟨by omega, ?_⟩⟩
  · rw [key, add64_eq hnw]
    constructor
    · rintro ⟨h1, h2⟩; exact ⟨by omega, h2⟩
    · rintro ⟨h1, h2⟩; exact ⟨by omega, h2⟩
  · rw [key, add64_eq (by omega)]
    exact ⟨by omega, h2⟩
  · have hadd : add64 e.t.Current_ e.t.Split_.GrainSize
        = e.t.Current_ + e.t.Split_.GrainSize - W := by
      unfold add64
      simp only [W] at *
      omega
    rw [key, hadd]

theorem is_divisible_iff_witness :
    ((IsDivisible ⟨0, fun _ => 0, fun _ => false⟩
        { t := { balance := Balance.SIMPLE, grainSizeMode := GrainSize.DEFAULT, Current_ := 10,
                 End_ := 20, Split_ := { GrainSize := 4 } } }).1 = true ↔
      ((4 : ℕ) < 20 - 10 ∧ (fun _ : ℕ => false) 0 = false)) :=
  (is_divisible_iff ⟨0, fun _ => 0, fun _ => false⟩
    { t := { balance := Balance.SIMPLE, grainSizeMode := GrainSize.DEFAULT, Current_ := 10,
             End_ := 20, Split_ := { GrainSize := 4 } } }
    (by decide) (by decide) (by decide)).1 (by decide)

/-- Counterexample to C15, where `Current_ + GrainSize` wraps around: for
`Current_ = 1`, `End_ = 2`, grain `2^64 - 1` and a stack that is not half full,
`1 + GrainSize` is `0 < 2` in `size_t` and `IsDivisible()` is true, although the
remaining size `1` does not exceed the grain. -/
theorem is_divisible_wraps :
    (IsDivisible ⟨0, fun _ => 0, fun _ => false⟩
        { t := { balance := Balance.SIMPLE, grainSizeMode := GrainSize.DEFAULT, Current_ := 1,
                 End_ := 2, Split_ := { GrainSize := W - 1 } } }).1 = true ∧
      ¬ ((W - 1 : ℕ) < 2 - 1) := by
  constructor <;> with_unfolding_all decide

end EigenPartitioner
